import Mathlib

/-!
# FernRelocLib relocaliser driver (`FernRelocLib/Relocaliser.cpp`)

A shallow embedding of the image preprocessing filters and of the keyframe
harvesting driver, together with the properties stated about them.

Conventions of the embedding.

* `float` samples are rationals. Every filter is embedded twice: in exact
  arithmetic, which fixes the formula it computes, and in binary32 (names
  ending in `32`), where every operation is rounded to nearest, ties to even,
  by `round32`. Infinities and NaN are not represented: an operation that
  overflows, or divides by zero, makes the enclosing function return `none`.
* `int` sizes, loop counters and buffer indices are naturals; the signed tap
  offsets `x + i - s2` of the separable filters are computed in `Int`.
* A buffer is a list; a read or a write outside the buffer makes the enclosing
  function return `none`.
* A `for` loop is `forLoop`, which threads the loop's mutable state through the
  iterations in increasing order of the counter.
-/

namespace FernRelocLib

/-! ## Image container -/

/-- The type `ORUtils::Vector2<int>`, used for image dimensions. -/
structure Vector2 where
  x : Nat
  y : Nat
deriving DecidableEq, Repr

/-- The type `ORUtils::Image<float>`: dimensions and a row-major buffer. -/
structure Image where
  noDims : Vector2
  data : List ℚ
deriving DecidableEq

/-- An image is well formed when its buffer holds exactly one sample per pixel. -/
def Image.WF (img : Image) : Prop :=
  img.data.length = img.noDims.x * img.noDims.y

instance (img : Image) : Decidable img.WF := by
  unfold Image.WF; infer_instance

/-- Modelled from the spec: the constructor `ORUtils::Image<float>(dims, MEMORYDEVICE_CPU)`
of the image container, which allocates one sample per pixel. -/
def Image.create (dims : Vector2) : Image :=
  { noDims := dims, data := List.replicate (dims.x * dims.y) 0 }

/-- Resize a buffer to `n` samples, keeping the samples that fit. -/
def resizeBuffer (buf : List ℚ) (n : Nat) : List ℚ :=
  buf.take n ++ List.replicate (n - buf.length) 0

/-- Modelled from the spec: `ORUtils::Image::ChangeDims` of the image container
(`resize(w, h)`, which preserves or invalidates contents): the dimensions become
`newDims` and the buffer holds `newDims.x * newDims.y` samples. -/
def Image.ChangeDims (img : Image) (newDims : Vector2) : Image :=
  { noDims := newDims, data := resizeBuffer img.data (newDims.x * newDims.y) }

/-- The assignment `buf[i] = v`; `none` when `i` is outside the buffer. -/
def writeAt (buf : List ℚ) (i : Nat) (v : ℚ) : Option (List ℚ) :=
  if i < buf.length then some (buf.set i v) else none

/-- The loop `for (int i = 0; i < n; ++i) body`, acting on the state `s`. -/
def forLoop {σ : Type} : Nat → (Nat → σ → Option σ) → σ → Option σ
  | 0, _, s => some s
  | n + 1, body, s => (forLoop n body s).bind (body n)

/-! ## Subsampler -/

/-- The update `if (v > 0.0f) { num++; sum += v; }` of `filterSubsample`. -/
def accumulateValid (acc : Nat × ℚ) (v : ℚ) : Nat × ℚ :=
  if v > 0 then (acc.1 + 1, acc.2 + v) else acc

/-- The body of the pixel loop of `filterSubsample` (lines 119-152): the value
written at output pixel `(x, y)`. -/
def subsamplePixel (imageData_in : List ℚ) (imgSize_in : Vector2) (x y : Nat) : Option ℚ := do
  let x_src := x * 2
  let y_src := y * 2
  let acc : Nat × ℚ := (0, 0)
  let v ← imageData_in[x_src + y_src * imgSize_in.x]?
  let acc := accumulateValid acc v
  let v ← imageData_in[x_src + 1 + y_src * imgSize_in.x]?
  let acc := accumulateValid acc v
  let v ← imageData_in[x_src + (y_src + 1) * imgSize_in.x]?
  let acc := accumulateValid acc v
  let v ← imageData_in[x_src + 1 + (y_src + 1) * imgSize_in.x]?
  let acc := accumulateValid acc v
  let num := acc.1
  let sum := acc.2
  pure (if num > 0 then sum / (num : ℚ) else 0)

/-- The function `filterSubsample(input, output)`; the result is the new `*output`. -/
def filterSubsample (input output : Image) : Option Image :=
  let imgSize_in := input.noDims
  let imgSize_out : Vector2 := ⟨imgSize_in.x / 2, imgSize_in.y / 2⟩
  let output := output.ChangeDims imgSize_out
  let imageData_in := input.data
  (forLoop imgSize_out.y (fun y imageData_out =>
      forLoop imgSize_out.x (fun x imageData_out => do
        let v ← subsamplePixel imageData_in imgSize_in x y
        writeAt imageData_out (x + y * imgSize_out.x) v) imageData_out)
    output.data).map fun imageData_out => { output with data := imageData_out }

/-! ## Hole-aware separable Gaussian -/

/-- The read `buf[i]` at a signed index; `none` outside the buffer. -/
def readAt (buf : List ℚ) (i : Int) : Option ℚ :=
  if i < 0 then none else buf[i.toNat]?

/-- The function `createGaussianFilter(masksize, sigma, coeff)`; the result is the new
`coeff` buffer. The library function `exp` is the parameter `expf`. -/
def createGaussianFilter (expf : ℚ → ℚ) (masksize : Nat) (sigma : ℚ) (coeff : List ℚ) :
    Option (List ℚ) :=
  let s2 := masksize / 2
  forLoop masksize (fun i coeff =>
    writeAt coeff i
      (expf ((((-((i : Int) - s2) * ((i : Int) - s2) : Int) : ℚ)) / (2 * sigma * sigma))))
    coeff

/-- The body of the tap loop of `filterSeparable_x` (lines 53-60), acting on the pair
`(sum_v, sum_c)`; a `continue` leaves the pair as it is. -/
def tapStep_x (imageData_in coeff : List ℚ) (imgSize : Vector2) (s2 x y i : Nat)
    (acc : ℚ × ℚ) : Option (ℚ × ℚ) :=
  if (x : Int) + i - s2 < 0 then some acc
  else if (x : Int) + i - s2 ≥ imgSize.x then some acc
  else do
    let v ← readAt imageData_in ((y : Int) * imgSize.x + x + i - s2)
    if ¬ (v > 0) then some acc
    else do
      let c ← coeff[i]?
      let sum_c := acc.2 + c
      let sum_v := acc.1 + c * v
      pure (sum_v, sum_c)

/-- The body of the pixel loop of `filterSeparable_x` (lines 49-63): the value written
at pixel `(x, y)`. -/
def separablePixel_x (imageData_in coeff : List ℚ) (imgSize : Vector2) (masksize x y : Nat) :
    Option ℚ := do
  let s2 := masksize / 2
  let acc ← forLoop masksize (tapStep_x imageData_in coeff imgSize s2 x y) (0, 0)
  let sum_v := acc.1
  let sum_c := acc.2
  pure (if sum_c > 0 then sum_v / sum_c else 0)

/-- The function `filterSeparable_x(input, output, masksize, coeff)`; the result is the
new `*output`. -/
def filterSeparable_x (input output : Image) (masksize : Nat) (coeff : List ℚ) :
    Option Image :=
  let imgSize := input.noDims
  let output := output.ChangeDims imgSize
  let imageData_in := input.data
  (forLoop imgSize.y (fun y imageData_out =>
      forLoop imgSize.x (fun x imageData_out => do
        let v ← separablePixel_x imageData_in coeff imgSize masksize x y
        writeAt imageData_out (y * imgSize.x + x) v) imageData_out)
    output.data).map fun imageData_out => { output with data := imageData_out }

/-- The body of the tap loop of `filterSeparable_y` (lines 82-89), acting on the pair
`(sum_v, sum_c)`. -/
def tapStep_y (imageData_in coeff : List ℚ) (imgSize : Vector2) (s2 x y i : Nat)
    (acc : ℚ × ℚ) : Option (ℚ × ℚ) :=
  if (y : Int) + i - s2 < 0 then some acc
  else if (y : Int) + i - s2 ≥ imgSize.y then some acc
  else do
    let v ← readAt imageData_in (((y : Int) + i - s2) * imgSize.x + x)
    if ¬ (v > 0) then some acc
    else do
      let c ← coeff[i]?
      let sum_c := acc.2 + c
      let sum_v := acc.1 + c * v
      pure (sum_v, sum_c)

/-- The body of the pixel loop of `filterSeparable_y` (lines 78-92). -/
def separablePixel_y (imageData_in coeff : List ℚ) (imgSize : Vector2) (masksize x y : Nat) :
    Option ℚ := do
  let s2 := masksize / 2
  let acc ← forLoop masksize (tapStep_y imageData_in coeff imgSize s2 x y) (0, 0)
  let sum_v := acc.1
  let sum_c := acc.2
  pure (if sum_c > 0 then sum_v / sum_c else 0)

/-- The function `filterSeparable_y(input, output, masksize, coeff)`; the result is the
new `*output`. -/
def filterSeparable_y (input output : Image) (masksize : Nat) (coeff : List ℚ) :
    Option Image :=
  let imgSize := input.noDims
  let output := output.ChangeDims imgSize
  let imageData_in := input.data
  (forLoop imgSize.y (fun y imageData_out =>
      forLoop imgSize.x (fun x imageData_out => do
        let v ← separablePixel_y imageData_in coeff imgSize masksize x y
        writeAt imageData_out (y * imgSize.x + x) v) imageData_out)
    output.data).map fun imageData_out => { output with data := imageData_out }

/-- The conversion `(int)q` of a float to an int, which truncates towards zero. -/
def truncToInt (q : ℚ) : Int :=
  if 0 ≤ q then ⌊q⌋ else ⌈q⌉

/-- The mask length computed at lines 99-100 of `filterGaussian`. -/
def gaussianFilterSize (sigma : ℚ) : Int :=
  let filtersize := truncToInt (2 * (7 / 2) * sigma)
  if filtersize % 2 = 0 then filtersize + 1 else filtersize

/-- The function `filterGaussian(input, output, sigma)`; the result is the new `*output`.
A negative array length makes `new float[filtersize]` fail. -/
def filterGaussian (expf : ℚ → ℚ) (input output : Image) (sigma : ℚ) : Option Image := do
  let filtersize := gaussianFilterSize sigma
  if filtersize < 0 then none
  else
    let filtersize := filtersize.toNat
    let coeff := List.replicate filtersize (0 : ℚ)
    let tmpimg := Image.create input.noDims
    let coeff ← createGaussianFilter expf filtersize sigma coeff
    let tmpimg ← filterSeparable_x input tmpimg filtersize coeff
    filterSeparable_y tmpimg output filtersize coeff

/-! ## Relocaliser driver -/

/-- A fern code: the `char` buffer filled by the encoder. -/
abbrev Code := List Int

/-- The classes `FernConservatory`, `RelocDatabase` and `PoseDatabase` are declared
outside this file; their member functions are the fields of this record, each taking the
object it acts on and returning the object's new state when it has one. -/
structure Collaborators (Enc DB PDB Pose : Type) where
  newFernConservatory : Int → Vector2 → ℚ × ℚ → Int → Enc
  getNumFerns : Enc → Int
  getNumCodes : Enc → Int
  computeCode : Enc → Image → Code → Code
  newRelocDatabase : Int → Int → DB
  findMostSimilar : DB → Code → List Int → List ℚ → Nat → Int × List Int × List ℚ
  addEntry : DB → Code → Int × DB
  newPoseDatabase : PDB
  storePose : PDB → Int → Pose → Int → PDB
  retrievePose : PDB → Int → Option (Pose × Int)

/-- A call made to a collaborator, with its arguments. -/
inductive Call (Pose : Type) where
  | newFernConservatory (numFerns : Int) (imgSize : Vector2) (range : ℚ × ℚ)
      (numDecisionsPerFern : Int)
  | newRelocDatabase (numFerns : Int) (numCodes : Int)
  | newPoseDatabase
  | computeCode (img : Image)
  | findMostSimilar (code : Code) (k : Nat)
  | addEntry (code : Code)
  | storePose (id : Int) (pose : Pose) (sceneId : Int)

/-- Whether a call is a call of `addEntry`. -/
def Call.isAddEntry {Pose : Type} : Call Pose → Bool
  | .addEntry _ => true
  | _ => false

/-- Whether a call is a call of `storePose`. -/
def Call.isStorePose {Pose : Type} : Call Pose → Bool
  | .storePose _ _ _ => true
  | _ => false

/-- The data members of the class `Relocaliser`. -/
structure Relocaliser (Enc DB PDB : Type) where
  mKeyframeHarvestingThreshold : ℚ
  mEncoding : Enc
  relocDatabase : DB
  poseDatabase : PDB
  processedImage1 : Image
  processedImage2 : Image

/-- Modelled from the spec: the operator `imgSize / n` of `ORUtils::Vector2<int>`, the
component-wise integer division. -/
def Vector2.div (v : Vector2) (n : Nat) : Vector2 :=
  ⟨v.x / n, v.y / n⟩

/-- The constant `levels` of the constructor. -/
def Relocaliser.levels : Nat := 5

/-- The constructor `Relocaliser::Relocaliser`, with the calls it makes. -/
def Relocaliser.create {Enc DB PDB Pose : Type} (C : Collaborators Enc DB PDB Pose)
    (imgSize : Vector2) (range : ℚ × ℚ) (harvestingThreshold : ℚ)
    (numFerns numDecisionsPerFern : Int) : Relocaliser Enc DB PDB × List (Call Pose) :=
  let encSize := imgSize.div (1 <<< Relocaliser.levels)
  let mEncoding := C.newFernConservatory numFerns encSize range numDecisionsPerFern
  let relocDatabase := C.newRelocDatabase numFerns (C.getNumCodes mEncoding)
  let poseDatabase := C.newPoseDatabase
  ({ mKeyframeHarvestingThreshold := harvestingThreshold
     mEncoding := mEncoding
     relocDatabase := relocDatabase
     poseDatabase := poseDatabase
     processedImage1 := Image.create imgSize
     processedImage2 := Image.create imgSize },
   [.newFernConservatory numFerns encSize range numDecisionsPerFern,
    .newRelocDatabase numFerns (C.getNumCodes mEncoding),
    .newPoseDatabase])

/-- What a call of `ProcessFrame` leaves behind: the returned value, the relocaliser,
the caller's two output buffers, and the calls made to the collaborators, in order. -/
structure FrameResult (Enc DB PDB Pose : Type) where
  ret : Int
  self : Relocaliser Enc DB PDB
  nearestNeighbours : List Int
  distances : Option (List ℚ)
  calls : List (Call Pose)

/-- Lines 161-166 of `Relocaliser::ProcessFrame`: the preprocessing of the depth image,
alternating the two scratch images; the result is the new pair
`(processedImage1, processedImage2)`. -/
def preprocess (expf : ℚ → ℚ) (img_d processedImage1 processedImage2 : Image) :
    Option (Image × Image) := do
  let processedImage1 ← filterSubsample img_d processedImage1
  let processedImage2 ← filterSubsample processedImage1 processedImage2
  let processedImage1 ← filterSubsample processedImage2 processedImage1
  let processedImage2 ← filterSubsample processedImage1 processedImage2
  let processedImage1 ← filterGaussian expf processedImage2 processedImage1 (5 / 2)
  pure (processedImage1, processedImage2)

/-- The member function `Relocaliser::ProcessFrame`. A null `distances` argument is
`none`; the query `findMostSimilar` returns the count with the two filled buffers. -/
def Relocaliser.ProcessFrame {Enc DB PDB Pose : Type} (C : Collaborators Enc DB PDB Pose)
    (expf : ℚ → ℚ) (self : Relocaliser Enc DB PDB) (img_d : Image) (pose : Pose)
    (sceneId : Int) (k : Nat) (nearestNeighbours : List Int) (distances : Option (List ℚ))
    (harvestKeyframes : Bool) : Option (FrameResult Enc DB PDB Pose) := do
  -- downsample and preprocess image => processedImage1
  let (processedImage1, processedImage2) ←
    preprocess expf img_d self.processedImage1 self.processedImage2
  -- compute code
  let codeLength := C.getNumFerns self.mEncoding
  let code := C.computeCode self.mEncoding processedImage1 (List.replicate codeLength.toNat 0)
  let calls : List (Call Pose) := [.computeCode processedImage1]
  -- prepare outputs
  let ret : Int := -1
  let releaseDistances := distances.isNone
  let distances := distances.getD (List.replicate k 0)
  -- find similar frames
  let (similarFound, nearestNeighbours, distances) :=
    C.findMostSimilar self.relocDatabase code nearestNeighbours distances k
  let calls := calls ++ [.findMostSimilar code k]
  -- add keyframe to database
  let (ret, relocDatabase, poseDatabase, calls) ←
    if harvestKeyframes then do
      let (ret, relocDatabase, calls) ←
        if similarFound = 0 then
          let (id, db) := C.addEntry self.relocDatabase code
          some (id, db, calls ++ [.addEntry code])
        else do
          let d0 ← distances[0]?
          if d0 > self.mKeyframeHarvestingThreshold then
            let (id, db) := C.addEntry self.relocDatabase code
            some (id, db, calls ++ [.addEntry code])
          else some (ret, self.relocDatabase, calls)
      if ret ≥ 0 then
        some (ret, relocDatabase, C.storePose self.poseDatabase ret pose sceneId,
          calls ++ [.storePose ret pose sceneId])
      else some (ret, relocDatabase, self.poseDatabase, calls)
    else some (ret, self.relocDatabase, self.poseDatabase, calls)
  -- cleanup and return
  pure { ret := ret
         self := { self with relocDatabase := relocDatabase
                             poseDatabase := poseDatabase
                             processedImage1 := processedImage1
                             processedImage2 := processedImage2 }
         nearestNeighbours := nearestNeighbours
         distances := if releaseDistances then none else some distances
         calls := calls }

/-- The member function `Relocaliser::RetrievePose`. -/
def Relocaliser.RetrievePose {Enc DB PDB Pose : Type} (C : Collaborators Enc DB PDB Pose)
    (self : Relocaliser Enc DB PDB) (id : Int) : Option (Pose × Int) :=
  C.retrievePose self.poseDatabase id

/-- Modelled from the spec: the pose database, which is declared outside this file, as a
map from keyframe ids to (pose, scene id) records. -/
def PoseDatabase (Pose : Type) : Type := Int → Option (Pose × Int)

/-- Modelled from the spec: `storePose(id, pose, sceneId)` records the pair under `id`. -/
def PoseDatabase.storePose {Pose : Type} (db : PoseDatabase Pose) (id : Int) (pose : Pose)
    (sceneId : Int) : PoseDatabase Pose :=
  fun j => if j = id then some (pose, sceneId) else db j

/-- Modelled from the spec: `retrievePose(id)` returns the record stored under `id`. -/
def PoseDatabase.retrievePose {Pose : Type} (db : PoseDatabase Pose) (id : Int) :
    Option (Pose × Int) :=
  db id

/-- Modelled from the spec: a pose database with no record. -/
def PoseDatabase.empty {Pose : Type} : PoseDatabase Pose :=
  fun _ => none

/-! ## Reference definitions

The stages as the specification words them: each output image is given pixel by pixel,
with no buffer and no loop state. -/

namespace Spec

/-- The sample `I[y, x]` of an image (0 outside the buffer). -/
def sample (I : Image) (x y : Nat) : ℚ :=
  I.data.getD (y * I.noDims.x + x) 0

/-- The image of dimensions `dims` whose pixel `(x, y)` is `f x y`. -/
def tabulate (dims : Vector2) (f : Nat → Nat → ℚ) : Image :=
  { noDims := dims
    data := (List.range (dims.x * dims.y)).map fun i => f (i % dims.x) (i / dims.x) }

/-- The mean of the valid samples (value > 0) of a list, or 0 when none is valid. -/
def meanValid (vs : List ℚ) : ℚ :=
  let valid := vs.filter fun v => decide (0 < v)
  if valid.length = 0 then 0 else valid.sum / (valid.length : ℚ)

/-- The 2x2 input block of output pixel `(x, y)`:
`(2x, 2y), (2x+1, 2y), (2x, 2y+1), (2x+1, 2y+1)`. -/
def block (I : Image) (x y : Nat) : List ℚ :=
  [sample I (2 * x) (2 * y), sample I (2 * x + 1) (2 * y),
   sample I (2 * x) (2 * y + 1), sample I (2 * x + 1) (2 * y + 1)]

/-- The 2x decimation from `W x H` to `⌊W/2⌋ x ⌊H/2⌋` by the mean of the valid samples
of each block. -/
def subsample (I : Image) : Image :=
  tabulate ⟨I.noDims.x / 2, I.noDims.y / 2⟩ fun x y => meanValid (block I x y)

/-- The position `x' = x + i - M/2` of tap `i` of a mask of length `M` at `x`. -/
def tapPos (M x i : Nat) : Int :=
  (x : Int) + i - ((M / 2 : Nat) : Int)

/-- Tap `i` of the x-pass at `(x, y)` is counted: `0 ≤ x' < W` and `I[y, x']` is valid. -/
def countedX (I : Image) (M x y i : Nat) : Prop :=
  0 ≤ tapPos M x i ∧ tapPos M x i < I.noDims.x ∧ 0 < sample I (tapPos M x i).toNat y

instance (I : Image) (M x y i : Nat) : Decidable (countedX I M x y i) := by
  unfold countedX; infer_instance

/-- The x-pass at `(x, y)`: `Σ c[i]·I[y, x'] / Σ c[i]` over the counted taps, and 0 when
the coefficient sum is not positive. -/
def convAtX (I : Image) (M : Nat) (c : List ℚ) (x y : Nat) : ℚ :=
  let taps := (Finset.range M).filter fun i => countedX I M x y i
  let sum_c := ∑ i in taps, c.getD i 0
  let sum_v := ∑ i in taps, c.getD i 0 * sample I (tapPos M x i).toNat y
  if 0 < sum_c then sum_v / sum_c else 0

/-- The x-pass of the hole-aware separable filter. -/
def convX (I : Image) (M : Nat) (c : List ℚ) : Image :=
  tabulate I.noDims (convAtX I M c)

/-- Tap `i` of the y-pass at `(x, y)` is counted: `0 ≤ y' < H` and `I[y', x]` is valid. -/
def countedY (I : Image) (M x y i : Nat) : Prop :=
  0 ≤ tapPos M y i ∧ tapPos M y i < I.noDims.y ∧ 0 < sample I x (tapPos M y i).toNat

instance (I : Image) (M x y i : Nat) : Decidable (countedY I M x y i) := by
  unfold countedY; infer_instance

/-- The y-pass at `(x, y)`, symmetric to the x-pass. -/
def convAtY (I : Image) (M : Nat) (c : List ℚ) (x y : Nat) : ℚ :=
  let taps := (Finset.range M).filter fun i => countedY I M x y i
  let sum_c := ∑ i in taps, c.getD i 0
  let sum_v := ∑ i in taps, c.getD i 0 * sample I x (tapPos M y i).toNat
  if 0 < sum_c then sum_v / sum_c else 0

/-- The y-pass of the hole-aware separable filter. -/
def convY (I : Image) (M : Nat) (c : List ℚ) : Image :=
  tabulate I.noDims (convAtY I M c)

/-- The filter length `M = ⌊2 · 3.5 · σ⌋`, plus one if even. -/
def maskLength (sigma : ℚ) : Nat :=
  let M := ⌊2 * (7 / 2) * sigma⌋.toNat
  if M % 2 = 0 then M + 1 else M

/-- The mask `c[i] = exp(-(i - M/2)^2 / (2σ^2))`, unnormalised. -/
def gaussianMask (expf : ℚ → ℚ) (M : Nat) (sigma : ℚ) : List ℚ :=
  (List.range M).map fun (i : Nat) =>
    expf (-(((i : Int) - ((M / 2 : Nat) : Int) : Int) : ℚ) ^ 2 / (2 * sigma ^ 2))

/-- The full Gaussian: the x-pass, then the y-pass. -/
def gaussian (expf : ℚ → ℚ) (I : Image) (sigma : ℚ) : Image :=
  let M := maskLength sigma
  let c := gaussianMask expf M sigma
  convY (convX I M c) M c

/-- The fixed preprocessing schedule `I₅ = gaussian(subsample⁴(I₀), σ = 2.5)`. -/
def pipeline (expf : ℚ → ℚ) (I0 : Image) : Image :=
  gaussian expf (subsample (subsample (subsample (subsample I0)))) (5 / 2)

end Spec

/-! ## Names for the values of one frame -/

/-- The code of a frame: the encoder applied to the preprocessed image and a fresh buffer
of `getNumFerns()` entries. -/
def frameCode {Enc DB PDB Pose : Type} (C : Collaborators Enc DB PDB Pose) (expf : ℚ → ℚ)
    (self : Relocaliser Enc DB PDB) (img_d : Image) : Code :=
  C.computeCode self.mEncoding (Spec.pipeline expf img_d)
    (List.replicate (C.getNumFerns self.mEncoding).toNat 0)

/-- The answer `(s, neighbours, distances)` of the code database to the query made for a
frame; a null `distances` argument is replaced by a fresh buffer of `k` entries. -/
def frameQuery {Enc DB PDB Pose : Type} (C : Collaborators Enc DB PDB Pose) (expf : ℚ → ℚ)
    (self : Relocaliser Enc DB PDB) (img_d : Image) (k : Nat) (nearestNeighbours : List Int)
    (distances : Option (List ℚ)) : Int × List Int × List ℚ :=
  C.findMostSimilar self.relocDatabase (frameCode C expf self img_d) nearestNeighbours
    (distances.getD (List.replicate k 0)) k

/-- The image size given to the encoder's constructor in a list of calls. -/
def configuredEncoderSize {Pose : Type} : List (Call Pose) → Option Vector2
  | [] => none
  | .newFernConservatory _ imgSize _ _ :: _ => some imgSize
  | _ :: rest => configuredEncoderSize rest

/-- The size of the image given to `computeCode` in a list of calls. -/
def encodedImageSize {Pose : Type} : List (Call Pose) → Option Vector2
  | [] => none
  | .computeCode img :: _ => some img.noDims
  | _ :: rest => encodedImageSize rest

/-- A small set of collaborators on which the statements can be instantiated: the code
database is the list of its codes, `addEntry` appends and returns the position, the query
reports no neighbour on an empty database and one neighbour at distance 1/4 otherwise,
and the pose database is the map of the specification. -/
def listCollaborators : Collaborators Unit (List Code) (PoseDatabase Nat) Nat where
  newFernConservatory := fun _ _ _ _ => ()
  getNumFerns := fun _ => 2
  getNumCodes := fun _ => 2
  computeCode := fun _ img _ => [img.noDims.x, img.noDims.y]
  newRelocDatabase := fun _ _ => []
  findMostSimilar := fun db _ nn ds _ =>
    if db.isEmpty then (0, nn, ds) else (1, 0 :: nn.drop 1, (1 / 4) :: ds.drop 1)
  addEntry := fun db code => (db.length, db ++ [code])
  newPoseDatabase := PoseDatabase.empty
  storePose := PoseDatabase.storePose
  retrievePose := PoseDatabase.retrievePose

/-- A relocaliser over `listCollaborators` for 32 x 32 frames, with threshold 1/5. -/
def listRelocaliser : Relocaliser Unit (List Code) (PoseDatabase Nat) :=
  (Relocaliser.create listCollaborators ⟨32, 32⟩ (0, 1) (1 / 5) 2 2).1

/-- A 32 x 32 frame of constant depth 1. -/
def constantFrame : Image :=
  { noDims := ⟨32, 32⟩, data := List.replicate (32 * 32) 1 }

/-- A 3 x 3 depth image with holes (zero and negative samples). -/
def holedImage : Image :=
  { noDims := ⟨3, 3⟩, data := [1, 0, 3, 4, -1, 0, 7, 8, 9] }

/-- A scratch image holding stale contents of another size. -/
def staleImage : Image :=
  { noDims := ⟨1, 2⟩, data := [9, 9] }

/-- A 2 x 2 block whose two valid samples both equal 5, with a zero and a negative hole. -/
def twinImage : Image :=
  { noDims := ⟨2, 2⟩, data := [5, 0, -1, 5] }

namespace Spec

/-- The set of valid samples (value > 0) of an image. -/
def validSamples (I : Image) : Finset ℚ :=
  (I.data.filter fun v => decide (0 < v)).toFinset

end Spec

namespace Spec

/-- The image of dimensions `dims` whose every sample is `v`. -/
def constantImage (dims : Vector2) (v : ℚ) : Image :=
  { noDims := dims, data := List.replicate (dims.x * dims.y) v }

end Spec

namespace Spec

end Spec

/-- The member functions `LoadFromFile` of the three collaborators, which are declared
outside this file: each takes the object and a path and returns the loaded object or
raises an error. -/
structure Loaders (Enc DB PDB : Type) where
  loadEncoding : Enc → String → Except String Enc
  loadRelocDatabase : DB → String → Except String DB
  loadPoseDatabase : PDB → String → Except String PDB

/-- What a call of `LoadFromDirectory` leaves behind: the message of the
`std::runtime_error` it raised, if any, the relocaliser, and the paths given to the
`LoadFromFile` calls, in order. -/
structure LoadResult (Enc DB PDB : Type) where
  error : Option String
  self : Relocaliser Enc DB PDB
  loads : List String

/-- The member function `Relocaliser::LoadFromDirectory`. The file system is the
predicate `canOpen` on paths: `std::ifstream(path)` converts to true exactly on the paths
that can be opened. -/
def Relocaliser.LoadFromDirectory {Enc DB PDB : Type} (L : Loaders Enc DB PDB)
    (canOpen : String → Bool) (self : Relocaliser Enc DB PDB) (inputDirectory : String) :
    LoadResult Enc DB PDB :=
  let fernFilePath := inputDirectory ++ "ferns.txt"
  let frameCodeFilePath := inputDirectory ++ "frames.txt"
  let posesFilePath := inputDirectory ++ "poses.txt"
  if !canOpen fernFilePath then
    { error := some ("unable to open " ++ fernFilePath), self := self, loads := [] }
  else if !canOpen frameCodeFilePath then
    { error := some ("unable to open " ++ frameCodeFilePath), self := self, loads := [] }
  else if !canOpen posesFilePath then
    { error := some ("unable to open " ++ posesFilePath), self := self, loads := [] }
  else
    match L.loadEncoding self.mEncoding fernFilePath with
    | .error e => { error := some e, self := self, loads := [fernFilePath] }
    | .ok mEncoding =>
      let self := { self with mEncoding := mEncoding }
      match L.loadRelocDatabase self.relocDatabase frameCodeFilePath with
      | .error e =>
        { error := some e, self := self, loads := [fernFilePath, frameCodeFilePath] }
      | .ok relocDatabase =>
        let self := { self with relocDatabase := relocDatabase }
        match L.loadPoseDatabase self.poseDatabase posesFilePath with
        | .error e =>
          { error := some e, self := self
            loads := [fernFilePath, frameCodeFilePath, posesFilePath] }
        | .ok poseDatabase =>
          { error := none, self := { self with poseDatabase := poseDatabase }
            loads := [fernFilePath, frameCodeFilePath, posesFilePath] }

/-- Loaders for `listCollaborators` that never raise: the encoder is unchanged and both
databases are loaded empty. -/
def listLoaders : Loaders Unit (List Code) (PoseDatabase Nat) where
  loadEncoding := fun _ _ => .ok ()
  loadRelocDatabase := fun _ _ => .ok []
  loadPoseDatabase := fun _ _ => .ok PoseDatabase.empty

namespace Spec

/-- The sample at taps `(i, j)` of the `M x M` neighbourhood of `(x, y)` is counted: it is
in bounds and valid. -/
def counted2D (I : Image) (M x y i j : Nat) : Prop :=
  0 ≤ tapPos M x i ∧ tapPos M x i < I.noDims.x ∧ 0 ≤ tapPos M y j ∧ tapPos M y j < I.noDims.y ∧
    0 < sample I (tapPos M x i).toNat (tapPos M y j).toNat

instance (I : Image) (M x y i j : Nat) : Decidable (counted2D I M x y i j) := by
  unfold counted2D; infer_instance

/-- The direct 2D hole-aware normalised convolution at `(x, y)`:
`(Σ c[i]·c[j]·I[y+j-M/2, x+i-M/2]) / (Σ c[i]·c[j])` over the in-bounds samples > 0 of the
`M x M` neighbourhood. -/
def direct2D (I : Image) (M : Nat) (c : List ℚ) (x y : Nat) : ℚ :=
  let taps := (Finset.range M ×ˢ Finset.range M).filter fun p => counted2D I M x y p.1 p.2
  (∑ p in taps, c.getD p.1 0 * c.getD p.2 0 *
      sample I (tapPos M x p.1).toNat (tapPos M y p.2).toNat) /
    (∑ p in taps, c.getD p.1 0 * c.getD p.2 0)

end Spec

/-- A 2 x 2 image with one hole: rows `1, 3` and `5, hole`. -/
def cornerHoleImage : Image :=
  { noDims := ⟨2, 2⟩, data := [1, 3, 5, 0] }

/-! ## Binary32 arithmetic

The source computes in `float`. The definitions above keep the formulas and drop the
rounding; the definitions of this section follow the same lines of the source and round
every operation to binary32, to nearest with ties to even. A binary32 value is a rational
that `round32` leaves unchanged; infinities and NaN are not represented, and an operation
whose result overflows returns `none`. -/

/-- Rounding to the nearest integer, ties to the even one. -/
def roundHalfEven (q : ℚ) : Int :=
  if q - ⌊q⌋ < 1 / 2 then ⌊q⌋
  else if 1 / 2 < q - ⌊q⌋ then ⌊q⌋ + 1
  else if ⌊q⌋ % 2 = 0 then ⌊q⌋ else ⌊q⌋ + 1

/-- The exponent of the unit in the last place of binary32 at `q`: 23 below the binade of
`|q|`, and -149 throughout the subnormal range. -/
def ulpExponent (q : ℚ) : Int :=
  max (Int.log 2 |q| - 23) (-149)

/-- Rounding to the nearest binary32 value, ties to even; `none` on overflow. -/
def round32 (q : ℚ) : Option ℚ :=
  if |(roundHalfEven (q / 2 ^ ulpExponent q) : ℚ) * 2 ^ ulpExponent q| < 2 ^ (128 : Int) then
    some ((roundHalfEven (q / 2 ^ ulpExponent q) : ℚ) * 2 ^ ulpExponent q)
  else none

/-- The binary32 sum `a + b`. -/
def add32 (a b : ℚ) : Option ℚ := round32 (a + b)

/-- The binary32 product `a * b`. -/
def mul32 (a b : ℚ) : Option ℚ := round32 (a * b)

/-- The binary32 quotient `a / b`. -/
def div32 (a b : ℚ) : Option ℚ := round32 (a / b)

/-- The update `if (v > 0.0f) { num++; sum += v; }` of `filterSubsample`, in binary32. -/
def accumulateValid32 (acc : Nat × ℚ) (v : ℚ) : Option (Nat × ℚ) :=
  if v > 0 then (add32 acc.2 v).map fun sum => (acc.1 + 1, sum) else some acc

/-- The body of the pixel loop of `filterSubsample` (lines 119-152) in binary32; the
conversion `(float)num` of a count of at most 4 is exact. -/
def subsamplePixel32 (imageData_in : List ℚ) (imgSize_in : Vector2) (x y : Nat) :
    Option ℚ := do
  let x_src := x * 2
  let y_src := y * 2
  let acc : Nat × ℚ := (0, 0)
  let v ← imageData_in[x_src + y_src * imgSize_in.x]?
  let acc ← accumulateValid32 acc v
  let v ← imageData_in[x_src + 1 + y_src * imgSize_in.x]?
  let acc ← accumulateValid32 acc v
  let v ← imageData_in[x_src + (y_src + 1) * imgSize_in.x]?
  let acc ← accumulateValid32 acc v
  let v ← imageData_in[x_src + 1 + (y_src + 1) * imgSize_in.x]?
  let acc ← accumulateValid32 acc v
  let num := acc.1
  let sum := acc.2
  if num > 0 then div32 sum (num : ℚ) else pure 0

/-- The function `filterSubsample(input, output)` in binary32. -/
def filterSubsample32 (input output : Image) : Option Image :=
  let imgSize_in := input.noDims
  let imgSize_out : Vector2 := ⟨imgSize_in.x / 2, imgSize_in.y / 2⟩
  let output := output.ChangeDims imgSize_out
  let imageData_in := input.data
  (forLoop imgSize_out.y (fun y imageData_out =>
      forLoop imgSize_out.x (fun x imageData_out => do
        let v ← subsamplePixel32 imageData_in imgSize_in x y
        writeAt imageData_out (x + y * imgSize_out.x) v) imageData_out)
    output.data).map fun imageData_out => { output with data := imageData_out }

/-- The length computed by lines 99-100 of `filterGaussian` in binary32: the product
`2.0f*3.5f*sigma` is rounded at each multiplication, the cast truncates, and an even
length gets one more entry. The result is `none` when the product overflows or when its
integer part is outside the range of a 32-bit `int`, where the cast is undefined. -/
def gaussianFilterSize32 (sigma : ℚ) : Option Int := do
  let c ← mul32 2 (7 / 2)
  let p ← mul32 c sigma
  if -(2 ^ 31 : ℚ) - 1 < p ∧ p < 2 ^ 31 then
    let filtersize := truncToInt p
    pure (if filtersize % 2 = 0 then filtersize + 1 else filtersize)
  else none

namespace Spec

/-- The mean of the valid samples of a list as binary32 computes it: the valid samples are
added from left to right, every sum rounded, and the last sum is divided by their number. -/
def meanValid32 (vs : List ℚ) : Option ℚ :=
  (vs.foldlM accumulateValid32 (0, 0)).bind fun acc =>
    if acc.1 > 0 then div32 acc.2 (acc.1 : ℚ) else some 0

end Spec

/-- A 2 x 2 block of three equal valid samples and a hole. -/
def tripleImage : Image :=
  { noDims := ⟨2, 2⟩, data := [16777214, 16777214, 16777214, 0] }

/-- A 2 x 2 block of three equal valid samples, whose sum is rounded upwards, and a hole. -/
def roundUpImage : Image :=
  { noDims := ⟨2, 2⟩, data := [16777210, 16777210, 16777210, 0] }

/-- The unit roundoff of binary32, `2^-24`: the largest relative error of one rounding in
the normal range. -/
def unitRoundoff : ℚ := 1 / 2 ^ 24

/-- The two updates `sum_c += coeff[i]; sum_v += coeff[i] * v;` of the tap loops
(lines 59-60 and 88-89) in binary32, acting on the pair `(sum_v, sum_c)`: the product and
both sums are rounded, each on its own (no fused multiply-add). -/
def accumulateTap32 (acc : ℚ × ℚ) (c v : ℚ) : Option (ℚ × ℚ) := do
  let sum_c ← add32 acc.2 c
  let p ← mul32 c v
  let sum_v ← add32 acc.1 p
  pure (sum_v, sum_c)

/-- The body of the tap loop of `filterSeparable_x` (lines 53-60) in binary32. -/
def tapStep32_x (imageData_in coeff : List ℚ) (imgSize : Vector2) (s2 x y i : Nat)
    (acc : ℚ × ℚ) : Option (ℚ × ℚ) :=
  if (x : Int) + i - s2 < 0 then some acc
  else if (x : Int) + i - s2 ≥ imgSize.x then some acc
  else do
    let v ← readAt imageData_in ((y : Int) * imgSize.x + x + i - s2)
    if ¬ (v > 0) then some acc
    else do
      let c ← coeff[i]?
      accumulateTap32 acc c v

/-- The body of the pixel loop of `filterSeparable_x` (lines 49-63) in binary32. -/
def separablePixel32_x (imageData_in coeff : List ℚ) (imgSize : Vector2)
    (masksize x y : Nat) : Option ℚ := do
  let s2 := masksize / 2
  let acc ← forLoop masksize (tapStep32_x imageData_in coeff imgSize s2 x y) (0, 0)
  let sum_v := acc.1
  let sum_c := acc.2
  if sum_c > 0 then div32 sum_v sum_c else pure 0

/-- The function `filterSeparable_x(input, output, masksize, coeff)` in binary32. -/
def filterSeparable32_x (input output : Image) (masksize : Nat) (coeff : List ℚ) :
    Option Image :=
  let imgSize := input.noDims
  let output := output.ChangeDims imgSize
  let imageData_in := input.data
  (forLoop imgSize.y (fun y imageData_out =>
      forLoop imgSize.x (fun x imageData_out => do
        let v ← separablePixel32_x imageData_in coeff imgSize masksize x y
        writeAt imageData_out (y * imgSize.x + x) v) imageData_out)
    output.data).map fun imageData_out => { output with data := imageData_out }

/-- The body of the tap loop of `filterSeparable_y` (lines 82-89) in binary32. -/
def tapStep32_y (imageData_in coeff : List ℚ) (imgSize : Vector2) (s2 x y i : Nat)
    (acc : ℚ × ℚ) : Option (ℚ × ℚ) :=
  if (y : Int) + i - s2 < 0 then some acc
  else if (y : Int) + i - s2 ≥ imgSize.y then some acc
  else do
    let v ← readAt imageData_in (((y : Int) + i - s2) * imgSize.x + x)
    if ¬ (v > 0) then some acc
    else do
      let c ← coeff[i]?
      accumulateTap32 acc c v

/-- The body of the pixel loop of `filterSeparable_y` (lines 78-92) in binary32. -/
def separablePixel32_y (imageData_in coeff : List ℚ) (imgSize : Vector2)
    (masksize x y : Nat) : Option ℚ := do
  let s2 := masksize / 2
  let acc ← forLoop masksize (tapStep32_y imageData_in coeff imgSize s2 x y) (0, 0)
  let sum_v := acc.1
  let sum_c := acc.2
  if sum_c > 0 then div32 sum_v sum_c else pure 0

/-- The function `filterSeparable_y(input, output, masksize, coeff)` in binary32. -/
def filterSeparable32_y (input output : Image) (masksize : Nat) (coeff : List ℚ) :
    Option Image :=
  let imgSize := input.noDims
  let output := output.ChangeDims imgSize
  let imageData_in := input.data
  (forLoop imgSize.y (fun y imageData_out =>
      forLoop imgSize.x (fun x imageData_out => do
        let v ← separablePixel32_y imageData_in coeff imgSize masksize x y
        writeAt imageData_out (y * imgSize.x + x) v) imageData_out)
    output.data).map fun imageData_out => { output with data := imageData_out }

/-- The function `createGaussianFilter` in binary32: the integer `-(i - s2)*(i - s2)` is
converted to `float`, the denominator `2.0f*sigma*sigma` is two rounded products, the
quotient is rounded, and the value of `exp`, the parameter `expf`, is rounded when it is
stored in `coeff[i]`. A zero denominator, for which the quotient is infinite or NaN, gives
`none`. -/
def createGaussianFilter32 (expf : ℚ → ℚ) (masksize : Nat) (sigma : ℚ) (coeff : List ℚ) :
    Option (List ℚ) :=
  let s2 := masksize / 2
  forLoop masksize (fun i coeff => do
    let num ← round32 ((-((i : Int) - s2) * ((i : Int) - s2) : Int) : ℚ)
    let d ← mul32 2 sigma
    let den ← mul32 d sigma
    if den = 0 then none
    else
      let arg ← div32 num den
      let c ← round32 (expf arg)
      writeAt coeff i c) coeff

/-- The function `filterGaussian(input, output, sigma)` in binary32. -/
def filterGaussian32 (expf : ℚ → ℚ) (input output : Image) (sigma : ℚ) : Option Image := do
  let filtersize ← gaussianFilterSize32 sigma
  if filtersize < 0 then none
  else
    let filtersize := filtersize.toNat
    let coeff := List.replicate filtersize (0 : ℚ)
    let tmpimg := Image.create input.noDims
    let coeff ← createGaussianFilter32 expf filtersize sigma coeff
    let tmpimg ← filterSeparable32_x input tmpimg filtersize coeff
    filterSeparable32_y tmpimg output filtersize coeff

/-- Lines 161-166 of `Relocaliser::ProcessFrame` in binary32. -/
def preprocess32 (expf : ℚ → ℚ) (img_d processedImage1 processedImage2 : Image) :
    Option (Image × Image) := do
  let processedImage1 ← filterSubsample32 img_d processedImage1
  let processedImage2 ← filterSubsample32 processedImage1 processedImage2
  let processedImage1 ← filterSubsample32 processedImage2 processedImage1
  let processedImage2 ← filterSubsample32 processedImage1 processedImage2
  let processedImage1 ← filterGaussian32 expf processedImage2 processedImage1 (5 / 2)
  pure (processedImage1, processedImage2)

/-- A 16 x 16 image without holes whose samples range from 1 to 31. -/
def rampImage : Image :=
  Spec.tabulate ⟨16, 16⟩ fun x y => (x : ℚ) + y + 1

/-! # Properties -/

/-! ## Loops -/

theorem forLoop_succ {σ : Type} (n : Nat) (body : Nat → σ → Option σ) (s : σ) :
    forLoop (n + 1) body s = (forLoop n body s).bind (body n) := rfl

/-- One row of the pixel loops: after `n` iterations the first `n` pixels of row `y`
hold their values and every other sample of the buffer is untouched. -/
theorem forLoop_row (W y : Nat) (pix : Nat → Option ℚ) (g : Nat → ℚ)
    (hpix : ∀ x, x < W → pix x = some (g x)) (buf : List ℚ)
    (hlen : y * W + W ≤ buf.length) (n : Nat) (hn : n ≤ W) :
    ∃ out, forLoop n (fun x out => (pix x).bind fun v => writeAt out (y * W + x) v) buf
        = some out ∧ out.length = buf.length ∧
      ∀ j, out[j]? = if y * W ≤ j ∧ j < y * W + n then some (g (j - y * W)) else buf[j]? := by
  induction n with
  | zero =>
    refine ⟨buf, rfl, rfl, fun j => ?_⟩
    have : ¬ (y * W ≤ j ∧ j < y * W + 0) := by omega
    rw [if_neg this]
  | succ n ih =>
    obtain ⟨out, hrun, hl, hget⟩ := ih (by omega)
    have hw : y * W + n < out.length := by omega
    refine ⟨out.set (y * W + n) (g n), ?_, by simp [hl], fun j => ?_⟩
    · rw [forLoop_succ, hrun, Option.some_bind, hpix n (by omega), Option.some_bind,
        writeAt, if_pos hw]
    · by_cases hj : j = y * W + n
      · subst hj
        have : y * W ≤ y * W + n ∧ y * W + n < y * W + (n + 1) := by omega
        simp [this, hw]
      · rw [List.getElem?_set_ne (Ne.symm hj), hget j]
        by_cases h1 : y * W ≤ j ∧ j < y * W + n
        · have : y * W ≤ j ∧ j < y * W + (n + 1) := by omega
          simp [h1, this]
        · have : ¬ (y * W ≤ j ∧ j < y * W + (n + 1)) := by omega
          simp [h1, this]

/-- The nested pixel loops: after `m` iterations of the outer loop the first `m` rows
hold their values and the rest of the buffer is untouched. -/
theorem forLoop_rows (W H : Nat) (pix : Nat → Nat → Option ℚ) (g : Nat → Nat → ℚ)
    (hpix : ∀ x y, x < W → y < H → pix x y = some (g x y)) (buf : List ℚ)
    (hlen : buf.length = W * H) (m : Nat) (hm : m ≤ H) :
    ∃ out, forLoop m (fun y out =>
          forLoop W (fun x out => (pix x y).bind fun v => writeAt out (y * W + x) v) out) buf
        = some out ∧ out.length = buf.length ∧
      ∀ j, out[j]? = if j < m * W then some (g (j % W) (j / W)) else buf[j]? := by
  induction m with
  | zero =>
    exact ⟨buf, rfl, rfl, fun j => by simp⟩
  | succ m ih =>
    obtain ⟨out, hrun, hl, hget⟩ := ih (by omega)
    have hrow : m * W + W ≤ out.length := by
      rw [hl, hlen]
      calc m * W + W = W * (m + 1) := by ring
        _ ≤ W * H := Nat.mul_le_mul_left W hm
    obtain ⟨out2, hrun2, hl2, hget2⟩ :=
      forLoop_row W m (fun x => pix x m) (fun x => g x m)
        (fun x hx => hpix x m hx (by omega)) out hrow W le_rfl
    refine ⟨out2, ?_, by omega, fun j => ?_⟩
    · rw [forLoop_succ, hrun, Option.some_bind]
      exact hrun2
    · rw [hget2 j, hget j]
      have e : (m + 1) * W = m * W + W := by ring
      by_cases h1 : m * W ≤ j ∧ j < m * W + W
      · have h2 : j < (m + 1) * W := by omega
        have hW : 0 < W := by omega
        have hdiv : j / W = m := by
          apply Nat.div_eq_of_lt_le
          · simpa [Nat.mul_comm] using h1.1
          · simpa [Nat.mul_comm, Nat.succ_mul] using h2
        have hmod : j % W = j - m * W := by
          have := Nat.div_add_mod j W
          rw [hdiv] at this
          have e2 : W * m = m * W := Nat.mul_comm _ _
          omega
        simp [h1, h2, hdiv, hmod]
      · by_cases h3 : j < m * W
        · have h2 : j < (m + 1) * W := by omega
          simp [h1, h2, h3]
        · have h2 : ¬ j < (m + 1) * W := by omega
          simp [h1, h2, h3]

theorem length_resizeBuffer (buf : List ℚ) (n : Nat) : (resizeBuffer buf n).length = n := by
  simp [resizeBuffer]
  omega

/-- The nested pixel loops, run on a resized output image, produce the tabulated image
whatever the output image held before. -/
theorem pixelLoops_eq (dims : Vector2) (pix : Nat → Nat → Option ℚ) (g : Nat → Nat → ℚ)
    (idx : Nat → Nat → Nat) (hidx : ∀ x y, idx x y = y * dims.x + x)
    (hpix : ∀ x y, x < dims.x → y < dims.y → pix x y = some (g x y)) (output : Image) :
    (forLoop dims.y (fun y out =>
        forLoop dims.x (fun x out => (pix x y).bind fun v => writeAt out (idx x y) v) out)
      (output.ChangeDims dims).data).map
        (fun d => ({ output.ChangeDims dims with data := d } : Image))
      = some (Spec.tabulate dims g) := by
  have hi : idx = fun x y => y * dims.x + x := by
    funext x y
    exact hidx x y
  subst hi
  have hlen : (output.ChangeDims dims).data.length = dims.x * dims.y := by
    simp [Image.ChangeDims, length_resizeBuffer]
  obtain ⟨out, hrun, hl, hget⟩ :=
    forLoop_rows dims.x dims.y pix g hpix _ hlen dims.y le_rfl
  rw [hrun, Option.map_some']
  have hout : out = (List.range (dims.x * dims.y)).map
      fun i => g (i % dims.x) (i / dims.x) := by
    apply List.ext_getElem?
    intro j
    rw [hget j]
    by_cases hj : j < dims.y * dims.x
    · have hj2 : j < dims.x * dims.y := by rwa [Nat.mul_comm] at hj
      simp [hj, hj2, List.getElem?_range]
    · have hj2 : ¬ j < dims.x * dims.y := by rwa [Nat.mul_comm] at hj
      have h3 : (output.ChangeDims dims).data.length ≤ j := by omega
      rw [if_neg hj, List.getElem?_eq_none h3]
      symm
      apply List.getElem?_eq_none
      simp
      omega
  simp [Spec.tabulate, Image.ChangeDims, hout]

/-! ## Subsampler -/

theorem getElem?_eq_getD (buf : List ℚ) (i : Nat) (h : i < buf.length) :
    buf[i]? = some (buf.getD i 0) := by
  simp [List.getD, List.getElem?_eq_getElem h]

/-- The four guarded accumulations compute the mean of the valid samples. -/
theorem accumulateValid_mean (a b c d : ℚ) :
    (if (accumulateValid (accumulateValid (accumulateValid (accumulateValid (0, 0) a) b) c)
          d).1 > 0 then
        (accumulateValid (accumulateValid (accumulateValid (accumulateValid (0, 0) a) b) c)
          d).2 /
        (((accumulateValid (accumulateValid (accumulateValid (accumulateValid (0, 0) a) b) c)
          d).1 : Nat) : ℚ)
      else 0) = Spec.meanValid [a, b, c, d] := by
  unfold accumulateValid Spec.meanValid
  by_cases ha : 0 < a <;> by_cases hb : 0 < b <;> by_cases hc : 0 < c <;>
    by_cases hd : 0 < d <;> simp [ha, hb, hc, hd, List.filter] <;> ring

/-- The four reads of the pixel loop of `filterSubsample` are inside a well-formed input. -/
theorem subsample_index_lt (W H x y : Nat) (hx : x < W / 2) (hy : y < H / 2) :
    x * 2 + 1 + (y * 2 + 1) * W < W * H := by
  have h1 : x * 2 + 1 < W := by omega
  have h2 : y * 2 + 1 + 1 ≤ H := by omega
  calc x * 2 + 1 + (y * 2 + 1) * W < W + (y * 2 + 1) * W := by omega
    _ = W * (y * 2 + 1 + 1) := by ring
    _ ≤ W * H := Nat.mul_le_mul_left W h2

theorem subsamplePixel_eq (I : Image) (hwf : I.WF) (x y : Nat) (hx : x < I.noDims.x / 2)
    (hy : y < I.noDims.y / 2) :
    subsamplePixel I.data I.noDims x y = some (Spec.meanValid (Spec.block I x y)) := by
  have hmax := subsample_index_lt I.noDims.x I.noDims.y x y hx hy
  have hlen : I.data.length = I.noDims.x * I.noDims.y := hwf
  have hmono : y * 2 * I.noDims.x ≤ (y * 2 + 1) * I.noDims.x :=
    Nat.mul_le_mul_right _ (by omega)
  have h1 : x * 2 + y * 2 * I.noDims.x < I.data.length := by omega
  have h2 : x * 2 + 1 + y * 2 * I.noDims.x < I.data.length := by omega
  have h3 : x * 2 + (y * 2 + 1) * I.noDims.x < I.data.length := by omega
  have h4 : x * 2 + 1 + (y * 2 + 1) * I.noDims.x < I.data.length := by omega
  have e1 : 2 * y * I.noDims.x + 2 * x = x * 2 + y * 2 * I.noDims.x := by ring
  have e2 : 2 * y * I.noDims.x + (2 * x + 1) = x * 2 + 1 + y * 2 * I.noDims.x := by ring
  have e3 : (2 * y + 1) * I.noDims.x + 2 * x = x * 2 + (y * 2 + 1) * I.noDims.x := by ring
  have e4 : (2 * y + 1) * I.noDims.x + (2 * x + 1) = x * 2 + 1 + (y * 2 + 1) * I.noDims.x := by
    ring
  unfold subsamplePixel
  simp only [getElem?_eq_getD _ _ h1, getElem?_eq_getD _ _ h2, getElem?_eq_getD _ _ h3,
    getElem?_eq_getD _ _ h4, Option.bind_eq_bind, Option.some_bind, Option.pure_def]
  rw [accumulateValid_mean]
  simp only [Spec.block, Spec.sample, e1, e2, e3, e4]

/-- The function `filterSubsample` returns the reference subsampling of its input,
whatever the output image held before. -/
theorem filterSubsample_eq (input output : Image) (hwf : input.WF) :
    filterSubsample input output = some (Spec.subsample input) := by
  unfold filterSubsample Spec.subsample
  exact pixelLoops_eq ⟨input.noDims.x / 2, input.noDims.y / 2⟩
    (fun x y => subsamplePixel input.data input.noDims x y)
    (fun x y => Spec.meanValid (Spec.block input x y))
    (fun x y => x + y * (input.noDims.x / 2)) (fun x y => Nat.add_comm _ _)
    (fun x y hx hy => subsamplePixel_eq input hwf x y hx hy) output

/-! ## Separable passes -/

theorem readAt_natCast (buf : List ℚ) (z : Int) (n : Nat) (hz : z = (n : Int))
    (hn : n < buf.length) : readAt buf z = some (buf.getD n 0) := by
  subst hz
  have : ¬ ((n : Int) < 0) := by omega
  rw [readAt, if_neg this, Int.toNat_ofNat, getElem?_eq_getD _ _ hn]

/-- One tap of the x-pass adds its contribution exactly when the tap is counted. -/
theorem tapStep_x_eq (I : Image) (hwf : I.WF) (coeff : List ℚ) (M x y i : Nat)
    (hy : y < I.noDims.y) (hi : i < coeff.length) (acc : ℚ × ℚ) :
    tapStep_x I.data coeff I.noDims (M / 2) x y i acc =
      some (if Spec.countedX I M x y i then
          (acc.1 + coeff.getD i 0 * Spec.sample I (Spec.tapPos M x i).toNat y,
           acc.2 + coeff.getD i 0)
        else acc) := by
  unfold tapStep_x Spec.countedX
  have ht : (x : Int) + i - ((M / 2 : Nat) : Int) = Spec.tapPos M x i := rfl
  simp only [ht]
  by_cases h0 : Spec.tapPos M x i < 0
  · have : ¬ (0 ≤ Spec.tapPos M x i) := by omega
    simp [h0, this]
  by_cases h1 : Spec.tapPos M x i ≥ I.noDims.x
  · have : ¬ (Spec.tapPos M x i < I.noDims.x) := by omega
    simp [h0, h1, this]
  have h0' : 0 ≤ Spec.tapPos M x i := by omega
  have h1' : Spec.tapPos M x i < I.noDims.x := by omega
  obtain ⟨t, htt⟩ := Int.eq_ofNat_of_zero_le h0'
  have htW : t < I.noDims.x := by omega
  have hidx : y * I.noDims.x + t < I.data.length := by
    have hlen : I.data.length = I.noDims.x * I.noDims.y := hwf
    have : (y + 1) * I.noDims.x ≤ I.noDims.y * I.noDims.x := Nat.mul_le_mul_right _ hy
    have e1 : (y + 1) * I.noDims.x = y * I.noDims.x + I.noDims.x := by ring
    have e2 : I.noDims.y * I.noDims.x = I.noDims.x * I.noDims.y := Nat.mul_comm _ _
    omega
  have hz : (y : Int) * I.noDims.x + x + i - ((M / 2 : Nat) : Int)
      = ((y * I.noDims.x + t : Nat) : Int) := by
    have : Spec.tapPos M x i = (x : Int) + i - ((M / 2 : Nat) : Int) := rfl
    push_cast
    omega
  rw [if_neg h0, if_neg h1, readAt_natCast _ _ _ hz hidx]
  have hs : Spec.sample I (Spec.tapPos M x i).toNat y = I.data.getD (y * I.noDims.x + t) 0 := by
    rw [htt, Int.toNat_ofNat]
    rfl
  simp only [hs, getElem?_eq_getD _ _ hi]
  generalize I.data.getD (y * I.noDims.x + t) 0 = v
  generalize coeff.getD i 0 = c
  by_cases hv : 0 < v
  · simp [h0', h1', hv]
  · simp [h0', h1', hv]

/-- The tap loop of the x-pass computes the two sums over the counted taps. -/
theorem tapLoop_x_eq (I : Image) (hwf : I.WF) (coeff : List ℚ) (M x y : Nat)
    (hy : y < I.noDims.y) (n : Nat) (hn : n ≤ coeff.length) :
    forLoop n (tapStep_x I.data coeff I.noDims (M / 2) x y) (0, 0) =
      some (∑ i in (Finset.range n).filter (fun i => Spec.countedX I M x y i),
              coeff.getD i 0 * Spec.sample I (Spec.tapPos M x i).toNat y,
            ∑ i in (Finset.range n).filter (fun i => Spec.countedX I M x y i),
              coeff.getD i 0) := by
  induction n with
  | zero => simp [forLoop]
  | succ n ih =>
    rw [forLoop_succ, ih (by omega), Option.some_bind,
      tapStep_x_eq I hwf coeff M x y n hy (by omega)]
    by_cases hc : Spec.countedX I M x y n
    · simp [hc, Finset.range_succ, Finset.filter_insert, Finset.sum_insert, add_comm]
    · simp [hc, Finset.range_succ, Finset.filter_insert]

theorem separablePixel_x_eq (I : Image) (hwf : I.WF) (coeff : List ℚ) (M x y : Nat)
    (hy : y < I.noDims.y) (hM : M ≤ coeff.length) :
    separablePixel_x I.data coeff I.noDims M x y = some (Spec.convAtX I M coeff x y) := by
  unfold separablePixel_x
  simp only [tapLoop_x_eq I hwf coeff M x y hy M hM, Option.bind_eq_bind, Option.some_bind,
    Option.pure_def]
  rfl

/-- The function `filterSeparable_x` returns the reference x-pass of its input, whatever
the output image held before. -/
theorem filterSeparable_x_eq (input output : Image) (M : Nat) (coeff : List ℚ)
    (hwf : input.WF) (hM : M ≤ coeff.length) :
    filterSeparable_x input output M coeff = some (Spec.convX input M coeff) := by
  unfold filterSeparable_x Spec.convX
  exact pixelLoops_eq input.noDims
    (fun x y => separablePixel_x input.data coeff input.noDims M x y)
    (Spec.convAtX input M coeff)
    (fun x y => y * input.noDims.x + x) (fun x y => rfl)
    (fun x y _ hy => separablePixel_x_eq input hwf coeff M x y hy hM) output

/-- One tap of the y-pass adds its contribution exactly when the tap is counted. -/
theorem tapStep_y_eq (I : Image) (hwf : I.WF) (coeff : List ℚ) (M x y i : Nat)
    (hx : x < I.noDims.x) (hi : i < coeff.length) (acc : ℚ × ℚ) :
    tapStep_y I.data coeff I.noDims (M / 2) x y i acc =
      some (if Spec.countedY I M x y i then
          (acc.1 + coeff.getD i 0 * Spec.sample I x (Spec.tapPos M y i).toNat,
           acc.2 + coeff.getD i 0)
        else acc) := by
  unfold tapStep_y Spec.countedY
  have ht : (y : Int) + i - ((M / 2 : Nat) : Int) = Spec.tapPos M y i := rfl
  simp only [ht]
  by_cases h0 : Spec.tapPos M y i < 0
  · have : ¬ (0 ≤ Spec.tapPos M y i) := by omega
    simp [h0, this]
  by_cases h1 : Spec.tapPos M y i ≥ I.noDims.y
  · have : ¬ (Spec.tapPos M y i < I.noDims.y) := by omega
    simp [h0, h1, this]
  have h0' : 0 ≤ Spec.tapPos M y i := by omega
  have h1' : Spec.tapPos M y i < I.noDims.y := by omega
  obtain ⟨t, htt⟩ := Int.eq_ofNat_of_zero_le h0'
  have htH : t < I.noDims.y := by omega
  have hidx : t * I.noDims.x + x < I.data.length := by
    have hlen : I.data.length = I.noDims.x * I.noDims.y := hwf
    have : (t + 1) * I.noDims.x ≤ I.noDims.y * I.noDims.x := Nat.mul_le_mul_right _ htH
    have e1 : (t + 1) * I.noDims.x = t * I.noDims.x + I.noDims.x := by ring
    have e2 : I.noDims.y * I.noDims.x = I.noDims.x * I.noDims.y := Nat.mul_comm _ _
    omega
  have hz : Spec.tapPos M y i * I.noDims.x + x = ((t * I.noDims.x + x : Nat) : Int) := by
    rw [htt]
    push_cast
    rfl
  rw [if_neg h0, if_neg h1, readAt_natCast _ _ _ hz hidx]
  have hs : Spec.sample I x (Spec.tapPos M y i).toNat = I.data.getD (t * I.noDims.x + x) 0 := by
    rw [htt, Int.toNat_ofNat]
    rfl
  simp only [hs, getElem?_eq_getD _ _ hi]
  generalize I.data.getD (t * I.noDims.x + x) 0 = v
  generalize coeff.getD i 0 = c
  by_cases hv : 0 < v
  · simp [h0', h1', hv]
  · simp [h0', h1', hv]

/-- The tap loop of the y-pass computes the two sums over the counted taps. -/
theorem tapLoop_y_eq (I : Image) (hwf : I.WF) (coeff : List ℚ) (M x y : Nat)
    (hx : x < I.noDims.x) (n : Nat) (hn : n ≤ coeff.length) :
    forLoop n (tapStep_y I.data coeff I.noDims (M / 2) x y) (0, 0) =
      some (∑ i in (Finset.range n).filter (fun i => Spec.countedY I M x y i),
              coeff.getD i 0 * Spec.sample I x (Spec.tapPos M y i).toNat,
            ∑ i in (Finset.range n).filter (fun i => Spec.countedY I M x y i),
              coeff.getD i 0) := by
  induction n with
  | zero => simp [forLoop]
  | succ n ih =>
    rw [forLoop_succ, ih (by omega), Option.some_bind,
      tapStep_y_eq I hwf coeff M x y n hx (by omega)]
    by_cases hc : Spec.countedY I M x y n
    · simp [hc, Finset.range_succ, Finset.filter_insert, Finset.sum_insert, add_comm]
    · simp [hc, Finset.range_succ, Finset.filter_insert]

theorem separablePixel_y_eq (I : Image) (hwf : I.WF) (coeff : List ℚ) (M x y : Nat)
    (hx : x < I.noDims.x) (hM : M ≤ coeff.length) :
    separablePixel_y I.data coeff I.noDims M x y = some (Spec.convAtY I M coeff x y) := by
  unfold separablePixel_y
  simp only [tapLoop_y_eq I hwf coeff M x y hx M hM, Option.bind_eq_bind, Option.some_bind,
    Option.pure_def]
  rfl

/-- The function `filterSeparable_y` returns the reference y-pass of its input, whatever
the output image held before. -/
theorem filterSeparable_y_eq (input output : Image) (M : Nat) (coeff : List ℚ)
    (hwf : input.WF) (hM : M ≤ coeff.length) :
    filterSeparable_y input output M coeff = some (Spec.convY input M coeff) := by
  unfold filterSeparable_y Spec.convY
  exact pixelLoops_eq input.noDims
    (fun x y => separablePixel_y input.data coeff input.noDims M x y)
    (Spec.convAtY input M coeff)
    (fun x y => y * input.noDims.x + x) (fun x y => rfl)
    (fun x y hx _ => separablePixel_y_eq input hwf coeff M x y hx hM) output

/-! ## Well-formedness and dimensions of the reference images -/

theorem tabulate_WF (dims : Vector2) (f : Nat → Nat → ℚ) : (Spec.tabulate dims f).WF := by
  simp [Image.WF, Spec.tabulate]

theorem subsample_WF (I : Image) : (Spec.subsample I).WF := tabulate_WF _ _

theorem convX_WF (I : Image) (M : Nat) (c : List ℚ) : (Spec.convX I M c).WF := tabulate_WF _ _

theorem convY_WF (I : Image) (M : Nat) (c : List ℚ) : (Spec.convY I M c).WF := tabulate_WF _ _

theorem create_WF (dims : Vector2) : (Image.create dims).WF := by
  simp [Image.WF, Image.create]

/-- A pixel of a tabulated image. -/
theorem tabulate_getElem? (dims : Vector2) (f : Nat → Nat → ℚ) (x y : Nat)
    (hx : x < dims.x) (hy : y < dims.y) :
    (Spec.tabulate dims f).data[y * dims.x + x]? = some (f x y) := by
  have hlt : y * dims.x + x < dims.x * dims.y := by
    have : (y + 1) * dims.x ≤ dims.y * dims.x := Nat.mul_le_mul_right _ hy
    have e1 : (y + 1) * dims.x = y * dims.x + dims.x := by ring
    have e2 : dims.y * dims.x = dims.x * dims.y := Nat.mul_comm _ _
    omega
  have hmod : (y * dims.x + x) % dims.x = x := by
    rw [Nat.add_comm, Nat.add_mul_mod_self_right, Nat.mod_eq_of_lt hx]
  have hdiv : (y * dims.x + x) / dims.x = y := by
    rw [Nat.add_comm, Nat.add_mul_div_right _ _ (by omega), Nat.div_eq_of_lt hx, Nat.zero_add]
  simp [Spec.tabulate, List.getElem?_range, hlt, hmod, hdiv]

/-- A loop that writes `f i` at every index `i < n` of a buffer. -/
theorem forLoop_fill (f : Nat → ℚ) (buf : List ℚ) (n : Nat) (hn : n ≤ buf.length) :
    ∃ out, forLoop n (fun i c => writeAt c i (f i)) buf = some out ∧
      out.length = buf.length ∧ ∀ j, out[j]? = if j < n then some (f j) else buf[j]? := by
  induction n with
  | zero => exact ⟨buf, rfl, rfl, fun j => by simp⟩
  | succ n ih =>
    obtain ⟨out, hrun, hl, hget⟩ := ih (by omega)
    have hw : n < out.length := by omega
    refine ⟨out.set n (f n), ?_, by simp [hl], fun j => ?_⟩
    · rw [forLoop_succ, hrun, Option.some_bind, writeAt, if_pos hw]
    · by_cases hj : j = n
      · subst hj
        simp [hw]
      · rw [List.getElem?_set_ne (Ne.symm hj), hget j]
        by_cases h1 : j < n
        · have : j < n + 1 := by omega
          simp [h1, this]
        · have : ¬ j < n + 1 := by omega
          simp [h1, this]

/-- The function `createGaussianFilter` fills a buffer of `masksize` entries with the
reference mask. -/
theorem createGaussianFilter_eq (expf : ℚ → ℚ) (M : Nat) (sigma : ℚ) (coeff : List ℚ)
    (hlen : coeff.length = M) :
    createGaussianFilter expf M sigma coeff = some (Spec.gaussianMask expf M sigma) := by
  unfold createGaussianFilter
  obtain ⟨out, hrun, hl, hget⟩ := forLoop_fill
    (fun i => expf ((((-((i : Int) - ((M / 2 : Nat) : Int)) * ((i : Int) - ((M / 2 : Nat) : Int))
      : Int) : ℚ)) / (2 * sigma * sigma))) coeff M (by omega)
  rw [hrun]
  congr 1
  apply List.ext_getElem?
  intro j
  rw [hget j]
  by_cases hj : j < M
  · rw [if_pos hj]
    simp only [Spec.gaussianMask, List.getElem?_map, List.getElem?_range hj, Option.map_some']
    congr 2
    push_cast
    ring
  · rw [if_neg hj, List.getElem?_eq_none (by omega)]
    symm
    apply List.getElem?_eq_none
    simp [Spec.gaussianMask]
    omega

theorem length_gaussianMask (expf : ℚ → ℚ) (M : Nat) (sigma : ℚ) :
    (Spec.gaussianMask expf M sigma).length = M := by
  simp [Spec.gaussianMask]

/-- For a non-negative `sigma` the mask length of `filterGaussian` is the reference
filter length. -/
theorem gaussianFilterSize_eq (sigma : ℚ) (hs : 0 ≤ sigma) :
    gaussianFilterSize sigma = (Spec.maskLength sigma : Int) := by
  unfold gaussianFilterSize Spec.maskLength truncToInt
  have hq : (0 : ℚ) ≤ 2 * (7 / 2) * sigma := by positivity
  have hz : 0 ≤ ⌊2 * (7 / 2) * sigma⌋ := Int.floor_nonneg.mpr hq
  obtain ⟨n, hn⟩ := Int.eq_ofNat_of_zero_le hz
  simp only [if_pos hq, hn, Int.toNat_ofNat]
  by_cases h2 : n % 2 = 0
  · have : (n : Int) % 2 = 0 := by omega
    simp [h2, this]
  · have : ¬ (n : Int) % 2 = 0 := by omega
    simp [h2, this]

/-- The function `filterGaussian` returns the reference Gaussian of its input, whatever
the output image held before. -/
theorem filterGaussian_eq (expf : ℚ → ℚ) (input output : Image) (sigma : ℚ)
    (hwf : input.WF) (hs : 0 ≤ sigma) :
    filterGaussian expf input output sigma = some (Spec.gaussian expf input sigma) := by
  unfold filterGaussian Spec.gaussian
  have hneg : ¬ ((Spec.maskLength sigma : Int) < 0) := by omega
  simp only [gaussianFilterSize_eq sigma hs, if_neg hneg, Int.toNat_ofNat,
    createGaussianFilter_eq expf _ sigma _ (List.length_replicate _ _),
    Option.bind_eq_bind, Option.some_bind]
  rw [filterSeparable_x_eq input _ _ _ hwf (le_of_eq (length_gaussianMask _ _ _).symm),
    Option.some_bind]
  exact filterSeparable_y_eq _ output _ _ (convX_WF _ _ _)
    (le_of_eq (length_gaussianMask _ _ _).symm)

/-! ## Preprocessing pipeline -/

/-- The buffer-alternating preprocessing of `ProcessFrame` returns the reference pipeline
in `processedImage1`, whatever the two scratch images held before. -/
theorem preprocess_eq (expf : ℚ → ℚ) (img_d p1 p2 : Image) (hwf : img_d.WF) :
    preprocess expf img_d p1 p2 =
      some (Spec.pipeline expf img_d,
        Spec.subsample (Spec.subsample (Spec.subsample (Spec.subsample img_d)))) := by
  unfold preprocess Spec.pipeline
  simp only [filterSubsample_eq _ _ hwf, filterSubsample_eq _ _ (subsample_WF _),
    filterGaussian_eq expf _ _ (5 / 2) (subsample_WF _) (by norm_num),
    Option.bind_eq_bind, Option.some_bind, Option.pure_def]

theorem gaussian_noDims (expf : ℚ → ℚ) (I : Image) (sigma : ℚ) :
    (Spec.gaussian expf I sigma).noDims = I.noDims := rfl

theorem subsample_noDims (I : Image) :
    (Spec.subsample I).noDims = ⟨I.noDims.x / 2, I.noDims.y / 2⟩ := rfl

theorem pipeline_noDims (expf : ℚ → ℚ) (I0 : Image) :
    (Spec.pipeline expf I0).noDims = ⟨I0.noDims.x / 16, I0.noDims.y / 16⟩ := by
  simp only [Spec.pipeline, gaussian_noDims, subsample_noDims, Nat.div_div_eq_div_mul]

theorem pipeline_WF (expf : ℚ → ℚ) (I0 : Image) : (Spec.pipeline expf I0).WF :=
  convY_WF _ _ _

/-! ## Relocaliser driver -/

/-- A frame that is admitted: `ProcessFrame` inserts the code, and records the pose when
the new id is non-negative. -/
theorem ProcessFrame_admit {Enc DB PDB Pose : Type} (C : Collaborators Enc DB PDB Pose)
    (expf : ℚ → ℚ) (self : Relocaliser Enc DB PDB) (img_d : Image) (pose : Pose)
    (sceneId : Int) (k : Nat) (nn : List Int) (distances : Option (List ℚ))
    (s : Int) (nn2 : List Int) (ds : List ℚ) (hwf : img_d.WF)
    (hq : frameQuery C expf self img_d k nn distances = (s, nn2, ds))
    (hadm : s = 0 ∨ ∃ d, ds[0]? = some d ∧ self.mKeyframeHarvestingThreshold < d) :
    Relocaliser.ProcessFrame C expf self img_d pose sceneId k nn distances true =
      some
        { ret := (C.addEntry self.relocDatabase (frameCode C expf self img_d)).1
          self :=
            { self with
              relocDatabase := (C.addEntry self.relocDatabase (frameCode C expf self img_d)).2
              poseDatabase :=
                if (C.addEntry self.relocDatabase (frameCode C expf self img_d)).1 ≥ 0 then
                  C.storePose self.poseDatabase
                    (C.addEntry self.relocDatabase (frameCode C expf self img_d)).1 pose sceneId
                else self.poseDatabase
              processedImage1 := Spec.pipeline expf img_d
              processedImage2 :=
                Spec.subsample (Spec.subsample (Spec.subsample (Spec.subsample img_d))) }
          nearestNeighbours := nn2
          distances := if distances.isNone then none else some ds
          calls :=
            [.computeCode (Spec.pipeline expf img_d),
              .findMostSimilar (frameCode C expf self img_d) k,
              .addEntry (frameCode C expf self img_d)] ++
            if (C.addEntry self.relocDatabase (frameCode C expf self img_d)).1 ≥ 0 then
              [.storePose (C.addEntry self.relocDatabase (frameCode C expf self img_d)).1
                pose sceneId]
            else [] } := by
  unfold frameQuery at hq
  unfold frameCode at hq ⊢
  unfold Relocaliser.ProcessFrame
  simp only [preprocess_eq expf img_d _ _ hwf, Option.bind_eq_bind, Option.some_bind, hq]
  by_cases hs : s = 0
  · by_cases hid : (C.addEntry self.relocDatabase (C.computeCode self.mEncoding
        (Spec.pipeline expf img_d)
        (List.replicate (C.getNumFerns self.mEncoding).toNat 0))).1 ≥ 0
    · simp [hs, hid]
    · simp [hs, hid]
  · obtain ⟨d, hd, hlt⟩ := hadm.resolve_left hs
    by_cases hid : (C.addEntry self.relocDatabase (C.computeCode self.mEncoding
        (Spec.pipeline expf img_d)
        (List.replicate (C.getNumFerns self.mEncoding).toNat 0))).1 ≥ 0
    · simp [hs, hid, hd, hlt]
    · simp [hs, hid, hd, hlt]

/-- A frame that is not admitted: `ProcessFrame` returns -1 and calls neither `addEntry`
nor `storePose`. -/
theorem ProcessFrame_skip {Enc DB PDB Pose : Type} (C : Collaborators Enc DB PDB Pose)
    (expf : ℚ → ℚ) (self : Relocaliser Enc DB PDB) (img_d : Image) (pose : Pose)
    (sceneId : Int) (k : Nat) (nn : List Int) (distances : Option (List ℚ))
    (harvest : Bool) (s : Int) (nn2 : List Int) (ds : List ℚ) (hwf : img_d.WF)
    (hq : frameQuery C expf self img_d k nn distances = (s, nn2, ds))
    (hskip : harvest = false ∨
      (s ≠ 0 ∧ ∃ d, ds[0]? = some d ∧ d ≤ self.mKeyframeHarvestingThreshold)) :
    Relocaliser.ProcessFrame C expf self img_d pose sceneId k nn distances harvest =
      some
        { ret := -1
          self :=
            { self with
              processedImage1 := Spec.pipeline expf img_d
              processedImage2 :=
                Spec.subsample (Spec.subsample (Spec.subsample (Spec.subsample img_d))) }
          nearestNeighbours := nn2
          distances := if distances.isNone then none else some ds
          calls :=
            [.computeCode (Spec.pipeline expf img_d),
              .findMostSimilar (frameCode C expf self img_d) k] } := by
  unfold frameQuery at hq
  unfold frameCode at hq ⊢
  unfold Relocaliser.ProcessFrame
  simp only [preprocess_eq expf img_d _ _ hwf, Option.bind_eq_bind, Option.some_bind, hq]
  rcases hskip with hh | ⟨hs, d, hd, hle⟩
  · subst hh
    simp
  · have hnot : ¬ (self.mKeyframeHarvestingThreshold < d) := not_lt.mpr hle
    cases harvest <;> simp [hs, hd, hnot]

theorem constantFrame_WF : constantFrame.WF := by
  rw [Image.WF]
  simp only [constantFrame, List.length_replicate]

/-- C1. Harvest decision of `ProcessFrame`: for every frame, every `k` and every answer
`(s, distances)` of `findMostSimilar`, the call returns, and its calls of `addEntry` are
exactly one call with the frame's code if and only if `harvest = true` and
(`s = 0` or `distances[0] > τ`); in every other case there is no call of `addEntry`.
The frame is well formed and the entry `distances[0]` exists whenever `s ≠ 0`. -/
theorem C1_harvest_decision {Enc DB PDB Pose : Type} (C : Collaborators Enc DB PDB Pose)
    (expf : ℚ → ℚ) (self : Relocaliser Enc DB PDB) (img_d : Image) (pose : Pose)
    (sceneId : Int) (k : Nat) (nn : List Int) (distances : Option (List ℚ))
    (harvest : Bool) (s : Int) (nn2 : List Int) (ds : List ℚ) (hwf : img_d.WF)
    (hq : frameQuery C expf self img_d k nn distances = (s, nn2, ds))
    (hd0 : s ≠ 0 → ds ≠ []) :
    ∃ r, Relocaliser.ProcessFrame C expf self img_d pose sceneId k nn distances harvest
        = some r ∧
      (r.calls.filter Call.isAddEntry = [.addEntry (frameCode C expf self img_d)] ↔
        (harvest = true ∧
          (s = 0 ∨ ∃ d, ds[0]? = some d ∧ self.mKeyframeHarvestingThreshold < d))) ∧
      (¬ (harvest = true ∧
          (s = 0 ∨ ∃ d, ds[0]? = some d ∧ self.mKeyframeHarvestingThreshold < d)) →
        r.calls.filter Call.isAddEntry = []) := by
  by_cases hc : harvest = true ∧
      (s = 0 ∨ ∃ d, ds[0]? = some d ∧ self.mKeyframeHarvestingThreshold < d)
  · obtain ⟨hh, hadm⟩ := hc
    subst hh
    refine ⟨_, ProcessFrame_admit C expf self img_d pose sceneId k nn distances s nn2 ds
      hwf hq hadm, ?_, ?_⟩
    · have hf : ∀ l : List (Call Pose), (∀ c ∈ l, c.isAddEntry = false) →
          List.filter Call.isAddEntry
            ([.computeCode (Spec.pipeline expf img_d),
              .findMostSimilar (frameCode C expf self img_d) k,
              .addEntry (frameCode C expf self img_d)] ++ l)
            = [.addEntry (frameCode C expf self img_d)] := by
        intro l hl
        have hnil : List.filter Call.isAddEntry l = [] :=
          List.filter_eq_nil_iff.mpr fun c hcm => by simp [hl c hcm]
        rw [List.filter_append, hnil, List.append_nil]
        rfl
      constructor
      · intro _
        exact ⟨rfl, hadm⟩
      · intro _
        apply hf
        intro c hcm
        split_ifs at hcm
        · simp only [List.mem_singleton] at hcm
          subst hcm
          rfl
        · simp at hcm
    · intro hn
      exact absurd ⟨rfl, hadm⟩ hn
  · have hskip : harvest = false ∨
        (s ≠ 0 ∧ ∃ d, ds[0]? = some d ∧ d ≤ self.mKeyframeHarvestingThreshold) := by
      cases harvest with
      | false => exact Or.inl rfl
      | true =>
        right
        have hs : s ≠ 0 := fun h => hc ⟨rfl, Or.inl h⟩
        refine ⟨hs, ?_⟩
        cases ds with
        | nil => exact absurd rfl (hd0 hs)
        | cons d rest =>
          refine ⟨d, List.getElem?_cons_zero, ?_⟩
          by_contra hlt
          exact hc ⟨rfl, Or.inr ⟨d, List.getElem?_cons_zero, not_le.mp hlt⟩⟩
    refine ⟨_, ProcessFrame_skip C expf self img_d pose sceneId k nn distances harvest s nn2
      ds hwf hq hskip, ?_, ?_⟩
    · constructor
      · intro h
        simp [List.filter, Call.isAddEntry] at h
      · intro h
        exact absurd h hc
    · intro _
      simp [List.filter, Call.isAddEntry]

/-- The statement C1 on a constant 32 x 32 frame and an empty code database (`s = 0`). -/
theorem C1_harvest_decision_witness :
    constantFrame.WF ∧
    frameQuery listCollaborators (fun _ => 1) listRelocaliser constantFrame 1 [0] none
      = (0, [0], [0]) ∧
    ((0 : Int) ≠ 0 → ([0] : List ℚ) ≠ []) ∧
    ∃ r, Relocaliser.ProcessFrame listCollaborators (fun _ => 1) listRelocaliser constantFrame
        7 0 1 [0] none true = some r ∧
      (r.calls.filter Call.isAddEntry =
          [.addEntry (frameCode listCollaborators (fun _ => 1) listRelocaliser constantFrame)] ↔
        (true = true ∧
          ((0 : Int) = 0 ∨ ∃ d, ([0] : List ℚ)[0]? = some d ∧
            listRelocaliser.mKeyframeHarvestingThreshold < d))) ∧
      (¬ (true = true ∧
          ((0 : Int) = 0 ∨ ∃ d, ([0] : List ℚ)[0]? = some d ∧
            listRelocaliser.mKeyframeHarvestingThreshold < d)) →
        r.calls.filter Call.isAddEntry = []) :=
  ⟨constantFrame_WF, rfl, fun h => absurd rfl h,
    C1_harvest_decision listCollaborators (fun _ => 1) listRelocaliser constantFrame 7 0 1 [0]
      none true 0 [0] [0] constantFrame_WF rfl (fun h => absurd rfl h)⟩

/-- C2. No-admission case of `ProcessFrame`: whenever `harvest = false`, or `s ≥ 1` and
`distances[0] ≤ τ` (equality included), the call returns -1, the code database and the
pose database are unchanged, and neither `addEntry` nor `storePose` is called. -/
theorem C2_no_admission {Enc DB PDB Pose : Type} (C : Collaborators Enc DB PDB Pose)
    (expf : ℚ → ℚ) (self : Relocaliser Enc DB PDB) (img_d : Image) (pose : Pose)
    (sceneId : Int) (k : Nat) (nn : List Int) (distances : Option (List ℚ))
    (harvest : Bool) (s : Int) (nn2 : List Int) (ds : List ℚ) (hwf : img_d.WF)
    (hq : frameQuery C expf self img_d k nn distances = (s, nn2, ds))
    (hno : harvest = false ∨
      (1 ≤ s ∧ ∃ d, ds[0]? = some d ∧ d ≤ self.mKeyframeHarvestingThreshold)) :
    ∃ r, Relocaliser.ProcessFrame C expf self img_d pose sceneId k nn distances harvest
        = some r ∧
      r.ret = -1 ∧ r.self.relocDatabase = self.relocDatabase ∧
      r.self.poseDatabase = self.poseDatabase ∧
      ∀ c ∈ r.calls, c.isAddEntry = false ∧ c.isStorePose = false := by
  have hskip : harvest = false ∨
      (s ≠ 0 ∧ ∃ d, ds[0]? = some d ∧ d ≤ self.mKeyframeHarvestingThreshold) := by
    rcases hno with h | ⟨h1, h2⟩
    · exact Or.inl h
    · exact Or.inr ⟨by omega, h2⟩
  refine ⟨_, ProcessFrame_skip C expf self img_d pose sceneId k nn distances harvest s nn2
    ds hwf hq hskip, rfl, rfl, rfl, ?_⟩
  intro c hc
  simp only [List.mem_cons, List.mem_singleton, List.not_mem_nil, or_false] at hc
  rcases hc with h | h <;> subst h <;> exact ⟨rfl, rfl⟩

/-- The statement C2 on a database with one code, at the boundary `distances[0] = τ = 1/4`. -/
theorem C2_no_admission_witness :
    constantFrame.WF ∧
    frameQuery listCollaborators (fun _ => 1)
        { listRelocaliser with relocDatabase := [[2, 2]], mKeyframeHarvestingThreshold := 1 / 4 }
        constantFrame 1 [5] none = (1, [0], [1 / 4]) ∧
    (true = false ∨ ((1 : Int) ≤ 1 ∧ ∃ d, ([1 / 4] : List ℚ)[0]? = some d ∧ d ≤ 1 / 4)) ∧
    ∃ r, Relocaliser.ProcessFrame listCollaborators (fun _ => 1)
        { listRelocaliser with relocDatabase := [[2, 2]], mKeyframeHarvestingThreshold := 1 / 4 }
        constantFrame 7 0 1 [5] none true = some r ∧
      r.ret = -1 ∧ r.self.relocDatabase = [[2, 2]] ∧
      r.self.poseDatabase = listRelocaliser.poseDatabase ∧
      ∀ c ∈ r.calls, c.isAddEntry = false ∧ c.isStorePose = false :=
  ⟨constantFrame_WF, rfl, Or.inr ⟨le_refl _, 1 / 4, rfl, le_refl _⟩,
    C2_no_admission listCollaborators (fun _ => 1)
      { listRelocaliser with relocDatabase := [[2, 2]], mKeyframeHarvestingThreshold := 1 / 4 }
      constantFrame 7 0 1 [5] none true 1 [0] [1 / 4] constantFrame_WF rfl
      (Or.inr ⟨le_refl _, 1 / 4, rfl, le_refl _⟩)⟩

/-- C3. Pose recorded under the returned id: whenever `ProcessFrame` admits a frame and
`addEntry` yields `id ≥ 0`, the call returns exactly that id and has called
`storePose(id, pose, sceneId)` with the caller's pose and scene id, so that, the pose
database being a map, a following `RetrievePose(id)` returns `(pose, sceneId)`. -/
theorem C3_pose_recorded {Enc DB Pose : Type}
    (C : Collaborators Enc DB (PoseDatabase Pose) Pose)
    (hstore : C.storePose = PoseDatabase.storePose)
    (hretrieve : C.retrievePose = PoseDatabase.retrievePose)
    (expf : ℚ → ℚ) (self : Relocaliser Enc DB (PoseDatabase Pose)) (img_d : Image)
    (pose : Pose) (sceneId : Int) (k : Nat) (nn : List Int) (distances : Option (List ℚ))
    (s : Int) (nn2 : List Int) (ds : List ℚ) (id : Int) (db2 : DB) (hwf : img_d.WF)
    (hq : frameQuery C expf self img_d k nn distances = (s, nn2, ds))
    (hadm : s = 0 ∨ ∃ d, ds[0]? = some d ∧ self.mKeyframeHarvestingThreshold < d)
    (hadd : C.addEntry self.relocDatabase (frameCode C expf self img_d) = (id, db2))
    (hid : 0 ≤ id) :
    ∃ r, Relocaliser.ProcessFrame C expf self img_d pose sceneId k nn distances true
        = some r ∧
      r.ret = id ∧ r.calls.filter Call.isStorePose = [.storePose id pose sceneId] ∧
      Relocaliser.RetrievePose C r.self id = some (pose, sceneId) := by
  refine ⟨_, ProcessFrame_admit C expf self img_d pose sceneId k nn distances s nn2 ds
    hwf hq hadm, ?_, ?_, ?_⟩
  · simp only [hadd]
  · have hge : id ≥ 0 := hid
    simp only [hadd, if_pos hge]
    rfl
  · have hge : id ≥ 0 := hid
    simp only [Relocaliser.RetrievePose, hadd, if_pos hge, hstore, hretrieve,
      PoseDatabase.retrievePose, PoseDatabase.storePose, if_true]

/-- The statement C3 on an empty code database: the pose 7 of scene 3 is stored under id 0. -/
theorem C3_pose_recorded_witness :
    listCollaborators.storePose = PoseDatabase.storePose ∧
    listCollaborators.retrievePose = PoseDatabase.retrievePose ∧
    constantFrame.WF ∧
    frameQuery listCollaborators (fun _ => 1) listRelocaliser constantFrame 1 [5] none
      = (0, [5], [0]) ∧
    ((0 : Int) = 0 ∨ ∃ d, ([0] : List ℚ)[0]? = some d ∧
      listRelocaliser.mKeyframeHarvestingThreshold < d) ∧
    listCollaborators.addEntry listRelocaliser.relocDatabase
      (frameCode listCollaborators (fun _ => 1) listRelocaliser constantFrame)
      = (0, [frameCode listCollaborators (fun _ => 1) listRelocaliser constantFrame]) ∧
    (0 : Int) ≤ 0 ∧
    ∃ r, Relocaliser.ProcessFrame listCollaborators (fun _ => 1) listRelocaliser constantFrame
        7 3 1 [5] none true = some r ∧
      r.ret = 0 ∧ r.calls.filter Call.isStorePose = [.storePose 0 7 3] ∧
      Relocaliser.RetrievePose listCollaborators r.self 0 = some (7, 3) :=
  ⟨rfl, rfl, constantFrame_WF, rfl, Or.inl rfl, rfl, le_refl _,
    C3_pose_recorded listCollaborators rfl rfl (fun _ => 1) listRelocaliser constantFrame
      7 3 1 [5] none 0 [5] [0] 0 _ constantFrame_WF rfl (Or.inl rfl) rfl (le_refl _)⟩

/-! ## Statements about the filters -/

theorem holedImage_WF : holedImage.WF := by
  rw [Image.WF]
  rfl

/-- C4. The function `filterSubsample` equals its reference definition: for every input
image of size `W x H` (odd sizes included) and whatever the output image held, the output
has size `⌊W/2⌋ x ⌊H/2⌋` and every output pixel `(x, y)` is the mean of those of the four
inputs `(2x,2y), (2x+1,2y), (2x,2y+1), (2x+1,2y+1)` that are > 0, or 0 when none is. -/
theorem C4_filterSubsample_reference (input output : Image) (hwf : input.WF) :
    ∃ out, filterSubsample input output = some out ∧
      out = Spec.subsample input ∧
      out.noDims = ⟨input.noDims.x / 2, input.noDims.y / 2⟩ ∧
      out.data.length = (input.noDims.x / 2) * (input.noDims.y / 2) ∧
      ∀ x y, x < input.noDims.x / 2 → y < input.noDims.y / 2 →
        out.data[y * (input.noDims.x / 2) + x]? =
          some (Spec.meanValid
            [Spec.sample input (2 * x) (2 * y), Spec.sample input (2 * x + 1) (2 * y),
             Spec.sample input (2 * x) (2 * y + 1), Spec.sample input (2 * x + 1) (2 * y + 1)]) :=
  ⟨Spec.subsample input, filterSubsample_eq input output hwf, rfl, rfl, subsample_WF input,
    fun x y hx hy =>
      tabulate_getElem? ⟨input.noDims.x / 2, input.noDims.y / 2⟩
        (fun x y => Spec.meanValid (Spec.block input x y)) x y hx hy⟩

/-- The statement C4 on a 3 x 3 image with holes and a stale output image. -/
theorem C4_filterSubsample_reference_witness :
    holedImage.WF ∧
    ∃ out, filterSubsample holedImage staleImage = some out ∧
      out = Spec.subsample holedImage ∧
      out.noDims = ⟨holedImage.noDims.x / 2, holedImage.noDims.y / 2⟩ ∧
      out.data.length = (holedImage.noDims.x / 2) * (holedImage.noDims.y / 2) ∧
      ∀ x y, x < holedImage.noDims.x / 2 → y < holedImage.noDims.y / 2 →
        out.data[y * (holedImage.noDims.x / 2) + x]? =
          some (Spec.meanValid
            [Spec.sample holedImage (2 * x) (2 * y), Spec.sample holedImage (2 * x + 1) (2 * y),
             Spec.sample holedImage (2 * x) (2 * y + 1),
             Spec.sample holedImage (2 * x + 1) (2 * y + 1)]) :=
  ⟨holedImage_WF, C4_filterSubsample_reference holedImage staleImage holedImage_WF⟩

/-- C5. Per-pixel operation of the separable passes: for every image, every mask length
`M` and coefficients `c`, `filterSeparable_x` writes at `(x, y)` the value
`(Σ c[i]·I[y, x+i-M/2]) / (Σ c[i])` over the `i` in `[0, M)` with `0 ≤ x+i-M/2 < W` and
`I[y, x+i-M/2] > 0`, and exactly 0 when that coefficient sum is not positive;
`filterSeparable_y` does the same along columns. Both keep the input's dimensions.
The image is well formed and `coeff` has at least `M` entries. -/
theorem C5_separable_pixel (input output : Image) (M : Nat) (coeff : List ℚ)
    (hwf : input.WF) (hM : M ≤ coeff.length) :
    (∃ out, filterSeparable_x input output M coeff = some out ∧
      out.noDims = input.noDims ∧
      ∀ x y, x < input.noDims.x → y < input.noDims.y →
        out.data[y * input.noDims.x + x]? =
          some (if 0 < ∑ i in (Finset.range M).filter (fun i => Spec.countedX input M x y i),
                  coeff.getD i 0
            then (∑ i in (Finset.range M).filter (fun i => Spec.countedX input M x y i),
                  coeff.getD i 0 * Spec.sample input (Spec.tapPos M x i).toNat y) /
                (∑ i in (Finset.range M).filter (fun i => Spec.countedX input M x y i),
                  coeff.getD i 0)
            else 0)) ∧
    (∃ out, filterSeparable_y input output M coeff = some out ∧
      out.noDims = input.noDims ∧
      ∀ x y, x < input.noDims.x → y < input.noDims.y →
        out.data[y * input.noDims.x + x]? =
          some (if 0 < ∑ i in (Finset.range M).filter (fun i => Spec.countedY input M x y i),
                  coeff.getD i 0
            then (∑ i in (Finset.range M).filter (fun i => Spec.countedY input M x y i),
                  coeff.getD i 0 * Spec.sample input x (Spec.tapPos M y i).toNat) /
                (∑ i in (Finset.range M).filter (fun i => Spec.countedY input M x y i),
                  coeff.getD i 0)
            else 0)) :=
  ⟨⟨Spec.convX input M coeff, filterSeparable_x_eq input output M coeff hwf hM, rfl,
      fun x y hx hy => tabulate_getElem? input.noDims (Spec.convAtX input M coeff) x y hx hy⟩,
    ⟨Spec.convY input M coeff, filterSeparable_y_eq input output M coeff hwf hM, rfl,
      fun x y hx hy => tabulate_getElem? input.noDims (Spec.convAtY input M coeff) x y hx hy⟩⟩

/-- The statement C5 on a 3 x 3 image with holes and a mask with a negative coefficient. -/
theorem C5_separable_pixel_witness :
    holedImage.WF ∧ 3 ≤ ([1, 2, -5] : List ℚ).length ∧
    (∃ out, filterSeparable_x holedImage staleImage 3 [1, 2, -5] = some out ∧
      out.noDims = holedImage.noDims ∧
      ∀ x y, x < holedImage.noDims.x → y < holedImage.noDims.y →
        out.data[y * holedImage.noDims.x + x]? =
          some (if 0 < ∑ i in (Finset.range 3).filter
                    (fun i => Spec.countedX holedImage 3 x y i), ([1, 2, -5] : List ℚ).getD i 0
            then (∑ i in (Finset.range 3).filter (fun i => Spec.countedX holedImage 3 x y i),
                  ([1, 2, -5] : List ℚ).getD i 0 *
                    Spec.sample holedImage (Spec.tapPos 3 x i).toNat y) /
                (∑ i in (Finset.range 3).filter (fun i => Spec.countedX holedImage 3 x y i),
                  ([1, 2, -5] : List ℚ).getD i 0)
            else 0)) ∧
    (∃ out, filterSeparable_y holedImage staleImage 3 [1, 2, -5] = some out ∧
      out.noDims = holedImage.noDims ∧
      ∀ x y, x < holedImage.noDims.x → y < holedImage.noDims.y →
        out.data[y * holedImage.noDims.x + x]? =
          some (if 0 < ∑ i in (Finset.range 3).filter
                    (fun i => Spec.countedY holedImage 3 x y i), ([1, 2, -5] : List ℚ).getD i 0
            then (∑ i in (Finset.range 3).filter (fun i => Spec.countedY holedImage 3 x y i),
                  ([1, 2, -5] : List ℚ).getD i 0 *
                    Spec.sample holedImage x (Spec.tapPos 3 y i).toNat) /
                (∑ i in (Finset.range 3).filter (fun i => Spec.countedY holedImage 3 x y i),
                  ([1, 2, -5] : List ℚ).getD i 0)
            else 0)) :=
  ⟨holedImage_WF, le_refl _,
    C5_separable_pixel holedImage staleImage 3 [1, 2, -5] holedImage_WF (le_refl _)⟩

/-! ## Statements about the preprocessing pipeline -/

/-- Every call of `ProcessFrame` on a well-formed frame returns; its first call to a
collaborator is `computeCode` on the reference pipeline's image, which is also what
`processedImage1` holds afterwards. -/
theorem ProcessFrame_encodes {Enc DB PDB Pose : Type} (C : Collaborators Enc DB PDB Pose)
    (expf : ℚ → ℚ) (self : Relocaliser Enc DB PDB) (img_d : Image) (pose : Pose)
    (sceneId : Int) (k : Nat) (nn : List Int) (distances : Option (List ℚ))
    (harvest : Bool) (s : Int) (nn2 : List Int) (ds : List ℚ) (hwf : img_d.WF)
    (hq : frameQuery C expf self img_d k nn distances = (s, nn2, ds))
    (hd0 : s ≠ 0 → ds ≠ []) :
    ∃ r, Relocaliser.ProcessFrame C expf self img_d pose sceneId k nn distances harvest
        = some r ∧
      r.calls.head? = some (.computeCode (Spec.pipeline expf img_d)) ∧
      encodedImageSize r.calls = some (Spec.pipeline expf img_d).noDims ∧
      r.self.processedImage1 = Spec.pipeline expf img_d := by
  by_cases hc : harvest = true ∧
      (s = 0 ∨ ∃ d, ds[0]? = some d ∧ self.mKeyframeHarvestingThreshold < d)
  · obtain ⟨hh, hadm⟩ := hc
    subst hh
    exact ⟨_, ProcessFrame_admit C expf self img_d pose sceneId k nn distances s nn2 ds
      hwf hq hadm, rfl, rfl, rfl⟩
  · have hskip : harvest = false ∨
        (s ≠ 0 ∧ ∃ d, ds[0]? = some d ∧ d ≤ self.mKeyframeHarvestingThreshold) := by
      cases harvest with
      | false => exact Or.inl rfl
      | true =>
        right
        have hs : s ≠ 0 := fun h => hc ⟨rfl, Or.inl h⟩
        refine ⟨hs, ?_⟩
        cases ds with
        | nil => exact absurd rfl (hd0 hs)
        | cons d rest =>
          refine ⟨d, List.getElem?_cons_zero, ?_⟩
          by_contra hlt
          exact hc ⟨rfl, Or.inr ⟨d, List.getElem?_cons_zero, not_le.mp hlt⟩⟩
    exact ⟨_, ProcessFrame_skip C expf self img_d pose sceneId k nn distances harvest s nn2
      ds hwf hq hskip, rfl, rfl, rfl⟩

/-- C6. The preprocessing of `ProcessFrame` is the fixed composition: for every input
image `I0` of size `W x H` and for every prior content and size of the two scratch images,
the buffer-alternating lines 161-166 leave in `processedImage1` the image
`gaussian(subsample(subsample(subsample(subsample(I0)))), σ = 2.5)`, of size
`⌊W/16⌋ x ⌊H/16⌋`, and that image is what `ProcessFrame` hands to the encoder. -/
theorem C6_pipeline_composition {Enc DB PDB Pose : Type} (C : Collaborators Enc DB PDB Pose)
    (expf : ℚ → ℚ) (self : Relocaliser Enc DB PDB) (img_d : Image) (pose : Pose)
    (sceneId : Int) (k : Nat) (nn : List Int) (distances : Option (List ℚ))
    (harvest : Bool) (s : Int) (nn2 : List Int) (ds : List ℚ) (hwf : img_d.WF)
    (hq : frameQuery C expf self img_d k nn distances = (s, nn2, ds))
    (hd0 : s ≠ 0 → ds ≠ []) :
    (∀ p1 p2 : Image, ∃ out2, preprocess expf img_d p1 p2 =
      some (Spec.gaussian expf
        (Spec.subsample (Spec.subsample (Spec.subsample (Spec.subsample img_d)))) (5 / 2),
        out2)) ∧
    (Spec.gaussian expf
        (Spec.subsample (Spec.subsample (Spec.subsample (Spec.subsample img_d)))) (5 / 2)).noDims
      = ⟨img_d.noDims.x / 16, img_d.noDims.y / 16⟩ ∧
    ∃ r, Relocaliser.ProcessFrame C expf self img_d pose sceneId k nn distances harvest
        = some r ∧
      r.calls.head? = some (.computeCode (Spec.gaussian expf
        (Spec.subsample (Spec.subsample (Spec.subsample (Spec.subsample img_d)))) (5 / 2))) ∧
      r.self.processedImage1 = Spec.gaussian expf
        (Spec.subsample (Spec.subsample (Spec.subsample (Spec.subsample img_d)))) (5 / 2) := by
  refine ⟨fun p1 p2 => ⟨_, preprocess_eq expf img_d p1 p2 hwf⟩, pipeline_noDims expf img_d, ?_⟩
  obtain ⟨r, hr, h1, _, h3⟩ := ProcessFrame_encodes C expf self img_d pose sceneId k nn
    distances harvest s nn2 ds hwf hq hd0
  exact ⟨r, hr, h1, h3⟩

/-- The statement C6 with scratch images of other sizes and stale contents. -/
theorem C6_pipeline_composition_witness :
    constantFrame.WF ∧
    frameQuery listCollaborators (fun _ => 1)
        { listRelocaliser with processedImage1 := staleImage, processedImage2 := holedImage }
        constantFrame 1 [0] none = (0, [0], [0]) ∧
    ((0 : Int) ≠ 0 → ([0] : List ℚ) ≠ []) ∧
    (∀ p1 p2 : Image, ∃ out2, preprocess (fun _ => 1) constantFrame p1 p2 =
      some (Spec.gaussian (fun _ => 1)
        (Spec.subsample (Spec.subsample (Spec.subsample (Spec.subsample constantFrame))))
        (5 / 2), out2)) ∧
    (Spec.gaussian (fun _ => 1)
        (Spec.subsample (Spec.subsample (Spec.subsample (Spec.subsample constantFrame))))
        (5 / 2)).noDims
      = ⟨constantFrame.noDims.x / 16, constantFrame.noDims.y / 16⟩ ∧
    ∃ r, Relocaliser.ProcessFrame listCollaborators (fun _ => 1)
        { listRelocaliser with processedImage1 := staleImage, processedImage2 := holedImage }
        constantFrame 7 0 1 [0] none true = some r ∧
      r.calls.head? = some (.computeCode (Spec.gaussian (fun _ => 1)
        (Spec.subsample (Spec.subsample (Spec.subsample (Spec.subsample constantFrame))))
        (5 / 2))) ∧
      r.self.processedImage1 = Spec.gaussian (fun _ => 1)
        (Spec.subsample (Spec.subsample (Spec.subsample (Spec.subsample constantFrame))))
        (5 / 2) :=
  ⟨constantFrame_WF, rfl, fun h => absurd rfl h,
    C6_pipeline_composition listCollaborators (fun _ => 1)
      { listRelocaliser with processedImage1 := staleImage, processedImage2 := holedImage }
      constantFrame 7 0 1 [0] none true 0 [0] [0] constantFrame_WF rfl (fun h => absurd rfl h)⟩

theorem create_configuredEncoderSize {Enc DB PDB Pose : Type}
    (C : Collaborators Enc DB PDB Pose) (imgSize : Vector2) (range : ℚ × ℚ) (tau : ℚ)
    (numFerns numDecisionsPerFern : Int) :
    configuredEncoderSize (Relocaliser.create C imgSize range tau numFerns
      numDecisionsPerFern).2 = some ⟨imgSize.x / 32, imgSize.y / 32⟩ := rfl

/-- C7, as stated, fails. For the full-resolution size 640 x 480 (both divisible by 16) the
image passed to `computeCode` is 40 x 30, while the encoder was configured at construction
with `imgSize / 2^5`, which is 20 x 15. -/
theorem C7_encoder_size_counterexample :
    16 ∣ 640 ∧ 16 ∣ 480 ∧
    ∃ r, Relocaliser.ProcessFrame listCollaborators (fun _ => 1)
        (Relocaliser.create listCollaborators ⟨640, 480⟩ (0, 1) (1 / 5) 2 2).1
        (Image.create ⟨640, 480⟩) 7 0 1 [0] none true = some r ∧
      encodedImageSize r.calls = some ⟨40, 30⟩ ∧
      configuredEncoderSize
        (Relocaliser.create listCollaborators ⟨640, 480⟩ (0, 1) (1 / 5) 2 2).2
        = some ⟨20, 15⟩ ∧
      encodedImageSize r.calls ≠ configuredEncoderSize
        (Relocaliser.create listCollaborators ⟨640, 480⟩ (0, 1) (1 / 5) 2 2).2 := by
  refine ⟨by decide, by decide, ?_⟩
  obtain ⟨r, hr, _, h2, _⟩ := ProcessFrame_encodes listCollaborators (fun _ => 1)
    (Relocaliser.create listCollaborators ⟨640, 480⟩ (0, 1) (1 / 5) 2 2).1
    (Image.create ⟨640, 480⟩) 7 0 1 [0] none true 0 [0] [0] (create_WF _) rfl
    (fun h => absurd rfl h)
  have h40 : encodedImageSize r.calls = some ⟨40, 30⟩ := by
    rw [h2, pipeline_noDims]
    rfl
  have h20 : configuredEncoderSize
      (Relocaliser.create listCollaborators ⟨640, 480⟩ (0, 1) (1 / 5) 2 2).2
      = some ⟨20, 15⟩ := by
    rw [create_configuredEncoderSize]
    rfl
  refine ⟨r, hr, h40, h20, ?_⟩
  rw [h40, h20]
  decide

/-- C7, amended. For every full-resolution size `W x H` with `W` and `H` divisible by 16,
the preprocessed image that `ProcessFrame` passes to `computeCode` has size
`W/16 x H/16` (no truncation), while the encoder was configured at construction with
`imgSize / 2^5`, that is `⌊W/32⌋ x ⌊H/32⌋`: half of the preprocessed size in each
dimension, with integer truncation. -/
theorem C7_encoder_size_amended {Enc DB PDB Pose : Type} (C : Collaborators Enc DB PDB Pose)
    (expf : ℚ → ℚ) (W H : Nat) (range : ℚ × ℚ) (tau : ℚ) (numFerns numDecisionsPerFern : Int)
    (img_d : Image) (pose : Pose) (sceneId : Int) (k : Nat) (nn : List Int)
    (distances : Option (List ℚ)) (harvest : Bool) (s : Int) (nn2 : List Int) (ds : List ℚ)
    (hW : 16 ∣ W) (hH : 16 ∣ H) (hdims : img_d.noDims = ⟨W, H⟩) (hwf : img_d.WF)
    (hq : frameQuery C expf
      (Relocaliser.create C ⟨W, H⟩ range tau numFerns numDecisionsPerFern).1 img_d k nn
      distances = (s, nn2, ds))
    (hd0 : s ≠ 0 → ds ≠ []) :
    configuredEncoderSize (Relocaliser.create C ⟨W, H⟩ range tau numFerns
      numDecisionsPerFern).2 = some ⟨W / 32, H / 32⟩ ∧
    (∃ r, Relocaliser.ProcessFrame C expf
        (Relocaliser.create C ⟨W, H⟩ range tau numFerns numDecisionsPerFern).1 img_d pose
        sceneId k nn distances harvest = some r ∧
      encodedImageSize r.calls = some ⟨W / 16, H / 16⟩) ∧
    16 * (W / 16) = W ∧ 16 * (H / 16) = H ∧
    W / 32 = W / 16 / 2 ∧ H / 32 = H / 16 / 2 := by
  refine ⟨rfl, ?_, Nat.mul_div_cancel' hW, Nat.mul_div_cancel' hH, by omega, by omega⟩
  obtain ⟨r, hr, _, h2, _⟩ := ProcessFrame_encodes C expf
    (Relocaliser.create C ⟨W, H⟩ range tau numFerns numDecisionsPerFern).1 img_d pose sceneId
    k nn distances harvest s nn2 ds hwf hq hd0
  refine ⟨r, hr, ?_⟩
  rw [h2, pipeline_noDims, hdims]

/-- The amended statement C7 at the full-resolution size 32 x 32. -/
theorem C7_encoder_size_amended_witness :
    16 ∣ 32 ∧ 16 ∣ 32 ∧ constantFrame.noDims = ⟨32, 32⟩ ∧ constantFrame.WF ∧
    frameQuery listCollaborators (fun _ => 1)
      (Relocaliser.create listCollaborators ⟨32, 32⟩ (0, 1) (1 / 5) 2 2).1 constantFrame 1
      [0] none = (0, [0], [0]) ∧
    ((0 : Int) ≠ 0 → ([0] : List ℚ) ≠ []) ∧
    configuredEncoderSize (Relocaliser.create listCollaborators ⟨32, 32⟩ (0, 1) (1 / 5) 2
      2).2 = some ⟨32 / 32, 32 / 32⟩ ∧
    (∃ r, Relocaliser.ProcessFrame listCollaborators (fun _ => 1)
        (Relocaliser.create listCollaborators ⟨32, 32⟩ (0, 1) (1 / 5) 2 2).1 constantFrame 7
        0 1 [0] none true = some r ∧
      encodedImageSize r.calls = some ⟨32 / 16, 32 / 16⟩) ∧
    16 * (32 / 16) = 32 ∧ 16 * (32 / 16) = 32 ∧
    32 / 32 = 32 / 16 / 2 ∧ 32 / 32 = 32 / 16 / 2 :=
  ⟨by decide, by decide, rfl, constantFrame_WF, rfl, fun h => absurd rfl h,
    C7_encoder_size_amended listCollaborators (fun _ => 1) 32 32 (0, 1) (1 / 5) 2 2
      constantFrame 7 0 1 [0] none true 0 [0] [0] (by decide) (by decide) rfl
      constantFrame_WF rfl (fun h => absurd rfl h)⟩

/-! ## Holes and the subsample mean -/

theorem meanValid_eq_zero (vs : List ℚ) (h : ∀ v ∈ vs, v ≤ 0) : Spec.meanValid vs = 0 := by
  have hnil : vs.filter (fun v => decide (0 < v)) = [] :=
    List.filter_eq_nil_iff.mpr fun v hv => by simpa using h v hv
  simp [Spec.meanValid, hnil]

theorem meanValid_pos (vs : List ℚ) (h : ∃ v ∈ vs, 0 < v) : 0 < Spec.meanValid vs := by
  obtain ⟨v, hv, hpos⟩ := h
  have hmem : v ∈ vs.filter (fun v => decide (0 < v)) := by
    simp [List.mem_filter, hv, hpos]
  have hne : vs.filter (fun v => decide (0 < v)) ≠ [] := List.ne_nil_of_mem hmem
  have hlen : 0 < (vs.filter (fun v => decide (0 < v))).length := List.length_pos.mpr hne
  have hsum : 0 < (vs.filter (fun v => decide (0 < v))).sum :=
    List.sum_pos _ (fun w hw => by simpa using (List.mem_filter.mp hw).2) hne
  have hlen0 : (vs.filter (fun v => decide (0 < v))).length ≠ 0 := by omega
  simp only [Spec.meanValid, if_neg hlen0]
  exact div_pos hsum (by exact_mod_cast hlen)

theorem meanValid_eq_zero_iff (vs : List ℚ) : Spec.meanValid vs = 0 ↔ ∀ v ∈ vs, v ≤ 0 := by
  constructor
  · intro h0 v hv
    by_contra hlt
    have hpos := meanValid_pos vs ⟨v, hv, not_le.mp hlt⟩
    rw [h0] at hpos
    exact lt_irrefl _ hpos
  · exact meanValid_eq_zero vs

/-- Holes do not dilute the mean: when the valid samples all equal `v`, the mean is `v`. -/
theorem meanValid_const (vs : List ℚ) (v : ℚ) (h1 : ∃ s ∈ vs, 0 < s)
    (h2 : ∀ s ∈ vs, 0 < s → s = v) : Spec.meanValid vs = v := by
  obtain ⟨s, hs, hpos⟩ := h1
  have hmem : s ∈ vs.filter (fun v => decide (0 < v)) := by
    simp [List.mem_filter, hs, hpos]
  have hlen : 0 < (vs.filter (fun v => decide (0 < v))).length :=
    List.length_pos.mpr (List.ne_nil_of_mem hmem)
  have hrep : vs.filter (fun v => decide (0 < v)) =
      List.replicate (vs.filter (fun v => decide (0 < v))).length v := by
    apply List.eq_replicate_iff.mpr
    refine ⟨rfl, fun w hw => ?_⟩
    have := List.mem_filter.mp hw
    exact h2 w this.1 (by simpa using this.2)
  have hlen0 : (vs.filter (fun v => decide (0 < v))).length ≠ 0 := by omega
  have hq : ((vs.filter (fun v => decide (0 < v))).length : ℚ) ≠ 0 := by exact_mod_cast hlen0
  simp only [Spec.meanValid, if_neg hlen0]
  rw [hrep, List.sum_replicate, List.length_replicate, nsmul_eq_mul]
  field_simp

/-- C8. Hole preservation under subsample: for every input image and every output pixel of
`filterSubsample`, if all four samples of its 2x2 input block are ≤ 0 the output is exactly
0, and if at least one of the four is > 0 the output is strictly positive; so the output
is 0 if and only if the whole block is holes. -/
theorem C8_subsample_hole_preservation (input output : Image) (hwf : input.WF) :
    ∃ out, filterSubsample input output = some out ∧
      ∀ x y, x < input.noDims.x / 2 → y < input.noDims.y / 2 →
        ∃ v, out.data[y * (input.noDims.x / 2) + x]? = some v ∧
          ((∀ s ∈ [Spec.sample input (2 * x) (2 * y), Spec.sample input (2 * x + 1) (2 * y),
              Spec.sample input (2 * x) (2 * y + 1), Spec.sample input (2 * x + 1) (2 * y + 1)],
            s ≤ 0) → v = 0) ∧
          ((∃ s ∈ [Spec.sample input (2 * x) (2 * y), Spec.sample input (2 * x + 1) (2 * y),
              Spec.sample input (2 * x) (2 * y + 1), Spec.sample input (2 * x + 1) (2 * y + 1)],
            0 < s) → 0 < v) ∧
          (v = 0 ↔
            ∀ s ∈ [Spec.sample input (2 * x) (2 * y), Spec.sample input (2 * x + 1) (2 * y),
              Spec.sample input (2 * x) (2 * y + 1), Spec.sample input (2 * x + 1) (2 * y + 1)],
            s ≤ 0) :=
  ⟨Spec.subsample input, filterSubsample_eq input output hwf, fun x y hx hy =>
    ⟨Spec.meanValid (Spec.block input x y),
      tabulate_getElem? ⟨input.noDims.x / 2, input.noDims.y / 2⟩
        (fun x y => Spec.meanValid (Spec.block input x y)) x y hx hy,
      meanValid_eq_zero _, meanValid_pos _, meanValid_eq_zero_iff _⟩⟩

/-- The statement C8 on a 3 x 3 image with holes. -/
theorem C8_subsample_hole_preservation_witness :
    holedImage.WF ∧
    ∃ out, filterSubsample holedImage staleImage = some out ∧
      ∀ x y, x < holedImage.noDims.x / 2 → y < holedImage.noDims.y / 2 →
        ∃ v, out.data[y * (holedImage.noDims.x / 2) + x]? = some v ∧
          ((∀ s ∈ [Spec.sample holedImage (2 * x) (2 * y),
              Spec.sample holedImage (2 * x + 1) (2 * y),
              Spec.sample holedImage (2 * x) (2 * y + 1),
              Spec.sample holedImage (2 * x + 1) (2 * y + 1)],
            s ≤ 0) → v = 0) ∧
          ((∃ s ∈ [Spec.sample holedImage (2 * x) (2 * y),
              Spec.sample holedImage (2 * x + 1) (2 * y),
              Spec.sample holedImage (2 * x) (2 * y + 1),
              Spec.sample holedImage (2 * x + 1) (2 * y + 1)],
            0 < s) → 0 < v) ∧
          (v = 0 ↔
            ∀ s ∈ [Spec.sample holedImage (2 * x) (2 * y),
              Spec.sample holedImage (2 * x + 1) (2 * y),
              Spec.sample holedImage (2 * x) (2 * y + 1),
              Spec.sample holedImage (2 * x + 1) (2 * y + 1)],
            s ≤ 0) :=
  ⟨holedImage_WF, C8_subsample_hole_preservation holedImage staleImage holedImage_WF⟩

theorem twinImage_WF : twinImage.WF := by
  rw [Image.WF]
  rfl

/-! ## Holes and one Gaussian pass -/

theorem convAtX_pos (I : Image) (M : Nat) (c : List ℚ) (x y : Nat)
    (hc : ∀ i, i < M → 0 < c.getD i 0) (h : ∃ i, i < M ∧ Spec.countedX I M x y i) :
    0 < Spec.convAtX I M c x y := by
  obtain ⟨i, hi, hcnt⟩ := h
  have hne : ((Finset.range M).filter (fun i => Spec.countedX I M x y i)).Nonempty :=
    ⟨i, Finset.mem_filter.mpr ⟨Finset.mem_range.mpr hi, hcnt⟩⟩
  have hsc : 0 < ∑ i in (Finset.range M).filter (fun i => Spec.countedX I M x y i),
      c.getD i 0 :=
    Finset.sum_pos (fun j hj => hc j (Finset.mem_range.mp (Finset.mem_filter.mp hj).1)) hne
  have hsv : 0 < ∑ i in (Finset.range M).filter (fun i => Spec.countedX I M x y i),
      c.getD i 0 * Spec.sample I (Spec.tapPos M x i).toNat y :=
    Finset.sum_pos (fun j hj =>
      mul_pos (hc j (Finset.mem_range.mp (Finset.mem_filter.mp hj).1))
        (Finset.mem_filter.mp hj).2.2.2) hne
  simp only [Spec.convAtX, if_pos hsc]
  exact div_pos hsv hsc

theorem convAtY_pos (I : Image) (M : Nat) (c : List ℚ) (x y : Nat)
    (hc : ∀ i, i < M → 0 < c.getD i 0) (h : ∃ i, i < M ∧ Spec.countedY I M x y i) :
    0 < Spec.convAtY I M c x y := by
  obtain ⟨i, hi, hcnt⟩ := h
  have hne : ((Finset.range M).filter (fun i => Spec.countedY I M x y i)).Nonempty :=
    ⟨i, Finset.mem_filter.mpr ⟨Finset.mem_range.mpr hi, hcnt⟩⟩
  have hsc : 0 < ∑ i in (Finset.range M).filter (fun i => Spec.countedY I M x y i),
      c.getD i 0 :=
    Finset.sum_pos (fun j hj => hc j (Finset.mem_range.mp (Finset.mem_filter.mp hj).1)) hne
  have hsv : 0 < ∑ i in (Finset.range M).filter (fun i => Spec.countedY I M x y i),
      c.getD i 0 * Spec.sample I x (Spec.tapPos M y i).toNat :=
    Finset.sum_pos (fun j hj =>
      mul_pos (hc j (Finset.mem_range.mp (Finset.mem_filter.mp hj).1))
        (Finset.mem_filter.mp hj).2.2.2) hne
  simp only [Spec.convAtY, if_pos hsc]
  exact div_pos hsv hsc

/-- Every coefficient of the reference mask is positive when `exp` is. -/
theorem gaussianMask_pos (expf : ℚ → ℚ) (hexp : ∀ t, 0 < expf t) (M : Nat) (sigma : ℚ)
    (i : Nat) (hi : i < M) : 0 < (Spec.gaussianMask expf M sigma).getD i 0 := by
  simp only [Spec.gaussianMask, List.getD_eq_getElem?_getD, List.getElem?_map,
    List.getElem?_range hi, Option.map_some', Option.getD_some]
  exact hexp _

/-- The block `1, 0 / 4, -1` of `holedImage` has the valid samples 1 and 4. -/
theorem filterSubsample_holedImage :
    filterSubsample holedImage staleImage = some { noDims := ⟨1, 1⟩, data := [5 / 2] } := by
  simp [filterSubsample, forLoop, subsamplePixel, accumulateValid, writeAt, Image.ChangeDims,
    resizeBuffer, holedImage, staleImage]
  norm_num

/-- A row `2, hole, 4` under the mask `1, 2, 1`: the hole is filled by its neighbours and
the valid samples are kept. -/
theorem filterSeparable_x_row :
    filterSeparable_x { noDims := ⟨3, 1⟩, data := [2, 0, 4] } staleImage 3 [1, 2, 1]
      = some { noDims := ⟨3, 1⟩, data := [2, 3, 4] } := by
  simp [filterSeparable_x, forLoop, separablePixel_x, tapStep_x, readAt, writeAt,
    Image.ChangeDims, resizeBuffer, staleImage]
  norm_num

/-- The mask length of the pipeline's Gaussian, `σ = 2.5`. -/
theorem gaussianFilterSize_pipeline : gaussianFilterSize (5 / 2) = 17 := by
  have hf : ⌊(2 : ℚ) * (7 / 2) * (5 / 2)⌋ = 17 := by
    rw [Int.floor_eq_iff]
    norm_num
  have hq : (0 : ℚ) ≤ 2 * (7 / 2) * (5 / 2) := by norm_num
  simp only [gaussianFilterSize, truncToInt, if_pos hq, hf]
  decide

/-- For an even mask length the taps at `x` are `x - M/2, ..., x + M/2 - 1`: with `M = 2`
the pixel at `x = 0` does not read the sample at `x = 1`. -/
theorem filterSeparable_x_even_mask :
    filterSeparable_x { noDims := ⟨2, 1⟩, data := [0, 5] } staleImage 2 [1, 1]
      = some { noDims := ⟨2, 1⟩, data := [0, 5] } := by
  simp [filterSeparable_x, forLoop, separablePixel_x, tapStep_x, readAt, writeAt,
    Image.ChangeDims, resizeBuffer, staleImage]
  norm_num

/-! ## Sign and range of the outputs -/

/-- A valid sample read by `Spec.sample` is a sample of the buffer. -/
theorem sample_mem_of_pos (I : Image) (x y : Nat) (h : 0 < Spec.sample I x y) :
    Spec.sample I x y ∈ I.data := by
  unfold Spec.sample at h ⊢
  by_cases hlt : y * I.noDims.x + x < I.data.length
  · rw [List.getD_eq_getElem _ _ hlt]
    exact List.getElem_mem _
  · rw [List.getD_eq_default _ _ (by omega)] at h
    exact absurd h (lt_irrefl _)

/-- Every sample of a tabulated image is a value of the pixel function. -/
theorem mem_tabulate (dims : Vector2) (f : Nat → Nat → ℚ) (v : ℚ)
    (h : v ∈ (Spec.tabulate dims f).data) :
    ∃ x y, x < dims.x ∧ y < dims.y ∧ v = f x y := by
  simp only [Spec.tabulate, List.mem_map, List.mem_range] at h
  obtain ⟨i, hi, rfl⟩ := h
  have hx : 0 < dims.x := by
    rcases Nat.eq_zero_or_pos dims.x with h0 | h0
    · rw [h0, Nat.zero_mul] at hi
      omega
    · exact h0
  refine ⟨i % dims.x, i / dims.x, Nat.mod_lt _ hx, ?_, rfl⟩
  rw [Nat.div_lt_iff_lt_mul hx, Nat.mul_comm]
  exact hi

theorem meanValid_nonneg (vs : List ℚ) : 0 ≤ Spec.meanValid vs := by
  by_cases h : ∃ v ∈ vs, 0 < v
  · exact le_of_lt (meanValid_pos vs h)
  · rw [meanValid_eq_zero vs fun v hv => not_lt.mp fun hp => h ⟨v, hv, hp⟩]

/-- The mean of the valid samples lies between any two bounds of the valid samples. -/
theorem meanValid_bounds (vs : List ℚ) (lo hi : ℚ)
    (hb : ∀ s ∈ vs, 0 < s → lo ≤ s ∧ s ≤ hi) (hpos : 0 < Spec.meanValid vs) :
    lo ≤ Spec.meanValid vs ∧ Spec.meanValid vs ≤ hi := by
  have hlen0 : (vs.filter fun v => decide (0 < v)).length ≠ 0 := by
    intro h0
    simp [Spec.meanValid, h0] at hpos
  have hn : (0 : ℚ) < ((vs.filter fun v => decide (0 < v)).length : ℚ) := by
    exact_mod_cast Nat.pos_of_ne_zero hlen0
  have hlo : (vs.filter fun v => decide (0 < v)).length • lo
      ≤ (vs.filter fun v => decide (0 < v)).sum :=
    List.card_nsmul_le_sum _ _ fun w hw =>
      (hb w (List.mem_filter.mp hw).1 (by simpa using (List.mem_filter.mp hw).2)).1
  have hhi : (vs.filter fun v => decide (0 < v)).sum
      ≤ (vs.filter fun v => decide (0 < v)).length • hi :=
    List.sum_le_card_nsmul _ _ fun w hw =>
      (hb w (List.mem_filter.mp hw).1 (by simpa using (List.mem_filter.mp hw).2)).2
  rw [nsmul_eq_mul] at hlo hhi
  simp only [Spec.meanValid, if_neg hlen0]
  constructor
  · rw [le_div_iff₀ hn]
    linarith
  · rw [div_le_iff₀ hn]
    linarith

/-- A weighted mean with non-negative weights lies between any two bounds of its terms. -/
theorem weightedMean_bounds (S : Finset Nat) (c v : Nat → ℚ) (lo hi : ℚ)
    (hc : ∀ i ∈ S, 0 ≤ c i) (hv : ∀ i ∈ S, lo ≤ v i ∧ v i ≤ hi)
    (hs : 0 < ∑ i in S, c i) :
    lo ≤ (∑ i in S, c i * v i) / (∑ i in S, c i) ∧
      (∑ i in S, c i * v i) / (∑ i in S, c i) ≤ hi := by
  constructor
  · rw [le_div_iff₀ hs, Finset.mul_sum]
    exact Finset.sum_le_sum fun i hm => by
      rw [mul_comm lo (c i)]
      exact mul_le_mul_of_nonneg_left (hv i hm).1 (hc i hm)
  · rw [div_le_iff₀ hs, Finset.mul_sum]
    exact Finset.sum_le_sum fun i hm => by
      rw [mul_comm hi (c i)]
      exact mul_le_mul_of_nonneg_left (hv i hm).2 (hc i hm)

theorem convAtX_nonneg (I : Image) (M : Nat) (c : List ℚ) (x y : Nat)
    (hc : ∀ i, i < M → 0 ≤ c.getD i 0) : 0 ≤ Spec.convAtX I M c x y := by
  simp only [Spec.convAtX]
  split_ifs with hs
  · refine div_nonneg (Finset.sum_nonneg fun i hi => ?_) (le_of_lt hs)
    exact mul_nonneg (hc i (Finset.mem_range.mp (Finset.mem_filter.mp hi).1))
      (le_of_lt (Finset.mem_filter.mp hi).2.2.2)
  · exact le_refl _

theorem convAtY_nonneg (I : Image) (M : Nat) (c : List ℚ) (x y : Nat)
    (hc : ∀ i, i < M → 0 ≤ c.getD i 0) : 0 ≤ Spec.convAtY I M c x y := by
  simp only [Spec.convAtY]
  split_ifs with hs
  · refine div_nonneg (Finset.sum_nonneg fun i hi => ?_) (le_of_lt hs)
    exact mul_nonneg (hc i (Finset.mem_range.mp (Finset.mem_filter.mp hi).1))
      (le_of_lt (Finset.mem_filter.mp hi).2.2.2)
  · exact le_refl _

/-- A positive output of the x-pass lies between any two bounds of the valid samples. -/
theorem convAtX_bounds (I : Image) (M : Nat) (c : List ℚ) (x y : Nat) (lo hi : ℚ)
    (hc : ∀ i, i < M → 0 ≤ c.getD i 0)
    (hb : ∀ s ∈ I.data, 0 < s → lo ≤ s ∧ s ≤ hi) (hpos : 0 < Spec.convAtX I M c x y) :
    lo ≤ Spec.convAtX I M c x y ∧ Spec.convAtX I M c x y ≤ hi := by
  simp only [Spec.convAtX] at hpos ⊢
  split_ifs at hpos ⊢ with hs
  · exact weightedMean_bounds _ (fun i => c.getD i 0)
      (fun i => Spec.sample I (Spec.tapPos M x i).toNat y) lo hi
      (fun i hm => hc i (Finset.mem_range.mp (Finset.mem_filter.mp hm).1))
      (fun i hm => hb _ (sample_mem_of_pos I _ _ (Finset.mem_filter.mp hm).2.2.2)
        (Finset.mem_filter.mp hm).2.2.2) hs
  · exact absurd hpos (lt_irrefl _)

/-- A positive output of the y-pass lies between any two bounds of the valid samples. -/
theorem convAtY_bounds (I : Image) (M : Nat) (c : List ℚ) (x y : Nat) (lo hi : ℚ)
    (hc : ∀ i, i < M → 0 ≤ c.getD i 0)
    (hb : ∀ s ∈ I.data, 0 < s → lo ≤ s ∧ s ≤ hi) (hpos : 0 < Spec.convAtY I M c x y) :
    lo ≤ Spec.convAtY I M c x y ∧ Spec.convAtY I M c x y ≤ hi := by
  simp only [Spec.convAtY] at hpos ⊢
  split_ifs at hpos ⊢ with hs
  · exact weightedMean_bounds _ (fun i => c.getD i 0)
      (fun i => Spec.sample I x (Spec.tapPos M y i).toNat) lo hi
      (fun i hm => hc i (Finset.mem_range.mp (Finset.mem_filter.mp hm).1))
      (fun i hm => hb _ (sample_mem_of_pos I _ _ (Finset.mem_filter.mp hm).2.2.2)
        (Finset.mem_filter.mp hm).2.2.2) hs
  · exact absurd hpos (lt_irrefl _)

theorem subsample_nonneg (I : Image) (v : ℚ) (h : v ∈ (Spec.subsample I).data) : 0 ≤ v := by
  obtain ⟨x, y, _, _, rfl⟩ := mem_tabulate _ _ v h
  exact meanValid_nonneg _

theorem convX_nonneg (I : Image) (M : Nat) (c : List ℚ) (hc : ∀ i, i < M → 0 ≤ c.getD i 0)
    (v : ℚ) (h : v ∈ (Spec.convX I M c).data) : 0 ≤ v := by
  obtain ⟨x, y, _, _, rfl⟩ := mem_tabulate _ _ v h
  exact convAtX_nonneg I M c x y hc

theorem convY_nonneg (I : Image) (M : Nat) (c : List ℚ) (hc : ∀ i, i < M → 0 ≤ c.getD i 0)
    (v : ℚ) (h : v ∈ (Spec.convY I M c).data) : 0 ≤ v := by
  obtain ⟨x, y, _, _, rfl⟩ := mem_tabulate _ _ v h
  exact convAtY_nonneg I M c x y hc

theorem gaussianMask_nonneg (expf : ℚ → ℚ) (hexp : ∀ t, 0 ≤ expf t) (M : Nat) (sigma : ℚ)
    (i : Nat) (hi : i < M) : 0 ≤ (Spec.gaussianMask expf M sigma).getD i 0 := by
  simp only [Spec.gaussianMask, List.getD_eq_getElem?_getD, List.getElem?_map,
    List.getElem?_range hi, Option.map_some', Option.getD_some]
  exact hexp _

theorem pipeline_nonneg (expf : ℚ → ℚ) (hexp : ∀ t, 0 ≤ expf t) (I0 : Image) (v : ℚ)
    (h : v ∈ (Spec.pipeline expf I0).data) : 0 ≤ v :=
  convY_nonneg _ _ _ (gaussianMask_nonneg expf hexp _ _) v h

/-- The positive samples of the subsampled image stay within the bounds of the valid
samples of the input. -/
theorem subsample_bounds (I : Image) (lo hi : ℚ)
    (hb : ∀ s ∈ I.data, 0 < s → lo ≤ s ∧ s ≤ hi) (v : ℚ)
    (h : v ∈ (Spec.subsample I).data) (hpos : 0 < v) : lo ≤ v ∧ v ≤ hi := by
  obtain ⟨x, y, _, _, rfl⟩ := mem_tabulate _ _ v h
  refine meanValid_bounds _ lo hi (fun s hs hp => hb s ?_ hp) hpos
  simp only [Spec.block, List.mem_cons, List.mem_singleton, List.not_mem_nil, or_false] at hs
  rcases hs with rfl | rfl | rfl | rfl <;> exact sample_mem_of_pos I _ _ hp

theorem convX_bounds (I : Image) (M : Nat) (c : List ℚ) (lo hi : ℚ)
    (hc : ∀ i, i < M → 0 ≤ c.getD i 0) (hb : ∀ s ∈ I.data, 0 < s → lo ≤ s ∧ s ≤ hi)
    (v : ℚ) (h : v ∈ (Spec.convX I M c).data) (hpos : 0 < v) : lo ≤ v ∧ v ≤ hi := by
  obtain ⟨x, y, _, _, rfl⟩ := mem_tabulate _ _ v h
  exact convAtX_bounds I M c x y lo hi hc hb hpos

theorem convY_bounds (I : Image) (M : Nat) (c : List ℚ) (lo hi : ℚ)
    (hc : ∀ i, i < M → 0 ≤ c.getD i 0) (hb : ∀ s ∈ I.data, 0 < s → lo ≤ s ∧ s ≤ hi)
    (v : ℚ) (h : v ∈ (Spec.convY I M c).data) (hpos : 0 < v) : lo ≤ v ∧ v ≤ hi := by
  obtain ⟨x, y, _, _, rfl⟩ := mem_tabulate _ _ v h
  exact convAtY_bounds I M c x y lo hi hc hb hpos

theorem gaussian_bounds (expf : ℚ → ℚ) (hexp : ∀ t, 0 ≤ expf t) (I : Image) (sigma lo hi : ℚ)
    (hb : ∀ s ∈ I.data, 0 < s → lo ≤ s ∧ s ≤ hi)
    (v : ℚ) (h : v ∈ (Spec.gaussian expf I sigma).data) (hpos : 0 < v) : lo ≤ v ∧ v ≤ hi :=
  convY_bounds _ _ _ lo hi (gaussianMask_nonneg expf hexp _ _)
    (convX_bounds I _ _ lo hi (gaussianMask_nonneg expf hexp _ _) hb) v h hpos

/-- The positive samples of the preprocessed image stay within the bounds of the valid
samples of the input. -/
theorem pipeline_bounds (expf : ℚ → ℚ) (hexp : ∀ t, 0 ≤ expf t) (I0 : Image) (lo hi : ℚ)
    (hb : ∀ s ∈ I0.data, 0 < s → lo ≤ s ∧ s ≤ hi)
    (v : ℚ) (h : v ∈ (Spec.pipeline expf I0).data) (hpos : 0 < v) : lo ≤ v ∧ v ≤ hi :=
  gaussian_bounds expf hexp _ _ lo hi
    (subsample_bounds _ lo hi (subsample_bounds _ lo hi (subsample_bounds _ lo hi
      (subsample_bounds I0 lo hi hb)))) v h hpos

/-- C13. Preprocessed-image invariant: for every input depth image, negative samples
included, every sample of the output of `filterSubsample`, of `filterSeparable_x` and of
`filterSeparable_y` with non-negative coefficients, and of the whole preprocessing, is
either exactly 0 or strictly positive: no negative value survives. -/
theorem C13_preprocessed_invariant (expf : ℚ → ℚ) (hexp : ∀ t, 0 ≤ expf t)
    (input output p1 p2 : Image) (M : Nat) (coeff : List ℚ) (hwf : input.WF)
    (hM : M ≤ coeff.length) (hc : ∀ i, i < M → 0 ≤ coeff.getD i 0) :
    (∃ out, filterSubsample input output = some out ∧ ∀ v ∈ out.data, v = 0 ∨ 0 < v) ∧
    (∃ out, filterSeparable_x input output M coeff = some out ∧
      ∀ v ∈ out.data, v = 0 ∨ 0 < v) ∧
    (∃ out, filterSeparable_y input output M coeff = some out ∧
      ∀ v ∈ out.data, v = 0 ∨ 0 < v) ∧
    (∃ out scratch, preprocess expf input p1 p2 = some (out, scratch) ∧
      ∀ v ∈ out.data, v = 0 ∨ 0 < v) := by
  have key : ∀ v : ℚ, 0 ≤ v → v = 0 ∨ 0 < v := fun v hv =>
    (eq_or_lt_of_le hv).imp Eq.symm id
  exact ⟨⟨_, filterSubsample_eq input output hwf, fun v hv => key v (subsample_nonneg _ v hv)⟩,
    ⟨_, filterSeparable_x_eq input output M coeff hwf hM,
      fun v hv => key v (convX_nonneg _ _ _ hc v hv)⟩,
    ⟨_, filterSeparable_y_eq input output M coeff hwf hM,
      fun v hv => key v (convY_nonneg _ _ _ hc v hv)⟩,
    ⟨_, _, preprocess_eq expf input p1 p2 hwf,
      fun v hv => key v (pipeline_nonneg expf hexp input v hv)⟩⟩

/-- The statement C13 on a 3 x 3 image with a negative sample and a mask with a zero
coefficient. -/
theorem C13_preprocessed_invariant_witness :
    (∀ t : ℚ, 0 ≤ (fun t : ℚ => 1 / (1 + t ^ 2)) t) ∧ holedImage.WF ∧
    3 ≤ ([1, 0, 2] : List ℚ).length ∧ (∀ i, i < 3 → 0 ≤ ([1, 0, 2] : List ℚ).getD i 0) ∧
    (∃ out, filterSubsample holedImage staleImage = some out ∧
      ∀ v ∈ out.data, v = 0 ∨ 0 < v) ∧
    (∃ out, filterSeparable_x holedImage staleImage 3 [1, 0, 2] = some out ∧
      ∀ v ∈ out.data, v = 0 ∨ 0 < v) ∧
    (∃ out, filterSeparable_y holedImage staleImage 3 [1, 0, 2] = some out ∧
      ∀ v ∈ out.data, v = 0 ∨ 0 < v) ∧
    (∃ out scratch, preprocess (fun t => 1 / (1 + t ^ 2)) holedImage staleImage twinImage
        = some (out, scratch) ∧
      ∀ v ∈ out.data, v = 0 ∨ 0 < v) := by
  have hexp : ∀ t : ℚ, 0 ≤ (fun t : ℚ => 1 / (1 + t ^ 2)) t := fun t => by
    show 0 ≤ 1 / (1 + t ^ 2)
    positivity
  have hc : ∀ i, i < 3 → 0 ≤ ([1, 0, 2] : List ℚ).getD i 0 := by
    intro i hi
    interval_cases i <;> simp
  exact ⟨hexp, holedImage_WF, le_refl _, hc,
    C13_preprocessed_invariant (fun t => 1 / (1 + t ^ 2)) hexp holedImage staleImage
      staleImage twinImage 3 [1, 0, 2] holedImage_WF (le_refl _) hc⟩

theorem validSamples_bounds (I : Image) (hne : (Spec.validSamples I).Nonempty) :
    ∀ s ∈ I.data, 0 < s →
      (Spec.validSamples I).min' hne ≤ s ∧ s ≤ (Spec.validSamples I).max' hne := by
  intro s hs hpos
  have hmem : s ∈ Spec.validSamples I := by
    simp [Spec.validSamples, List.mem_filter, hs, hpos]
  exact ⟨Finset.min'_le _ _ hmem, Finset.le_max' _ _ hmem⟩

/-- In exact arithmetic the depth range is never extended by preprocessing: for every
input image that has at least one sample > 0, every strictly positive sample of the output
of `filterSubsample`, of either Gaussian pass (positive coefficients) and of the whole
preprocessing lies between the minimum and the maximum of the input's strictly positive
samples. -/
theorem depth_range_exact (expf : ℚ → ℚ) (hexp : ∀ t, 0 < expf t)
    (input output p1 p2 : Image) (M : Nat) (coeff : List ℚ) (hwf : input.WF)
    (hM : M ≤ coeff.length) (hc : ∀ i, i < M → 0 < coeff.getD i 0)
    (hne : (Spec.validSamples input).Nonempty) :
    (∃ out, filterSubsample input output = some out ∧
      ∀ v ∈ out.data, 0 < v →
        (Spec.validSamples input).min' hne ≤ v ∧ v ≤ (Spec.validSamples input).max' hne) ∧
    (∃ out, filterSeparable_x input output M coeff = some out ∧
      ∀ v ∈ out.data, 0 < v →
        (Spec.validSamples input).min' hne ≤ v ∧ v ≤ (Spec.validSamples input).max' hne) ∧
    (∃ out, filterSeparable_y input output M coeff = some out ∧
      ∀ v ∈ out.data, 0 < v →
        (Spec.validSamples input).min' hne ≤ v ∧ v ≤ (Spec.validSamples input).max' hne) ∧
    (∃ out scratch, preprocess expf input p1 p2 = some (out, scratch) ∧
      ∀ v ∈ out.data, 0 < v →
        (Spec.validSamples input).min' hne ≤ v ∧ v ≤ (Spec.validSamples input).max' hne) := by
  have hb := validSamples_bounds input hne
  have hc0 : ∀ i, i < M → 0 ≤ coeff.getD i 0 := fun i hi => le_of_lt (hc i hi)
  have hexp0 : ∀ t, 0 ≤ expf t := fun t => le_of_lt (hexp t)
  exact ⟨⟨_, filterSubsample_eq input output hwf, subsample_bounds input _ _ hb⟩,
    ⟨_, filterSeparable_x_eq input output M coeff hwf hM, convX_bounds input M coeff _ _ hc0 hb⟩,
    ⟨_, filterSeparable_y_eq input output M coeff hwf hM, convY_bounds input M coeff _ _ hc0 hb⟩,
    ⟨_, _, preprocess_eq expf input p1 p2 hwf, pipeline_bounds expf hexp0 input _ _ hb⟩⟩

theorem holedImage_validSamples : (Spec.validSamples holedImage).Nonempty :=
  ⟨1, by simp [Spec.validSamples, holedImage]⟩

/-! ## Gaussian of a constant image -/

theorem tabulate_eq_constantImage (dims : Vector2) (f : Nat → Nat → ℚ) (v : ℚ)
    (h : ∀ x y, x < dims.x → y < dims.y → f x y = v) :
    Spec.tabulate dims f = Spec.constantImage dims v := by
  have hd : (Spec.tabulate dims f).data = List.replicate (dims.x * dims.y) v := by
    apply List.eq_replicate_iff.mpr
    refine ⟨by simp [Spec.tabulate], fun b hb => ?_⟩
    obtain ⟨x, y, hx, hy, rfl⟩ := mem_tabulate dims f b hb
    exact h x y hx hy
  simp only [Spec.constantImage, ← hd]
  rfl

theorem sample_constantImage (dims : Vector2) (v : ℚ) (x y : Nat) (hx : x < dims.x)
    (hy : y < dims.y) : Spec.sample (Spec.constantImage dims v) x y = v := by
  have hlt : y * dims.x + x < dims.x * dims.y := by
    have : (y + 1) * dims.x ≤ dims.y * dims.x := Nat.mul_le_mul_right _ hy
    have e1 : (y + 1) * dims.x = y * dims.x + dims.x := by ring
    have e2 : dims.y * dims.x = dims.x * dims.y := Nat.mul_comm _ _
    omega
  simp only [Spec.sample, Spec.constantImage]
  rw [List.getD_eq_getElem _ _ (by simpa using hlt)]
  simp

theorem maskLength_odd (sigma : ℚ) : Spec.maskLength sigma % 2 = 1 := by
  unfold Spec.maskLength
  simp only
  split_ifs with h <;> omega

/-- The centre tap `i = M/2` of a non-empty mask sits on the pixel itself. -/
theorem tapPos_centre (M x : Nat) : Spec.tapPos M x (M / 2) = (x : Int) := by
  unfold Spec.tapPos
  omega

theorem convX_constantImage (dims : Vector2) (v : ℚ) (hv : 0 < v) (M : Nat) (c : List ℚ)
    (hM : 1 ≤ M) (hc : ∀ i, i < M → 0 < c.getD i 0) :
    Spec.convX (Spec.constantImage dims v) M c = Spec.constantImage dims v := by
  apply tabulate_eq_constantImage
  intro x y hx hy
  have hpos : 0 < Spec.convAtX (Spec.constantImage dims v) M c x y := by
    refine convAtX_pos _ M c x y hc ⟨M / 2, by omega, ?_⟩
    have ht := tapPos_centre M x
    refine ⟨by omega, by rw [ht]; exact_mod_cast hx, ?_⟩
    rw [ht, Int.toNat_ofNat, sample_constantImage dims v x y hx hy]
    exact hv
  have hb := convAtX_bounds (Spec.constantImage dims v) M c x y v v
    (fun i hi => le_of_lt (hc i hi))
    (fun s hs _ => by
      have := List.eq_of_mem_replicate hs
      exact ⟨le_of_eq this.symm, le_of_eq this⟩) hpos
  exact le_antisymm hb.2 hb.1

theorem convY_constantImage (dims : Vector2) (v : ℚ) (hv : 0 < v) (M : Nat) (c : List ℚ)
    (hM : 1 ≤ M) (hc : ∀ i, i < M → 0 < c.getD i 0) :
    Spec.convY (Spec.constantImage dims v) M c = Spec.constantImage dims v := by
  apply tabulate_eq_constantImage
  intro x y hx hy
  have hpos : 0 < Spec.convAtY (Spec.constantImage dims v) M c x y := by
    refine convAtY_pos _ M c x y hc ⟨M / 2, by omega, ?_⟩
    have ht := tapPos_centre M y
    refine ⟨by omega, by rw [ht]; exact_mod_cast hy, ?_⟩
    rw [ht, Int.toNat_ofNat, sample_constantImage dims v x y hx hy]
    exact hv
  have hb := convAtY_bounds (Spec.constantImage dims v) M c x y v v
    (fun i hi => le_of_lt (hc i hi))
    (fun s hs _ => by
      have := List.eq_of_mem_replicate hs
      exact ⟨le_of_eq this.symm, le_of_eq this⟩) hpos
  exact le_antisymm hb.2 hb.1

theorem constantImage_WF (dims : Vector2) (v : ℚ) : (Spec.constantImage dims v).WF := by
  simp [Image.WF, Spec.constantImage]

/-- C11. Gaussian of a constant image: for every size `W x H` (in particular with
`W, H ≥ 1`), every constant `v > 0` and every `σ > 0`, `filterGaussian` applied to the
image whose every sample is `v` returns the image whose every sample is `v`, exactly,
borders included (`exp` being positive). -/
theorem C11_gaussian_constant (expf : ℚ → ℚ) (hexp : ∀ t, 0 < expf t) (W H : Nat)
    (v : ℚ) (hv : 0 < v) (sigma : ℚ) (hs : 0 < sigma) (output : Image) :
    filterGaussian expf (Spec.constantImage ⟨W, H⟩ v) output sigma
      = some (Spec.constantImage ⟨W, H⟩ v) ∧
    ∀ x y, x < W → y < H →
      (Spec.constantImage ⟨W, H⟩ v).data[y * W + x]? = some v := by
  have hM : 1 ≤ Spec.maskLength sigma := by
    have := maskLength_odd sigma
    omega
  have hc := gaussianMask_pos expf hexp (Spec.maskLength sigma) sigma
  constructor
  · rw [filterGaussian_eq expf _ output sigma (constantImage_WF _ _) (le_of_lt hs)]
    simp only [Spec.gaussian]
    rw [convX_constantImage _ v hv _ _ hM hc, convY_constantImage _ v hv _ _ hM hc]
  · intro x y hx hy
    have h := sample_constantImage ⟨W, H⟩ v x y hx hy
    have hlt : y * W + x < W * H := by
      have : (y + 1) * W ≤ H * W := Nat.mul_le_mul_right _ hy
      have e1 : (y + 1) * W = y * W + W := by ring
      have e2 : H * W = W * H := Nat.mul_comm _ _
      omega
    simp [Spec.constantImage, List.getElem?_replicate, hlt]

/-- The statement C11 for a 5 x 3 image, the constant 7/2 and `σ = 2.5`: the window of
half-width 8 is clipped at every pixel. -/
theorem C11_gaussian_constant_witness :
    (∀ t : ℚ, 0 < (fun t : ℚ => 1 / (1 + t ^ 2)) t) ∧ (0 : ℚ) < 7 / 2 ∧ (0 : ℚ) < 5 / 2 ∧
    filterGaussian (fun t => 1 / (1 + t ^ 2)) (Spec.constantImage ⟨5, 3⟩ (7 / 2)) staleImage
        (5 / 2) = some (Spec.constantImage ⟨5, 3⟩ (7 / 2)) ∧
    ∀ x y, x < 5 → y < 3 →
      (Spec.constantImage ⟨5, 3⟩ (7 / 2)).data[y * 5 + x]? = some (7 / 2) := by
  have hexp : ∀ t : ℚ, 0 < (fun t : ℚ => 1 / (1 + t ^ 2)) t := fun t => by
    show 0 < 1 / (1 + t ^ 2)
    positivity
  exact ⟨hexp, by norm_num, by norm_num,
    C11_gaussian_constant (fun t => 1 / (1 + t ^ 2)) hexp 5 3 (7 / 2) (by norm_num) (5 / 2)
      (by norm_num) staleImage⟩

/-! ## Support of the full Gaussian -/

/-- In exact arithmetic the mask length of `filterGaussian` is `⌊2 · 3.5 · σ⌋`, plus one
if that value is even, for every `σ ≥ 0`: odd, at least 1, and equal to `⌊7σ⌋` or
`⌊7σ⌋ + 1`; at `σ = 2.5` it is 17, of half-width 8. -/
theorem gaussianFilterSize_floor (sigma : ℚ) (hs : 0 ≤ sigma) :
    gaussianFilterSize sigma =
      (if ⌊2 * (7 / 2) * sigma⌋ % 2 = 0 then ⌊2 * (7 / 2) * sigma⌋ + 1
        else ⌊2 * (7 / 2) * sigma⌋) ∧
    ⌊2 * (7 / 2) * sigma⌋ = ⌊7 * sigma⌋ ∧
    gaussianFilterSize sigma % 2 = 1 ∧ 1 ≤ gaussianFilterSize sigma ∧
    (gaussianFilterSize sigma = ⌊7 * sigma⌋ ∨ gaussianFilterSize sigma = ⌊7 * sigma⌋ + 1) ∧
    gaussianFilterSize (5 / 2) = 17 ∧ (gaussianFilterSize (5 / 2)).toNat / 2 = 8 := by
  have hq : (0 : ℚ) ≤ 2 * (7 / 2) * sigma := by positivity
  have h7 : (2 : ℚ) * (7 / 2) * sigma = 7 * sigma := by ring
  have hz : 0 ≤ ⌊2 * (7 / 2) * sigma⌋ := Int.floor_nonneg.mpr hq
  have hdef : gaussianFilterSize sigma =
      (if ⌊2 * (7 / 2) * sigma⌋ % 2 = 0 then ⌊2 * (7 / 2) * sigma⌋ + 1
        else ⌊2 * (7 / 2) * sigma⌋) := by
    simp only [gaussianFilterSize, truncToInt, if_pos hq]
  have h17 := gaussianFilterSize_pipeline
  refine ⟨hdef, by rw [h7], ?_, ?_, ?_, h17, by rw [h17]; decide⟩
  · rw [hdef]
    split_ifs with h <;> omega
  · rw [hdef]
    split_ifs with h <;> omega
  · rw [hdef, ← h7]
    split_ifs with h
    · exact Or.inr rfl
    · exact Or.inl rfl

/-- C18. Index safety of `filterSubsample`: for every input size `W x H` (odd and zero
sizes included) and every output pixel `(x, y)` with `x < ⌊W/2⌋`, `y < ⌊H/2⌋`, each of the
four read indices is `< W·H` and the write index `x + y·⌊W/2⌋` is `< ⌊W/2⌋·⌊H/2⌋`; the
pixel body returns a value, which is 0 without any division when no sample is valid; and
the function never takes the error branch. -/
theorem C18_subsample_index_safety (input output : Image) (hwf : input.WF) :
    (∀ x y, x < input.noDims.x / 2 → y < input.noDims.y / 2 →
      x * 2 + y * 2 * input.noDims.x < input.noDims.x * input.noDims.y ∧
      x * 2 + 1 + y * 2 * input.noDims.x < input.noDims.x * input.noDims.y ∧
      x * 2 + (y * 2 + 1) * input.noDims.x < input.noDims.x * input.noDims.y ∧
      x * 2 + 1 + (y * 2 + 1) * input.noDims.x < input.noDims.x * input.noDims.y ∧
      x + y * (input.noDims.x / 2) < (input.noDims.x / 2) * (input.noDims.y / 2) ∧
      (∃ a b c d, input.data[x * 2 + y * 2 * input.noDims.x]? = some a ∧
        input.data[x * 2 + 1 + y * 2 * input.noDims.x]? = some b ∧
        input.data[x * 2 + (y * 2 + 1) * input.noDims.x]? = some c ∧
        input.data[x * 2 + 1 + (y * 2 + 1) * input.noDims.x]? = some d ∧
        subsamplePixel input.data input.noDims x y =
          some (if (accumulateValid (accumulateValid (accumulateValid
                (accumulateValid (0, 0) a) b) c) d).1 > 0
            then (accumulateValid (accumulateValid (accumulateValid
                (accumulateValid (0, 0) a) b) c) d).2 /
              (((accumulateValid (accumulateValid (accumulateValid
                (accumulateValid (0, 0) a) b) c) d).1 : Nat) : ℚ)
            else 0))) ∧
    (input.data.length = input.noDims.x * input.noDims.y) ∧
    ((output.ChangeDims ⟨input.noDims.x / 2, input.noDims.y / 2⟩).data.length
      = (input.noDims.x / 2) * (input.noDims.y / 2)) ∧
    (∃ out, filterSubsample input output = some out) := by
  refine ⟨fun x y hx hy => ?_, hwf, by simp [Image.ChangeDims, length_resizeBuffer],
    ⟨_, filterSubsample_eq input output hwf⟩⟩
  have hmax := subsample_index_lt input.noDims.x input.noDims.y x y hx hy
  have hlen : input.data.length = input.noDims.x * input.noDims.y := hwf
  have hmono : y * 2 * input.noDims.x ≤ (y * 2 + 1) * input.noDims.x :=
    Nat.mul_le_mul_right _ (by omega)
  have h1 : x * 2 + y * 2 * input.noDims.x < input.noDims.x * input.noDims.y := by omega
  have h2 : x * 2 + 1 + y * 2 * input.noDims.x < input.noDims.x * input.noDims.y := by omega
  have h3 : x * 2 + (y * 2 + 1) * input.noDims.x < input.noDims.x * input.noDims.y := by omega
  have hw : x + y * (input.noDims.x / 2) < (input.noDims.x / 2) * (input.noDims.y / 2) := by
    have : (y + 1) * (input.noDims.x / 2) ≤ (input.noDims.y / 2) * (input.noDims.x / 2) :=
      Nat.mul_le_mul_right _ hy
    have e1 : (y + 1) * (input.noDims.x / 2)
        = y * (input.noDims.x / 2) + input.noDims.x / 2 := by ring
    have e2 : (input.noDims.y / 2) * (input.noDims.x / 2)
        = (input.noDims.x / 2) * (input.noDims.y / 2) := Nat.mul_comm _ _
    omega
  have g1 := getElem?_eq_getD input.data (x * 2 + y * 2 * input.noDims.x) (by omega)
  have g2 := getElem?_eq_getD input.data (x * 2 + 1 + y * 2 * input.noDims.x) (by omega)
  have g3 := getElem?_eq_getD input.data (x * 2 + (y * 2 + 1) * input.noDims.x) (by omega)
  have g4 := getElem?_eq_getD input.data (x * 2 + 1 + (y * 2 + 1) * input.noDims.x)
    (by omega)
  refine ⟨h1, h2, h3, hmax, hw, _, _, _, _, g1, g2, g3, g4, ?_⟩
  unfold subsamplePixel
  simp only [g1, g2, g3, g4, Option.bind_eq_bind, Option.some_bind, Option.pure_def]

/-- The statement C18 on a 3 x 3 image, whose odd last row and column are never read. -/
theorem C18_subsample_index_safety_witness :
    holedImage.WF ∧ ∃ out, filterSubsample holedImage staleImage = some out :=
  ⟨holedImage_WF, (C18_subsample_index_safety holedImage staleImage holedImage_WF).2.2.2⟩

/-- C19. Index safety of the Gaussian passes: for every image size `W x H`, every mask
length `M ≥ 0` and every pixel, `filterSeparable_x` and `filterSeparable_y` read the image
only at indices in `[0, W·H)` (a tap that is not skipped stays in the pixel's row,
respectively column), read `coeff` only at indices in `[0, M)`, and divide by `sum_c` only
when `sum_c > 0`; neither pass takes the error branch. In `filterGaussian` the coefficient
array has exactly the `M` entries that the passes index. -/
theorem C19_gaussian_index_safety (expf : ℚ → ℚ) (input output : Image) (M : Nat)
    (coeff : List ℚ) (sigma : ℚ) (hwf : input.WF) (hM : M ≤ coeff.length) (hs : 0 ≤ sigma) :
    (∀ x y i, x < input.noDims.x → y < input.noDims.y → i < M →
      (¬ ((x : Int) + i - ((M / 2 : Nat) : Int) < 0) →
        ¬ ((x : Int) + i - ((M / 2 : Nat) : Int) ≥ input.noDims.x) →
        0 ≤ (y : Int) * input.noDims.x + x + i - ((M / 2 : Nat) : Int) ∧
        (y : Int) * input.noDims.x + x + i - ((M / 2 : Nat) : Int)
          < input.noDims.x * input.noDims.y ∧
        (y : Int) * input.noDims.x ≤ (y : Int) * input.noDims.x + x + i - ((M / 2 : Nat) : Int) ∧
        (y : Int) * input.noDims.x + x + i - ((M / 2 : Nat) : Int)
          < ((y : Int) + 1) * input.noDims.x ∧
        ∃ v, readAt input.data ((y : Int) * input.noDims.x + x + i - ((M / 2 : Nat) : Int))
          = some v) ∧
      (¬ ((y : Int) + i - ((M / 2 : Nat) : Int) < 0) →
        ¬ ((y : Int) + i - ((M / 2 : Nat) : Int) ≥ input.noDims.y) →
        0 ≤ ((y : Int) + i - ((M / 2 : Nat) : Int)) * input.noDims.x + x ∧
        ((y : Int) + i - ((M / 2 : Nat) : Int)) * input.noDims.x + x
          < input.noDims.x * input.noDims.y ∧
        ∃ v, readAt input.data (((y : Int) + i - ((M / 2 : Nat) : Int)) * input.noDims.x + x)
          = some v) ∧
      i < coeff.length ∧
      (∀ acc, ∃ acc2, tapStep_x input.data coeff input.noDims (M / 2) x y i acc = some acc2) ∧
      (∀ acc, ∃ acc2, tapStep_y input.data coeff input.noDims (M / 2) x y i acc = some acc2)) ∧
    (∀ x y, x < input.noDims.x → y < input.noDims.y →
      (∃ sum_v sum_c, forLoop M (tapStep_x input.data coeff input.noDims (M / 2) x y) (0, 0)
          = some (sum_v, sum_c) ∧
        separablePixel_x input.data coeff input.noDims M x y
          = some (if sum_c > 0 then sum_v / sum_c else 0)) ∧
      (∃ sum_v sum_c, forLoop M (tapStep_y input.data coeff input.noDims (M / 2) x y) (0, 0)
          = some (sum_v, sum_c) ∧
        separablePixel_y input.data coeff input.noDims M x y
          = some (if sum_c > 0 then sum_v / sum_c else 0))) ∧
    (∃ out, filterSeparable_x input output M coeff = some out) ∧
    (∃ out, filterSeparable_y input output M coeff = some out) ∧
    (∃ c, createGaussianFilter expf (gaussianFilterSize sigma).toNat sigma
        (List.replicate (gaussianFilterSize sigma).toNat 0) = some c ∧
      c.length = (gaussianFilterSize sigma).toNat) ∧
    (∃ out, filterGaussian expf input output sigma = some out) := by
  have hlen : input.data.length = input.noDims.x * input.noDims.y := hwf
  refine ⟨fun x y i hx hy hi => ⟨?_, ?_, by omega, fun acc => ⟨_, tapStep_x_eq input hwf
      coeff M x y i hy (by omega) acc⟩, fun acc => ⟨_, tapStep_y_eq input hwf coeff M x y i hx
      (by omega) acc⟩⟩,
    fun x y hx hy => ⟨⟨_, _, tapLoop_x_eq input hwf coeff M x y hy M hM, ?_⟩,
      ⟨_, _, tapLoop_y_eq input hwf coeff M x y hx M hM, ?_⟩⟩,
    ⟨_, filterSeparable_x_eq input output M coeff hwf hM⟩,
    ⟨_, filterSeparable_y_eq input output M coeff hwf hM⟩,
    ⟨_, createGaussianFilter_eq expf _ sigma _ (List.length_replicate _ _),
      length_gaussianMask _ _ _⟩,
    ⟨_, filterGaussian_eq expf input output sigma hwf hs⟩⟩
  · intro h0 h1
    have hrow : ((y : Int) + 1) * input.noDims.x ≤ (input.noDims.y : Int) * input.noDims.x :=
      Int.mul_le_mul_of_nonneg_right (by omega) (by omega)
    have e1 : ((y : Int) + 1) * input.noDims.x = (y : Int) * input.noDims.x + input.noDims.x := by
      ring
    have e2 : (input.noDims.y : Int) * input.noDims.x
        = (input.noDims.x : Int) * input.noDims.y := by ring
    have hynn : (0 : Int) ≤ (y : Int) * input.noDims.x := by positivity
    have b0 : 0 ≤ (y : Int) * input.noDims.x + x + i - ((M / 2 : Nat) : Int) := by omega
    have b1 : (y : Int) * input.noDims.x + x + i - ((M / 2 : Nat) : Int)
        < input.noDims.x * input.noDims.y := by omega
    refine ⟨b0, b1, by omega, by omega, ?_⟩
    obtain ⟨n, hn⟩ := Int.eq_ofNat_of_zero_le b0
    have hnlt : n < input.data.length := by
      rw [hlen]
      have : (n : Int) < ((input.noDims.x * input.noDims.y : Nat) : Int) := by
        rw [← hn]
        push_cast
        exact b1
      exact_mod_cast this
    exact ⟨_, readAt_natCast input.data _ n hn hnlt⟩
  · intro h0 h1
    obtain ⟨t, ht⟩ := Int.eq_ofNat_of_zero_le (not_lt.mp h0)
    have htH : t < input.noDims.y := by omega
    have hidx : t * input.noDims.x + x < input.noDims.x * input.noDims.y := by
      have : (t + 1) * input.noDims.x ≤ input.noDims.y * input.noDims.x :=
        Nat.mul_le_mul_right _ htH
      have e1 : (t + 1) * input.noDims.x = t * input.noDims.x + input.noDims.x := by ring
      have e2 : input.noDims.y * input.noDims.x = input.noDims.x * input.noDims.y :=
        Nat.mul_comm _ _
      omega
    have hz : ((y : Int) + i - ((M / 2 : Nat) : Int)) * input.noDims.x + x
        = ((t * input.noDims.x + x : Nat) : Int) := by
      rw [ht]
      push_cast
      rfl
    rw [hz]
    refine ⟨by positivity, by exact_mod_cast hidx, ?_⟩
    exact ⟨_, readAt_natCast input.data _ _ rfl (by omega)⟩
  · unfold separablePixel_x
    simp only [tapLoop_x_eq input hwf coeff M x y hy M hM, Option.bind_eq_bind,
      Option.some_bind, Option.pure_def]
  · unfold separablePixel_y
    simp only [tapLoop_y_eq input hwf coeff M x y hx M hM, Option.bind_eq_bind,
      Option.some_bind, Option.pure_def]

/-- The statement C19 on a 3 x 3 image with a mask of length 3 and `σ = 2.5`, whose mask
of length 17 is wider than the image. -/
theorem C19_gaussian_index_safety_witness :
    holedImage.WF ∧ 3 ≤ ([1, 2, 1] : List ℚ).length ∧ (0 : ℚ) ≤ 5 / 2 ∧
    (∃ out, filterSeparable_x holedImage staleImage 3 [1, 2, 1] = some out) ∧
    (∃ out, filterSeparable_y holedImage staleImage 3 [1, 2, 1] = some out) ∧
    (∃ out, filterGaussian (fun t => 1 / (1 + t ^ 2)) holedImage staleImage (5 / 2)
      = some out) :=
  ⟨holedImage_WF, le_refl _, by norm_num,
    (C19_gaussian_index_safety (fun t => 1 / (1 + t ^ 2)) holedImage staleImage 3 [1, 2, 1]
      (5 / 2) holedImage_WF (le_refl _) (by norm_num)).2.2.1,
    (C19_gaussian_index_safety (fun t => 1 / (1 + t ^ 2)) holedImage staleImage 3 [1, 2, 1]
      (5 / 2) holedImage_WF (le_refl _) (by norm_num)).2.2.2.1,
    (C19_gaussian_index_safety (fun t => 1 / (1 + t ^ 2)) holedImage staleImage 3 [1, 2, 1]
      (5 / 2) holedImage_WF (le_refl _) (by norm_num)).2.2.2.2.2⟩

/-! ## Persistence -/

/-- C14. `LoadFromDirectory` fails atomically: the file system being the set of openable
paths (on which the collaborators' `LoadFromFile` raise no error), `LoadFromDirectory(dir)`
raises an error if and only if at least one of `dir + "ferns.txt"`, `dir + "frames.txt"`,
`dir + "poses.txt"` cannot be opened; the message is `"unable to open "` followed by the
first such path in that order; and when it raises, no `LoadFromFile` has been called and
the relocaliser is unchanged. -/
theorem C14_load_atomic {Enc DB PDB : Type} (L : Loaders Enc DB PDB)
    (canOpen : String → Bool) (self : Relocaliser Enc DB PDB) (dir : String)
    (hEnc : ∀ e p, canOpen p = true → ∃ e2, L.loadEncoding e p = .ok e2)
    (hDB : ∀ d p, canOpen p = true → ∃ d2, L.loadRelocDatabase d p = .ok d2)
    (hPDB : ∀ d p, canOpen p = true → ∃ d2, L.loadPoseDatabase d p = .ok d2) :
    ((Relocaliser.LoadFromDirectory L canOpen self dir).error ≠ none ↔
      (canOpen (dir ++ "ferns.txt") = false ∨ canOpen (dir ++ "frames.txt") = false ∨
        canOpen (dir ++ "poses.txt") = false)) ∧
    (canOpen (dir ++ "ferns.txt") = false →
      (Relocaliser.LoadFromDirectory L canOpen self dir).error
        = some ("unable to open " ++ (dir ++ "ferns.txt"))) ∧
    (canOpen (dir ++ "ferns.txt") = true → canOpen (dir ++ "frames.txt") = false →
      (Relocaliser.LoadFromDirectory L canOpen self dir).error
        = some ("unable to open " ++ (dir ++ "frames.txt"))) ∧
    (canOpen (dir ++ "ferns.txt") = true → canOpen (dir ++ "frames.txt") = true →
      canOpen (dir ++ "poses.txt") = false →
      (Relocaliser.LoadFromDirectory L canOpen self dir).error
        = some ("unable to open " ++ (dir ++ "poses.txt"))) ∧
    ((Relocaliser.LoadFromDirectory L canOpen self dir).error ≠ none →
      (Relocaliser.LoadFromDirectory L canOpen self dir).self = self ∧
      (Relocaliser.LoadFromDirectory L canOpen self dir).loads = []) ∧
    ((Relocaliser.LoadFromDirectory L canOpen self dir).error = none →
      (Relocaliser.LoadFromDirectory L canOpen self dir).loads
        = [dir ++ "ferns.txt", dir ++ "frames.txt", dir ++ "poses.txt"]) := by
  cases h1 : canOpen (dir ++ "ferns.txt")
  · simp [Relocaliser.LoadFromDirectory, h1]
  cases h2 : canOpen (dir ++ "frames.txt")
  · simp [Relocaliser.LoadFromDirectory, h1, h2]
  cases h3 : canOpen (dir ++ "poses.txt")
  · simp [Relocaliser.LoadFromDirectory, h1, h2, h3]
  obtain ⟨e2, he⟩ := hEnc self.mEncoding _ h1
  obtain ⟨d2, hd⟩ := hDB self.relocDatabase _ h2
  obtain ⟨p2, hp⟩ := hPDB self.poseDatabase _ h3
  simp [Relocaliser.LoadFromDirectory, h1, h2, h3, he, hd, hp]

/-- The statement C14 on a directory whose `frames.txt` is missing. -/
theorem C14_load_atomic_witness :
    (∀ (e : Unit) (p : String), (fun p : String => p != "d/frames.txt") p = true →
      ∃ e2, listLoaders.loadEncoding e p = .ok e2) ∧
    (∀ (d : List Code) (p : String), (fun p : String => p != "d/frames.txt") p = true →
      ∃ d2, listLoaders.loadRelocDatabase d p = .ok d2) ∧
    (∀ (d : PoseDatabase Nat) (p : String), (fun p : String => p != "d/frames.txt") p = true →
      ∃ d2, listLoaders.loadPoseDatabase d p = .ok d2) ∧
    (Relocaliser.LoadFromDirectory listLoaders (fun p => p != "d/frames.txt") listRelocaliser
      "d/").error = some "unable to open d/frames.txt" ∧
    (Relocaliser.LoadFromDirectory listLoaders (fun p => p != "d/frames.txt") listRelocaliser
      "d/").self = listRelocaliser ∧
    (Relocaliser.LoadFromDirectory listLoaders (fun p => p != "d/frames.txt") listRelocaliser
      "d/").loads = [] := by
  have hC := C14_load_atomic listLoaders (fun p => p != "d/frames.txt") listRelocaliser "d/"
    (fun _ _ _ => ⟨(), rfl⟩) (fun _ _ _ => ⟨[], rfl⟩) (fun _ _ _ => ⟨PoseDatabase.empty, rfl⟩)
  have herr := hC.2.2.1 (by decide) (by decide)
  have hne : (Relocaliser.LoadFromDirectory listLoaders (fun p => p != "d/frames.txt")
      listRelocaliser "d/").error ≠ none := by
    rw [herr]
    exact Option.some_ne_none _
  exact ⟨fun _ _ _ => ⟨(), rfl⟩, fun _ _ _ => ⟨[], rfl⟩,
    fun _ _ _ => ⟨PoseDatabase.empty, rfl⟩, by rw [herr]; decide,
    (hC.2.2.2.2.1 hne).1, (hC.2.2.2.2.1 hne).2⟩

/-! ## Full Gaussian against the direct 2D weighted mean -/

theorem gaussianFilterSize_half : gaussianFilterSize (1 / 2) = 3 := by
  have hf : ⌊(2 : ℚ) * (7 / 2) * (1 / 2)⌋ = 3 := by
    rw [Int.floor_eq_iff]
    norm_num
  have hq : (0 : ℚ) ≤ 2 * (7 / 2) * (1 / 2) := by norm_num
  simp only [gaussianFilterSize, truncToInt, if_pos hq, hf]
  decide

theorem cornerHole_x_pass (a b : ℚ) (ha : 0 < a) (hb : 0 < b) :
    filterSeparable_x cornerHoleImage (Image.create ⟨2, 2⟩) 3 [b, a, b]
      = some { noDims := ⟨2, 2⟩,
               data := [(a + b * 3) / (a + b), (b + a * 3) / (b + a), 5, 5] } := by
  have hab : 0 < a + b := add_pos ha hb
  have hba : 0 < b + a := add_pos hb ha
  have ha0 : a ≠ 0 := ne_of_gt ha
  have hb0 : b ≠ 0 := ne_of_gt hb
  simp [filterSeparable_x, forLoop, separablePixel_x, tapStep_x, readAt, writeAt,
    Image.ChangeDims, Image.create, resizeBuffer, cornerHoleImage, ha, hb, hab, hba]
  norm_num [ha, hb, hab, hba, ha0, hb0]

theorem cornerHole_y_pass (a b p q : ℚ) (ha : 0 < a) (hb : 0 < b) (hp : 0 < p)
    (hq : 0 < q) :
    filterSeparable_y { noDims := ⟨2, 2⟩, data := [p, q, 5, 5] } staleImage 3 [b, a, b]
      = some { noDims := ⟨2, 2⟩,
               data := [(a * p + b * 5) / (a + b), (a * q + b * 5) / (a + b),
                        (b * p + a * 5) / (b + a), (b * q + a * 5) / (b + a)] } := by
  have hab : 0 < a + b := add_pos ha hb
  have hba : 0 < b + a := add_pos hb ha
  simp [filterSeparable_y, forLoop, separablePixel_y, tapStep_y, readAt, writeAt,
    Image.ChangeDims, resizeBuffer, staleImage, ha, hb, hab, hba, not_le.mpr hp,
    not_le.mpr hq]
  norm_num [hab, hba]

theorem cornerHole_direct2D (a b : ℚ) :
    Spec.direct2D cornerHoleImage 3 [b, a, b] 0 0
      = (a * a + b * a * 3 + a * b * 5) / (a * a + b * a + a * b) := by
  simp [Spec.direct2D, Spec.counted2D, Spec.tapPos, Spec.sample, cornerHoleImage,
    Finset.sum_filter, Finset.sum_product, Finset.sum_range_succ]
  ring

/-- Whatever positive values `exp` takes, the full Gaussian of `cornerHoleImage` at
`σ = 1/2` differs at pixel `(0, 0)` from the direct 2D weighted mean. -/
theorem filterGaussian_ne_direct2D (expf : ℚ → ℚ) (hexp : ∀ t, 0 < expf t) :
    ∃ coeff out v,
      createGaussianFilter expf 3 (1 / 2) (List.replicate 3 0) = some coeff ∧
      filterGaussian expf cornerHoleImage staleImage (1 / 2) = some out ∧
      out.data[0 * 2 + 0]? = some v ∧ v ≠ Spec.direct2D cornerHoleImage 3 coeff 0 0 := by
  have ha := hexp 0
  have hb := hexp (-2)
  have hab : 0 < expf 0 + expf (-2) := add_pos ha hb
  have hmask : createGaussianFilter expf 3 (1 / 2) (List.replicate 3 0)
      = some [expf (-2), expf 0, expf (-2)] := by
    simp [createGaussianFilter, forLoop, writeAt]
  have hp : 0 < (expf 0 + expf (-2) * 3) / (expf 0 + expf (-2)) := by positivity
  have hq : 0 < (expf (-2) + expf 0 * 3) / (expf (-2) + expf 0) := by positivity
  refine ⟨[expf (-2), expf 0, expf (-2)],
    { noDims := ⟨2, 2⟩,
      data := [(expf 0 * ((expf 0 + expf (-2) * 3) / (expf 0 + expf (-2))) + expf (-2) * 5)
                / (expf 0 + expf (-2)),
               (expf 0 * ((expf (-2) + expf 0 * 3) / (expf (-2) + expf 0)) + expf (-2) * 5)
                / (expf 0 + expf (-2)),
               (expf (-2) * ((expf 0 + expf (-2) * 3) / (expf 0 + expf (-2))) + expf 0 * 5)
                / (expf (-2) + expf 0),
               (expf (-2) * ((expf (-2) + expf 0 * 3) / (expf (-2) + expf 0)) + expf 0 * 5)
                / (expf (-2) + expf 0)] },
    _, hmask, ?_, rfl, ?_⟩
  · unfold filterGaussian
    rw [gaussianFilterSize_half]
    have h3 : ¬ ((3 : Int) < 0) := by decide
    have hn : (3 : Int).toNat = 3 := rfl
    have hd : cornerHoleImage.noDims = ⟨2, 2⟩ := rfl
    simp only [if_neg h3, hn, hd, hmask, cornerHole_x_pass _ _ ha hb,
      cornerHole_y_pass _ _ _ _ ha hb hp hq, Option.bind_eq_bind, Option.some_bind]
  · rw [cornerHole_direct2D]
    have h1 : expf 0 * expf 0 + expf (-2) * expf 0 + expf 0 * expf (-2) ≠ 0 := by positivity
    have h2 : expf 0 + expf (-2) ≠ 0 := ne_of_gt hab
    intro heq
    field_simp at heq
    nlinarith [mul_pos ha hb, mul_pos (mul_pos ha hb) hb, mul_pos (mul_pos hb hb) hb,
      mul_pos (mul_pos ha ha) hb, mul_pos ha ha, mul_pos hb hb]

/-! ## Binary32 rounding -/

theorem roundHalfEven_cases (q : ℚ) :
    (q - ⌊q⌋ < 1 / 2 ∧ roundHalfEven q = ⌊q⌋) ∨
    (1 / 2 < q - ⌊q⌋ ∧ roundHalfEven q = ⌊q⌋ + 1) ∨
    (q - ⌊q⌋ = 1 / 2 ∧ ⌊q⌋ % 2 = 0 ∧ roundHalfEven q = ⌊q⌋) ∨
    (q - ⌊q⌋ = 1 / 2 ∧ ⌊q⌋ % 2 = 1 ∧ roundHalfEven q = ⌊q⌋ + 1) := by
  unfold roundHalfEven
  by_cases h1 : q - ⌊q⌋ < 1 / 2
  · exact Or.inl ⟨h1, by rw [if_pos h1]⟩
  · by_cases h2 : 1 / 2 < q - ⌊q⌋
    · exact Or.inr (Or.inl ⟨h2, by rw [if_neg h1, if_pos h2]⟩)
    · have he : q - ⌊q⌋ = 1 / 2 := le_antisymm (not_lt.mp h2) (not_lt.mp h1)
      by_cases h3 : ⌊q⌋ % 2 = 0
      · exact Or.inr (Or.inr (Or.inl ⟨he, h3, by rw [if_neg h1, if_neg h2, if_pos h3]⟩))
      · exact Or.inr (Or.inr (Or.inr ⟨he, by omega, by rw [if_neg h1, if_neg h2, if_neg h3]⟩))

/-- The rounded integer is within one half of the argument. -/
theorem roundHalfEven_error (q : ℚ) : |(roundHalfEven q : ℚ) - q| ≤ 1 / 2 := by
  have hf := Int.floor_le q
  have hl := Int.lt_floor_add_one q
  rw [abs_le]
  rcases roundHalfEven_cases q with ⟨h, e⟩ | ⟨h, e⟩ | ⟨h, _, e⟩ | ⟨h, _, e⟩ <;> rw [e] <;>
    push_cast <;> constructor <;> linarith

/-- A value strictly within one half of an integer rounds to it. -/
theorem roundHalfEven_of_lt (q : ℚ) (z : Int) (h1 : (z : ℚ) - 1 / 2 < q)
    (h2 : q < z + 1 / 2) : roundHalfEven q = z := by
  have hf := Int.floor_le q
  have hl := Int.lt_floor_add_one q
  have hz1 : z - 1 ≤ ⌊q⌋ := by
    rw [Int.le_floor]
    push_cast
    linarith
  have hz2 : ⌊q⌋ ≤ z := by
    have : ⌊q⌋ < z + 1 := by
      rw [Int.floor_lt]
      push_cast
      linarith
    omega
  rcases roundHalfEven_cases q with ⟨h, e⟩ | ⟨h, e⟩ | ⟨h, _, e⟩ | ⟨h, _, e⟩ <;> rw [e]
  · by_contra hne
    have : ⌊q⌋ = z - 1 := by omega
    rw [this] at h
    push_cast at h
    linarith
  · by_contra hne
    have : ⌊q⌋ = z := by omega
    rw [this] at h
    linarith
  · by_contra hne
    have : ⌊q⌋ = z - 1 := by omega
    rw [this] at h
    push_cast at h
    linarith
  · by_contra hne
    have : ⌊q⌋ = z := by omega
    rw [this] at h
    linarith

/-- A value half-way between two integers rounds to the even one. -/
theorem roundHalfEven_of_tie (q : ℚ) (z : Int) (h : q = z + 1 / 2 ∨ q = z - 1 / 2)
    (hz : z % 2 = 0) : roundHalfEven q = z := by
  rcases h with h | h
  · have hfl : ⌊q⌋ = z := by
      rw [Int.floor_eq_iff]
      constructor <;> linarith
    rcases roundHalfEven_cases q with ⟨h1, e⟩ | ⟨h1, e⟩ | ⟨h1, h2, e⟩ | ⟨h1, h2, e⟩
    · rw [e, hfl]
    · rw [hfl] at h1
      linarith
    · rw [e, hfl]
    · rw [hfl] at h2
      omega
  · have hfl : ⌊q⌋ = z - 1 := by
      rw [Int.floor_eq_iff]
      push_cast
      constructor <;> linarith
    rcases roundHalfEven_cases q with ⟨h1, e⟩ | ⟨h1, e⟩ | ⟨h1, h2, e⟩ | ⟨h1, h2, e⟩
    · rw [hfl] at h1
      push_cast at h1
      linarith
    · rw [e, hfl]
      ring
    · rw [hfl] at h2
      omega
    · rw [e, hfl]
      ring

/-- When the rounded integer is exactly one half away, it is even. -/
theorem roundHalfEven_even_of_tie (q : ℚ) (h : |(roundHalfEven q : ℚ) - q| = 1 / 2) :
    roundHalfEven q % 2 = 0 := by
  rcases roundHalfEven_cases q with ⟨h1, e⟩ | ⟨h1, e⟩ | ⟨h1, h2, e⟩ | ⟨h1, h2, e⟩
  · exfalso
    rw [e] at h
    have hf := Int.floor_le q
    rw [abs_of_nonpos (by linarith)] at h
    linarith
  · exfalso
    rw [e] at h
    have hl := Int.lt_floor_add_one q
    push_cast at h
    rw [abs_of_nonneg (by linarith)] at h
    linarith
  · rw [e]
    exact h2
  · rw [e]
    omega

theorem roundHalfEven_intCast (z : Int) : roundHalfEven (z : ℚ) = z :=
  roundHalfEven_of_lt _ z (by linarith) (by linarith)

theorem le_roundHalfEven (q : ℚ) (z : Int) (h : (z : ℚ) ≤ q) : z ≤ roundHalfEven q := by
  have hz : z ≤ ⌊q⌋ := Int.le_floor.mpr h
  rcases roundHalfEven_cases q with ⟨_, e⟩ | ⟨_, e⟩ | ⟨_, _, e⟩ | ⟨_, _, e⟩ <;> rw [e] <;> omega

theorem roundHalfEven_le (q : ℚ) (z : Int) (h : q ≤ z) : roundHalfEven q ≤ z := by
  by_contra hlt
  have h1 : z + 1 ≤ roundHalfEven q := by omega
  have h2 : ((z + 1 : Int) : ℚ) ≤ roundHalfEven q := by exact_mod_cast h1
  have h3 := roundHalfEven_error q
  rw [abs_le] at h3
  push_cast at h2
  have h4 : (roundHalfEven q : ℚ) - q = 1 / 2 ∨ (roundHalfEven q : ℚ) - q < 1 / 2 := by
    rcases lt_or_eq_of_le h3.2 with h5 | h5
    · exact Or.inr h5
    · exact Or.inl h5
  rcases h4 with h4 | h4
  · -- q = r - 1/2 ≥ z + 1/2 > z
    linarith
  · linarith
theorem log2_eq (q : ℚ) (t : Int) (h1 : (2 : ℚ) ^ t ≤ q) (h2 : q < 2 ^ (t + 1)) :
    Int.log 2 q = t := by
  have hq : 0 < q := lt_of_lt_of_le (zpow_pos (by norm_num) t) h1
  have a : t ≤ Int.log 2 q := (Int.zpow_le_iff_le_log (by norm_num) hq).mp (by simpa using h1)
  have b : Int.log 2 q < t + 1 :=
    (Int.lt_zpow_iff_log_lt (by norm_num) hq).mp (by simpa using h2)
  omega

theorem ulpExponent_eq (q : ℚ) (t : Int) (h1 : (2 : ℚ) ^ t ≤ |q|) (h2 : |q| < 2 ^ (t + 1))
    (ht : -126 ≤ t) : ulpExponent q = t - 23 := by
  unfold ulpExponent
  rw [log2_eq |q| t h1 h2]
  omega

/-- Rounding in a normal binade: the significand is rounded to an integer of 24 bits. -/
theorem round32_binade (q : ℚ) (t : Int) (h1 : (2 : ℚ) ^ t ≤ |q|) (h2 : |q| < 2 ^ (t + 1))
    (ht : -126 ≤ t) (ht2 : t ≤ 126) :
    round32 q = some ((roundHalfEven (q / 2 ^ (t - 23)) : ℚ) * 2 ^ (t - 23)) := by
  unfold round32
  rw [ulpExponent_eq q t h1 h2 ht]
  have hp : (0 : ℚ) < 2 ^ (t - 23) := zpow_pos (by norm_num) _
  have hx : |q / 2 ^ (t - 23)| < 2 ^ (24 : Int) := by
    rw [abs_div, abs_of_pos hp, div_lt_iff₀ hp, ← zpow_add₀ (by norm_num : (2 : ℚ) ≠ 0)]
    have : (24 : Int) + (t - 23) = t + 1 := by ring
    rw [this]
    exact h2
  rw [abs_lt] at hx
  have hx1 : -16777216 < q / 2 ^ (t - 23) := by
    have := hx.1
    norm_num at this
    exact this
  have hx2 : q / 2 ^ (t - 23) < 16777216 := by
    have := hx.2
    norm_num at this
    exact this
  have hup : roundHalfEven (q / 2 ^ (t - 23)) ≤ 16777216 :=
    roundHalfEven_le _ _ (by push_cast; exact le_of_lt hx2)
  have hlo : -16777216 ≤ roundHalfEven (q / 2 ^ (t - 23)) :=
    le_roundHalfEven _ _ (by push_cast; exact le_of_lt hx1)
  have habs : |(roundHalfEven (q / 2 ^ (t - 23)) : ℚ)| ≤ 2 ^ (24 : Int) := by
    rw [abs_le]
    have a : ((-16777216 : Int) : ℚ) ≤ roundHalfEven (q / 2 ^ (t - 23)) := by exact_mod_cast hlo
    have b : (roundHalfEven (q / 2 ^ (t - 23)) : ℚ) ≤ ((16777216 : Int) : ℚ) := by
      exact_mod_cast hup
    push_cast at a b
    norm_num
    exact ⟨a, b⟩
  rw [if_pos]
  rw [abs_mul, abs_of_pos hp]
  calc |(roundHalfEven (q / 2 ^ (t - 23)) : ℚ)| * 2 ^ (t - 23)
      ≤ 2 ^ (24 : Int) * 2 ^ (t - 23) := mul_le_mul_of_nonneg_right habs (le_of_lt hp)
    _ = 2 ^ (t + 1) := by
        rw [← zpow_add₀ (by norm_num : (2 : ℚ) ≠ 0)]
        congr 1
        ring
    _ ≤ 2 ^ (127 : Int) := zpow_le_zpow_right₀ (by norm_num) (by omega)
    _ < 2 ^ (128 : Int) := zpow_lt_zpow_right₀ (by norm_num) (by norm_num)

/-- Every value `m * 2^e` with a significand of 24 bits and an exponent in the binary32
range is a binary32 value: rounding leaves it unchanged. -/
theorem round32_exact (m e : Int) (hm : |m| < 2 ^ 24) (he : -149 ≤ e) (he2 : e ≤ 104) :
    round32 ((m : ℚ) * 2 ^ e) = some ((m : ℚ) * 2 ^ e) := by
  have h2 : (2 : ℚ) ≠ 0 := by norm_num
  have hpe : (0 : ℚ) < 2 ^ e := zpow_pos (by norm_num) _
  have hmq : |(m : ℚ)| < 2 ^ (24 : Int) := by
    have : ((|m| : Int) : ℚ) < ((2 ^ 24 : Int) : ℚ) := by exact_mod_cast hm
    push_cast at this
    norm_num at this ⊢
    exact this
  have hfin : |(m : ℚ) * 2 ^ e| < 2 ^ (128 : Int) := by
    rw [abs_mul, abs_of_pos hpe]
    calc |(m : ℚ)| * 2 ^ e < 2 ^ (24 : Int) * 2 ^ e := mul_lt_mul_of_pos_right hmq hpe
      _ = 2 ^ (24 + e) := by rw [← zpow_add₀ h2]
      _ ≤ 2 ^ (128 : Int) := zpow_le_zpow_right₀ (by norm_num) (by omega)
  by_cases hm0 : m = 0
  · subst hm0
    simp [round32, roundHalfEven]
    positivity
  · have hu : ulpExponent ((m : ℚ) * 2 ^ e) ≤ e := by
      unfold ulpExponent
      have hpos : 0 < |(m : ℚ) * 2 ^ e| := by
        rw [abs_pos]
        exact mul_ne_zero (by exact_mod_cast hm0) (ne_of_gt hpe)
      have hlog : Int.log 2 |(m : ℚ) * 2 ^ e| < 24 + e := by
        rw [← Int.lt_zpow_iff_log_lt (by norm_num) hpos, abs_mul, abs_of_pos hpe]
        calc |(m : ℚ)| * 2 ^ e < 2 ^ (24 : Int) * 2 ^ e := mul_lt_mul_of_pos_right hmq hpe
          _ = ((2 : ℕ) : ℚ) ^ (24 + e) := by
              rw [← zpow_add₀ h2]
              norm_num
      omega
    obtain ⟨k, hk⟩ := Int.eq_ofNat_of_zero_le (by omega : 0 ≤ e - ulpExponent ((m : ℚ) * 2 ^ e))
    have hdiv : (m : ℚ) * 2 ^ e / 2 ^ ulpExponent ((m : ℚ) * 2 ^ e) = ((m * 2 ^ k : Int) : ℚ) := by
      rw [mul_div_assoc, ← zpow_sub₀ h2, hk]
      push_cast
      rw [zpow_natCast]
    have hr : (roundHalfEven ((m : ℚ) * 2 ^ e / 2 ^ ulpExponent ((m : ℚ) * 2 ^ e)) : ℚ) *
        2 ^ ulpExponent ((m : ℚ) * 2 ^ e) = (m : ℚ) * 2 ^ e := by
      rw [hdiv, roundHalfEven_intCast]
      push_cast
      rw [mul_assoc]
      congr 1
      have : ((2 : ℚ) ^ k) = 2 ^ (k : Int) := by norm_num
      rw [this, ← hk, ← zpow_add₀ h2]
      congr 1
      ring
    unfold round32
    rw [hr, if_pos hfin]
/-- Rounding of a positive value in a normal binade. -/
theorem round32_binade_pos (q : ℚ) (t : Int) (h1 : (2 : ℚ) ^ t ≤ q) (h2 : q < 2 ^ (t + 1))
    (ht : -126 ≤ t) (ht2 : t ≤ 126) :
    round32 q = some ((roundHalfEven (q / 2 ^ (t - 23)) : ℚ) * 2 ^ (t - 23)) := by
  have hq : 0 < q := lt_of_lt_of_le (zpow_pos (by norm_num) t) h1
  exact round32_binade q t (by rwa [abs_of_pos hq]) (by rwa [abs_of_pos hq]) ht ht2

theorem round32_50331642 : round32 50331642 = some 50331640 := by
  rw [round32_binade_pos 50331642 25 (by norm_num) (by norm_num) (by norm_num) (by norm_num),
    roundHalfEven_of_tie _ 12582910 (Or.inl (by norm_num)) (by decide)]
  norm_num

theorem round32_third : round32 (50331640 / 3) = some 16777213 := by
  rw [round32_binade_pos (50331640 / 3) 23 (by norm_num) (by norm_num) (by norm_num)
      (by norm_num),
    roundHalfEven_of_lt _ 16777213 (by norm_num) (by norm_num)]
  norm_num

theorem ulpExponent_le (q : ℚ) (k : Int) (h : |q| < 2 ^ (k + 24)) (hk : -149 ≤ k)
    (hq : q ≠ 0) : ulpExponent q ≤ k := by
  unfold ulpExponent
  have hpos : 0 < |q| := abs_pos.mpr hq
  have hlog : Int.log 2 |q| < k + 24 := by
    rw [← Int.lt_zpow_iff_log_lt (by norm_num) hpos]
    simpa using h
  omega

/-- The error of one rounding is at most half a unit in the last place, and no value of
magnitude up to `2^127` overflows. -/
theorem round32_total (q : ℚ) (h : |q| ≤ 2 ^ (127 : Int)) :
    ∃ r, round32 q = some r ∧ |r - q| ≤ 2 ^ ulpExponent q / 2 ∧ |r - q| ≤ 2 ^ (103 : Int) := by
  have h2 : (2 : ℚ) ≠ 0 := by norm_num
  have hp : (0 : ℚ) < 2 ^ ulpExponent q := zpow_pos (by norm_num) _
  have herr : |(roundHalfEven (q / 2 ^ ulpExponent q) : ℚ) * 2 ^ ulpExponent q - q|
      ≤ 2 ^ ulpExponent q / 2 := by
    have e : (roundHalfEven (q / 2 ^ ulpExponent q) : ℚ) * 2 ^ ulpExponent q - q
        = ((roundHalfEven (q / 2 ^ ulpExponent q) : ℚ) - q / 2 ^ ulpExponent q)
          * 2 ^ ulpExponent q := by
      field_simp
    rw [e, abs_mul, abs_of_pos hp]
    have := roundHalfEven_error (q / 2 ^ ulpExponent q)
    calc |(roundHalfEven (q / 2 ^ ulpExponent q) : ℚ) - q / 2 ^ ulpExponent q|
          * 2 ^ ulpExponent q ≤ 1 / 2 * 2 ^ ulpExponent q :=
          mul_le_mul_of_nonneg_right this (le_of_lt hp)
      _ = 2 ^ ulpExponent q / 2 := by ring
  have hu : ulpExponent q ≤ 104 := by
    by_cases hq : q = 0
    · subst hq
      simp [ulpExponent]
    · exact ulpExponent_le q 104 (lt_of_le_of_lt h
        (zpow_lt_zpow_right₀ (by norm_num) (by norm_num))) (by norm_num) hq
  have hu2 : (2 : ℚ) ^ ulpExponent q ≤ 2 ^ (104 : Int) :=
    zpow_le_zpow_right₀ (by norm_num) hu
  have h103 : (2 : ℚ) ^ (104 : Int) / 2 = 2 ^ (103 : Int) := by norm_num
  refine ⟨(roundHalfEven (q / 2 ^ ulpExponent q) : ℚ) * 2 ^ ulpExponent q, ?_, herr,
    by linarith⟩
  unfold round32
  rw [if_pos]
  have h3 := abs_sub_abs_le_abs_sub
    ((roundHalfEven (q / 2 ^ ulpExponent q) : ℚ) * 2 ^ ulpExponent q) q
  have h4 : (2 : ℚ) ^ (127 : Int) + 2 ^ (104 : Int) / 2 < 2 ^ (128 : Int) := by norm_num
  linarith

/-- In the normal range the error of one rounding is at most `2^-24` of the value. -/
theorem round32_relative (q : ℚ) (h1 : 2 ^ (-126 : Int) ≤ |q|) (h2 : |q| ≤ 2 ^ (127 : Int)) :
    ∃ r, round32 q = some r ∧ |r - q| ≤ |q| / 2 ^ 24 := by
  obtain ⟨r, hr, herr, _⟩ := round32_total q h2
  refine ⟨r, hr, le_trans herr ?_⟩
  have hpos : 0 < |q| := lt_of_lt_of_le (zpow_pos (by norm_num) _) h1
  have hlog : (-126 : Int) ≤ Int.log 2 |q| := by
    rw [← Int.zpow_le_iff_le_log (by norm_num) hpos]
    simpa using h1
  have hu : ulpExponent q = Int.log 2 |q| - 23 := by
    unfold ulpExponent
    omega
  have hle : (2 : ℚ) ^ Int.log 2 |q| ≤ |q| := by
    have := Int.zpow_log_le_self (by norm_num : 1 < 2) hpos
    simpa using this
  rw [hu, zpow_sub₀ (by norm_num : (2 : ℚ) ≠ 0)]
  have e : (2 : ℚ) ^ Int.log 2 |q| / 2 ^ (23 : Int) / 2 = 2 ^ Int.log 2 |q| / 2 ^ 24 := by
    norm_num
    ring
  rw [e]
  exact div_le_div_of_nonneg_right hle (by positivity)

theorem round32_nonneg (q r : ℚ) (hq : 0 ≤ q) (h : round32 q = some r) : 0 ≤ r := by
  unfold round32 at h
  split at h
  · injection h with h
    rw [← h]
    have hx : (0 : ℚ) ≤ q / 2 ^ ulpExponent q := by positivity
    have : (0 : Int) ≤ roundHalfEven (q / 2 ^ ulpExponent q) :=
      le_roundHalfEven _ 0 (by simpa using hx)
    have : (0 : ℚ) ≤ roundHalfEven (q / 2 ^ ulpExponent q) := by exact_mod_cast this
    positivity
  · exact absurd h (by simp)

/-- A binary32 value is a significand of at most 24 bits times a power of two. -/
theorem round32_fixed (v : ℚ) (h : round32 v = some v) :
    ∃ m : Int, |m| < 2 ^ 24 ∧ v = m * 2 ^ ulpExponent v ∧ -149 ≤ ulpExponent v := by
  have hu : -149 ≤ ulpExponent v := by
    unfold ulpExponent
    omega
  have hp : (0 : ℚ) < 2 ^ ulpExponent v := zpow_pos (by norm_num) _
  have hv : (roundHalfEven (v / 2 ^ ulpExponent v) : ℚ) * 2 ^ ulpExponent v = v := by
    unfold round32 at h
    split at h
    · injection h
    · exact absurd h (by simp)
  refine ⟨roundHalfEven (v / 2 ^ ulpExponent v), ?_, hv.symm, hu⟩
  have hx : v / 2 ^ ulpExponent v = roundHalfEven (v / 2 ^ ulpExponent v) := by
    rw [div_eq_iff (ne_of_gt hp)]
    exact hv.symm
  by_cases hv0 : v = 0
  · rw [hv0]
    simp [roundHalfEven]
  · have hpos : 0 < |v| := abs_pos.mpr hv0
    have hlt : |v| < 2 ^ (Int.log 2 |v| + 1) := by
      have := Int.lt_zpow_succ_log_self (by norm_num : 1 < 2) |v|
      simpa using this
    have hle : Int.log 2 |v| + 1 ≤ ulpExponent v + 24 := by
      unfold ulpExponent
      omega
    have h3 : |v| < 2 ^ (ulpExponent v + 24) :=
      lt_of_lt_of_le hlt (zpow_le_zpow_right₀ (by norm_num) hle)
    have h4 : |v / 2 ^ ulpExponent v| < 2 ^ (24 : Int) := by
      rw [abs_div, abs_of_pos hp, div_lt_iff₀ hp, ← zpow_add₀ (by norm_num : (2 : ℚ) ≠ 0)]
      rw [add_comm]
      exact h3
    rw [hx] at h4
    have h5 : ((|roundHalfEven (v / 2 ^ ulpExponent v)| : Int) : ℚ) < ((2 ^ 24 : Int) : ℚ) := by
      push_cast
      norm_num at h4 ⊢
      exact h4
    exact_mod_cast h5
/-! ## Subsampler in binary32 -/

theorem subsamplePixel32_eq (I : Image) (hwf : I.WF) (x y : Nat) (hx : x < I.noDims.x / 2)
    (hy : y < I.noDims.y / 2) :
    subsamplePixel32 I.data I.noDims x y = Spec.meanValid32 (Spec.block I x y) := by
  have hmax := subsample_index_lt I.noDims.x I.noDims.y x y hx hy
  have hlen : I.data.length = I.noDims.x * I.noDims.y := hwf
  have hmono : y * 2 * I.noDims.x ≤ (y * 2 + 1) * I.noDims.x :=
    Nat.mul_le_mul_right _ (by omega)
  have h1 : x * 2 + y * 2 * I.noDims.x < I.data.length := by omega
  have h2 : x * 2 + 1 + y * 2 * I.noDims.x < I.data.length := by omega
  have h3 : x * 2 + (y * 2 + 1) * I.noDims.x < I.data.length := by omega
  have h4 : x * 2 + 1 + (y * 2 + 1) * I.noDims.x < I.data.length := by omega
  have e1 : 2 * y * I.noDims.x + 2 * x = x * 2 + y * 2 * I.noDims.x := by ring
  have e2 : 2 * y * I.noDims.x + (2 * x + 1) = x * 2 + 1 + y * 2 * I.noDims.x := by ring
  have e3 : (2 * y + 1) * I.noDims.x + 2 * x = x * 2 + (y * 2 + 1) * I.noDims.x := by ring
  have e4 : (2 * y + 1) * I.noDims.x + (2 * x + 1) = x * 2 + 1 + (y * 2 + 1) * I.noDims.x := by
    ring
  unfold subsamplePixel32 Spec.meanValid32
  simp only [getElem?_eq_getD _ _ h1, getElem?_eq_getD _ _ h2, getElem?_eq_getD _ _ h3,
    getElem?_eq_getD _ _ h4, Option.bind_eq_bind, Option.some_bind, Option.pure_def,
    Spec.block, Spec.sample, e1, e2, e3, e4, List.foldlM, Option.bind_assoc]

/-- The function `filterSubsample32` returns the image of the binary32 block means when
none of them overflows, whatever the output image held before. -/
theorem filterSubsample32_eq (input output : Image) (hwf : input.WF) (g : Nat → Nat → ℚ)
    (hg : ∀ x y, x < input.noDims.x / 2 → y < input.noDims.y / 2 →
      Spec.meanValid32 (Spec.block input x y) = some (g x y)) :
    filterSubsample32 input output
      = some (Spec.tabulate ⟨input.noDims.x / 2, input.noDims.y / 2⟩ g) := by
  unfold filterSubsample32
  exact pixelLoops_eq ⟨input.noDims.x / 2, input.noDims.y / 2⟩
    (fun x y => subsamplePixel32 input.data input.noDims x y) g
    (fun x y => x + y * (input.noDims.x / 2)) (fun x y => Nat.add_comm _ _)
    (fun x y hx hy => (subsamplePixel32_eq input hwf x y hx hy).trans (hg x y hx hy)) output

theorem accumulateValid32_valid (num : Nat) (sum v s : ℚ) (hv : 0 < v)
    (hs : round32 (sum + v) = some s) :
    accumulateValid32 (num, sum) v = some (num + 1, s) := by
  unfold accumulateValid32 add32
  simp only [gt_iff_lt, if_pos hv, hs, Option.map_some']

theorem accumulateValid32_hole (acc : Nat × ℚ) (v : ℚ) (hv : ¬ 0 < v) :
    accumulateValid32 acc v = some acc := by
  unfold accumulateValid32
  rw [if_neg hv]

/-- Three valid samples followed by a hole: two rounded sums and one rounded quotient. -/
theorem meanValid32_three (a b c h s1 s2 s3 r : ℚ) (ha : 0 < a) (hb : 0 < b) (hc : 0 < c)
    (hh : ¬ 0 < h) (h1 : round32 (0 + a) = some s1) (h2 : round32 (s1 + b) = some s2)
    (h3 : round32 (s2 + c) = some s3) (h4 : round32 (s3 / 3) = some r) :
    Spec.meanValid32 [a, b, c, h] = some r := by
  unfold Spec.meanValid32
  simp only [List.foldlM, Option.bind_eq_bind]
  rw [accumulateValid32_valid 0 0 a s1 ha h1, Option.some_bind,
    accumulateValid32_valid _ _ b s2 hb h2, Option.some_bind,
    accumulateValid32_valid _ _ c s3 hc h3, Option.some_bind,
    accumulateValid32_hole _ h hh, Option.some_bind]
  simp only [Option.pure_def, Option.some_bind, div32]
  norm_num
  exact h4

theorem tripleImage_WF : tripleImage.WF := by
  rw [Image.WF]
  rfl

theorem meanValid32_tripleImage :
    Spec.meanValid32 (Spec.block tripleImage 0 0) = some 16777213 := by
  have hb : Spec.block tripleImage 0 0 = [16777214, 16777214, 16777214, 0] := by
    simp [Spec.block, Spec.sample, tripleImage]
  have a1 : round32 (0 + 16777214) = some 16777214 := by
    have := round32_exact 16777214 0 (by norm_num) (by norm_num) (by norm_num)
    norm_num at this ⊢
    exact this
  have a2 : round32 (16777214 + 16777214) = some 33554428 := by
    have := round32_exact 8388607 2 (by norm_num) (by norm_num) (by norm_num)
    norm_num at this ⊢
    exact this
  have a3 : round32 (33554428 + 16777214) = some 50331640 := by
    norm_num
    exact round32_50331642
  rw [hb]
  exact meanValid32_three _ _ _ _ _ _ _ _ (by norm_num) (by norm_num) (by norm_num)
    (by norm_num) a1 a2 a3 round32_third
/-- Rounding of `n * 2^e` when `n` has 25 bits: the significand is `n / 2` rounded. -/
theorem round32_scaled1 (n e : Int) (h1 : 2 ^ 24 ≤ n) (h2 : n < 2 ^ 25) (he : -149 ≤ e)
    (he2 : e ≤ 102) :
    round32 ((n : ℚ) * 2 ^ e) = some ((roundHalfEven ((n : ℚ) / 2) : ℚ) * 2 ^ (e + 1)) := by
  have h20 : (2 : ℚ) ≠ 0 := by norm_num
  have hpe : (0 : ℚ) < 2 ^ e := zpow_pos (by norm_num) _
  have q1 : ((2 ^ 24 : Int) : ℚ) ≤ n := by exact_mod_cast h1
  have q2 : (n : ℚ) < ((2 ^ 25 : Int) : ℚ) := by exact_mod_cast h2
  push_cast at q1 q2
  have hb := round32_binade_pos ((n : ℚ) * 2 ^ e) (e + 24)
    (by
      rw [zpow_add₀ h20, mul_comm]
      exact mul_le_mul_of_nonneg_right (by norm_num at q1 ⊢; exact q1) (le_of_lt hpe))
    (by
      have : e + 24 + 1 = e + 25 := by ring
      rw [this, zpow_add₀ h20, mul_comm ((2 : ℚ) ^ e)]
      exact mul_lt_mul_of_pos_right (by norm_num at q2 ⊢; exact q2) hpe)
    (by omega) (by omega)
  have e1 : e + 24 - 23 = e + 1 := by ring
  have hdiv : (n : ℚ) * 2 ^ e / 2 ^ (e + 1) = (n : ℚ) / 2 := by
    rw [zpow_add₀ h20]
    field_simp
    ring
  rw [hb, e1, hdiv]

/-- Rounding of `n * 2^e` when `n` has 26 bits: the significand is `n / 4` rounded. -/
theorem round32_scaled2 (n e : Int) (h1 : 2 ^ 25 ≤ n) (h2 : n < 2 ^ 26) (he : -149 ≤ e)
    (he2 : e ≤ 101) :
    round32 ((n : ℚ) * 2 ^ e) = some ((roundHalfEven ((n : ℚ) / 4) : ℚ) * 2 ^ (e + 2)) := by
  have h20 : (2 : ℚ) ≠ 0 := by norm_num
  have hpe : (0 : ℚ) < 2 ^ e := zpow_pos (by norm_num) _
  have q1 : ((2 ^ 25 : Int) : ℚ) ≤ n := by exact_mod_cast h1
  have q2 : (n : ℚ) < ((2 ^ 26 : Int) : ℚ) := by exact_mod_cast h2
  push_cast at q1 q2
  have hb := round32_binade_pos ((n : ℚ) * 2 ^ e) (e + 25)
    (by
      rw [zpow_add₀ h20, mul_comm]
      exact mul_le_mul_of_nonneg_right (by norm_num at q1 ⊢; exact q1) (le_of_lt hpe))
    (by
      have : e + 25 + 1 = e + 26 := by ring
      rw [this, zpow_add₀ h20, mul_comm ((2 : ℚ) ^ e)]
      exact mul_lt_mul_of_pos_right (by norm_num at q2 ⊢; exact q2) hpe)
    (by omega) (by omega)
  have e1 : e + 25 - 23 = e + 2 := by ring
  have hdiv : (n : ℚ) * 2 ^ e / 2 ^ (e + 2) = (n : ℚ) / 4 := by
    rw [zpow_add₀ h20]
    field_simp
    ring
  rw [hb, e1, hdiv]

/-- The sum of four equal binary32 values, accumulated one at a time, is exact: the error
of the third sum, if any, is undone by the fourth. -/
theorem round32_four_equal (m e : Int) (hm0 : 0 < m) (hm : m < 2 ^ 24) (he : -149 ≤ e)
    (he2 : e ≤ 101) :
    ∃ s3, round32 ((m : ℚ) * 2 ^ (e + 1) + (m : ℚ) * 2 ^ e) = some s3 ∧
      round32 (s3 + (m : ℚ) * 2 ^ e) = some ((m : ℚ) * 2 ^ (e + 2)) := by
  have h20 : (2 : ℚ) ≠ 0 := by norm_num
  have e3 : (m : ℚ) * 2 ^ (e + 1) + (m : ℚ) * 2 ^ e = ((3 * m : Int) : ℚ) * 2 ^ e := by
    rw [zpow_add₀ h20]
    push_cast
    ring
  have e4 : (m : ℚ) * 2 ^ (e + 2) = ((4 * m : Int) : ℚ) * 2 ^ e := by
    rw [zpow_add₀ h20]
    push_cast
    ring
  rw [e3]
  by_cases hA : 3 * m < 2 ^ 24
  · -- the third sum is exact
    refine ⟨((3 * m : Int) : ℚ) * 2 ^ e,
      round32_exact (3 * m) e (by rw [abs_of_pos (by omega)]; exact hA) he (by omega), ?_⟩
    have : ((3 * m : Int) : ℚ) * 2 ^ e + (m : ℚ) * 2 ^ e = (m : ℚ) * 2 ^ (e + 2) := by
      rw [e4]
      push_cast
      ring
    rw [this]
    exact round32_exact m (e + 2) (by rw [abs_of_pos hm0]; exact hm) (by omega) (by omega)
  · by_cases hB : 3 * m < 2 ^ 25
    · -- the third sum keeps 24 of 25 bits
      have herr := roundHalfEven_error (((3 * m : Int) : ℚ) / 2)
      rw [abs_le] at herr
      have hd1 : -1 ≤ 2 * roundHalfEven (((3 * m : Int) : ℚ) / 2) - 3 * m := by
        have : ((-1 : Int) : ℚ)
            ≤ ((2 * roundHalfEven (((3 * m : Int) : ℚ) / 2) - 3 * m : Int) : ℚ) := by
          push_cast at herr ⊢
          linarith
        exact_mod_cast this
      have hd2 : 2 * roundHalfEven (((3 * m : Int) : ℚ) / 2) - 3 * m ≤ 1 := by
        have : ((2 * roundHalfEven (((3 * m : Int) : ℚ) / 2) - 3 * m : Int) : ℚ)
            ≤ ((1 : Int) : ℚ) := by
          push_cast at herr ⊢
          linarith
        exact_mod_cast this
      refine ⟨_, round32_scaled1 (3 * m) e (by omega) hB he (by omega), ?_⟩
      generalize roundHalfEven (((3 * m : Int) : ℚ) / 2) = a at hd1 hd2
      have hs : (a : ℚ) * 2 ^ (e + 1) + (m : ℚ) * 2 ^ e = ((2 * a + m : Int) : ℚ) * 2 ^ e := by
        rw [zpow_add₀ h20]
        push_cast
        ring
      rw [hs]
      by_cases hB1 : 2 * a + m < 2 ^ 25
      · rw [round32_scaled1 (2 * a + m) e (by omega) hB1 he (by omega)]
        have hr : roundHalfEven (((2 * a + m : Int) : ℚ) / 2) = 2 * m := by
          have hcases : 2 * a - 3 * m = 0 ∨ 2 * a - 3 * m = 1 ∨ 2 * a - 3 * m = -1 := by omega
          rcases hcases with h | h | h
          · have : ((2 * a + m : Int) : ℚ) / 2 = ((2 * m : Int) : ℚ) := by
              have : 2 * a + m = 2 * (2 * m) := by omega
              rw [this]
              push_cast
              ring
            rw [this, roundHalfEven_intCast]
          · refine roundHalfEven_of_tie _ _ (Or.inl ?_) (by omega)
            have : 2 * a + m = 2 * (2 * m) + 1 := by omega
            rw [this]
            push_cast
            ring
          · refine roundHalfEven_of_tie _ _ (Or.inr ?_) (by omega)
            have : 2 * a + m = 2 * (2 * m) - 1 := by omega
            rw [this]
            push_cast
            ring
        rw [hr, e4, zpow_add₀ h20]
        push_cast
        congr 1
        ring
      · rw [round32_scaled2 (2 * a + m) e (by omega) (by omega) he (by omega)]
        have hr : roundHalfEven (((2 * a + m : Int) : ℚ) / 4) = m := by
          have q1 : ((-1 : Int) : ℚ) ≤ ((2 * a - 3 * m : Int) : ℚ) := by exact_mod_cast hd1
          have q2 : ((2 * a - 3 * m : Int) : ℚ) ≤ ((1 : Int) : ℚ) := by exact_mod_cast hd2
          push_cast at q1 q2
          apply roundHalfEven_of_lt <;> push_cast <;> linarith
        rw [hr]
    · -- the third sum keeps 24 of 26 bits
      have herr := roundHalfEven_error (((3 * m : Int) : ℚ) / 4)
      have htie := roundHalfEven_even_of_tie (((3 * m : Int) : ℚ) / 4)
      have hsc := round32_scaled2 (3 * m) e (by omega) (by omega) he he2
      generalize roundHalfEven (((3 * m : Int) : ℚ) / 4) = a at herr htie hsc
      rw [abs_le] at herr
      push_cast at herr htie
      have hd1 : -2 ≤ 4 * a - 3 * m := by
        have : ((-2 : Int) : ℚ) ≤ ((4 * a - 3 * m : Int) : ℚ) := by
          push_cast
          linarith
        exact_mod_cast this
      have hd2 : 4 * a - 3 * m ≤ 2 := by
        have : ((4 * a - 3 * m : Int) : ℚ) ≤ ((2 : Int) : ℚ) := by
          push_cast
          linarith
        exact_mod_cast this
      have hev : (4 * a - 3 * m = 2 ∨ 4 * a - 3 * m = -2) → m % 2 = 0 := by
        intro h
        have : a % 2 = 0 := by
          apply htie
          rcases h with h | h
          · have : ((4 * a - 3 * m : Int) : ℚ) = ((2 : Int) : ℚ) := by exact_mod_cast h
            push_cast at this
            rw [abs_of_nonneg (by linarith)]
            linarith
          · have : ((4 * a - 3 * m : Int) : ℚ) = ((-2 : Int) : ℚ) := by exact_mod_cast h
            push_cast at this
            rw [abs_of_nonpos (by linarith)]
            linarith
        omega
      refine ⟨_, hsc, ?_⟩
      have hs : (a : ℚ) * 2 ^ (e + 2) + (m : ℚ) * 2 ^ e = ((4 * a + m : Int) : ℚ) * 2 ^ e := by
        rw [zpow_add₀ h20]
        push_cast
        ring
      rw [hs, round32_scaled2 (4 * a + m) e (by omega) (by omega) he he2]
      have hr : roundHalfEven (((4 * a + m : Int) : ℚ) / 4) = m := by
        have hcases : 4 * a - 3 * m = 2 ∨ 4 * a - 3 * m = -2 ∨
            (-1 ≤ 4 * a - 3 * m ∧ 4 * a - 3 * m ≤ 1) := by omega
        rcases hcases with h | h | ⟨h1, h2⟩
        · refine roundHalfEven_of_tie _ _ (Or.inl ?_) (hev (Or.inl h))
          have : 4 * a + m = 4 * m + 2 := by omega
          rw [this]
          push_cast
          ring
        · refine roundHalfEven_of_tie _ _ (Or.inr ?_) (hev (Or.inr h))
          have : 4 * a + m = 4 * m - 2 := by omega
          rw [this]
          push_cast
          ring
        · have q1 : ((-1 : Int) : ℚ) ≤ ((4 * a - 3 * m : Int) : ℚ) := by exact_mod_cast h1
          have q2 : ((4 * a - 3 * m : Int) : ℚ) ≤ ((1 : Int) : ℚ) := by exact_mod_cast h2
          push_cast at q1 q2
          apply roundHalfEven_of_lt <;> push_cast <;> linarith
      rw [hr]
/-- Holes are skipped by the accumulation. -/
theorem foldlM_accumulateValid32_filter (vs : List ℚ) (acc : Nat × ℚ) :
    vs.foldlM accumulateValid32 acc
      = (vs.filter fun s => decide (0 < s)).foldlM accumulateValid32 acc := by
  induction vs generalizing acc with
  | nil => rfl
  | cons a vs ih =>
    by_cases ha : 0 < a
    · rw [List.filter_cons_of_pos (by simpa using ha), List.foldlM_cons, List.foldlM_cons]
      congr 1
      funext acc2
      exact ih acc2
    · rw [List.filter_cons_of_neg (by simpa using ha), List.foldlM_cons,
        accumulateValid32_hole acc a ha]
      exact ih acc

/-- The accumulation of up to four samples that are at most `2^124` does not overflow. -/
theorem foldlM_accumulateValid32_total (vs : List ℚ) (hle : ∀ s ∈ vs, 0 < s → s ≤ 2 ^ 124)
    (num : Nat) (sum : ℚ) (h0 : 0 ≤ sum) (hs : sum ≤ num * (2 ^ 124 + 2 ^ 103))
    (hn : num + vs.length ≤ 4) :
    ∃ num2 sum2, vs.foldlM accumulateValid32 (num, sum) = some (num2, sum2) ∧ 0 ≤ sum2 ∧
      sum2 ≤ num2 * (2 ^ 124 + 2 ^ 103) ∧ num2 ≤ 4 := by
  induction vs generalizing num sum with
  | nil => exact ⟨num, sum, rfl, h0, hs, by simpa using hn⟩
  | cons a vs ih =>
    have hlen : num + 1 + vs.length ≤ 4 := by
      simp only [List.length_cons] at hn
      omega
    rw [List.foldlM_cons]
    by_cases ha : 0 < a
    · have hale := hle a (List.mem_cons_self _ _) ha
      have hnum : (num : ℚ) ≤ 3 := by
        have : num ≤ 3 := by omega
        exact_mod_cast this
      have hq : |sum + a| ≤ 2 ^ (127 : Int) := by
        rw [abs_of_nonneg (by linarith)]
        have : (num : ℚ) * (2 ^ 124 + 2 ^ 103) ≤ 3 * (2 ^ 124 + 2 ^ 103) := by
          nlinarith
        norm_num at this hs hale ⊢
        linarith
      obtain ⟨r, hr, _, herr⟩ := round32_total (sum + a) hq
      rw [accumulateValid32_valid num sum a r ha hr, Option.bind_eq_bind, Option.some_bind]
      rw [abs_le] at herr
      refine ih (fun s hs h => hle s (List.mem_cons_of_mem _ hs) h) (num + 1) r
        (round32_nonneg _ _ (by linarith) hr) ?_ hlen
      push_cast
      norm_num at herr hs hale ⊢
      linarith
    · rw [accumulateValid32_hole _ a ha, Option.bind_eq_bind, Option.some_bind]
      exact ih (fun s hs h => hle s (List.mem_cons_of_mem _ hs) h) num sum h0 hs (by
        simp only [List.length_cons] at hn
        omega)

/-- The binary32 block mean of up to four samples that are at most `2^124` is defined. -/
theorem meanValid32_total (vs : List ℚ) (hle : ∀ s ∈ vs, 0 < s → s ≤ 2 ^ 124)
    (hn : vs.length ≤ 4) : ∃ r, Spec.meanValid32 vs = some r := by
  obtain ⟨num2, sum2, hrun, h0, hs, hn2⟩ :=
    foldlM_accumulateValid32_total vs hle 0 0 le_rfl (by norm_num) (by omega)
  unfold Spec.meanValid32
  rw [hrun, Option.some_bind]
  by_cases hpos : num2 > 0
  · simp only [if_pos hpos, div32]
    have hq : |sum2 / (num2 : ℚ)| ≤ 2 ^ (127 : Int) := by
      have h1 : (1 : ℚ) ≤ num2 := by exact_mod_cast hpos
      have h4 : (num2 : ℚ) ≤ 4 := by exact_mod_cast hn2
      rw [abs_of_nonneg (by positivity), div_le_iff₀ (by linarith)]
      norm_num at hs ⊢
      nlinarith
    obtain ⟨r, hr, _⟩ := round32_total _ hq
    exact ⟨r, hr⟩
  · simp only [if_neg hpos]
    exact ⟨0, rfl⟩
/-- One, two or four equal binary32 values have themselves as binary32 mean. -/
theorem meanValid32_replicate (v : ℚ) (hv : round32 v = some v) (hpos : 0 < v)
    (hle : v ≤ 2 ^ 124) (n : Nat) (hn : n = 1 ∨ n = 2 ∨ n = 4) :
    Spec.meanValid32 (List.replicate n v) = some v := by
  have h20 : (2 : ℚ) ≠ 0 := by norm_num
  obtain ⟨m, hm, hrep, hu⟩ := round32_fixed v hv
  have hu2 : ulpExponent v ≤ 101 := by
    apply ulpExponent_le v 101 _ (by norm_num) (ne_of_gt hpos)
    rw [abs_of_pos hpos]
    refine lt_of_le_of_lt hle ?_
    norm_num
  generalize ulpExponent v = e at hrep hu hu2
  have hpe : (0 : ℚ) < 2 ^ e := zpow_pos (by norm_num) _
  have hm0 : 0 < m := by
    have : (0 : ℚ) < m := by
      by_contra hneg
      have hm' : (m : ℚ) ≤ 0 := not_lt.mp hneg
      have : (m : ℚ) * 2 ^ e ≤ 0 := mul_nonpos_of_nonpos_of_nonneg hm' (le_of_lt hpe)
      linarith
    exact_mod_cast this
  have hm24 : m < 2 ^ 24 := by
    rw [abs_of_pos hm0] at hm
    exact hm
  have f0 : round32 (0 + v) = some v := by rw [zero_add, hv]
  have f1 : round32 (v + v) = some ((m : ℚ) * 2 ^ (e + 1)) := by
    have : v + v = (m : ℚ) * 2 ^ (e + 1) := by
      rw [hrep, zpow_add₀ h20]
      ring
    rw [this]
    exact round32_exact m (e + 1) (by rw [abs_of_pos hm0]; exact hm24) (by omega) (by omega)
  obtain ⟨s3, f2, f3⟩ := round32_four_equal m e hm0 hm24 hu hu2
  rw [← hrep] at f2 f3
  have d2 : round32 ((m : ℚ) * 2 ^ (e + 1) / 2) = some v := by
    have : (m : ℚ) * 2 ^ (e + 1) / 2 = v := by
      rw [hrep, zpow_add₀ h20]
      field_simp
      ring
    rw [this, hv]
  have d4 : round32 ((m : ℚ) * 2 ^ (e + 2) / 4) = some v := by
    have : (m : ℚ) * 2 ^ (e + 2) / 4 = v := by
      rw [hrep, zpow_add₀ h20]
      field_simp
      ring
    rw [this, hv]
  unfold Spec.meanValid32
  rcases hn with hn | hn | hn <;> subst hn
  · simp only [List.replicate, List.foldlM, Option.bind_eq_bind]
    rw [accumulateValid32_valid 0 0 v v hpos f0, Option.some_bind]
    simp only [Option.pure_def, Option.some_bind, div32]
    norm_num
    exact hv
  · simp only [List.replicate, List.foldlM, Option.bind_eq_bind]
    rw [accumulateValid32_valid 0 0 v v hpos f0, Option.some_bind,
      accumulateValid32_valid _ _ v _ hpos f1, Option.some_bind]
    simp only [Option.pure_def, Option.some_bind, div32]
    norm_num
    exact d2
  · simp only [List.replicate, List.foldlM, Option.bind_eq_bind]
    rw [accumulateValid32_valid 0 0 v v hpos f0, Option.some_bind,
      accumulateValid32_valid _ _ v _ hpos f1, Option.some_bind,
      accumulateValid32_valid _ _ v _ hpos f2, Option.some_bind,
      accumulateValid32_valid _ _ v _ hpos f3, Option.some_bind]
    simp only [Option.pure_def, Option.some_bind, div32]
    norm_num
    exact d4

/-- A block whose valid samples all equal a binary32 value `v`, one, two or four in number
and in any positions, has `v` as binary32 mean. -/
theorem meanValid32_equal (vs : List ℚ) (v : ℚ) (hv : round32 v = some v) (hle : v ≤ 2 ^ 124)
    (heq : ∀ s ∈ vs, 0 < s → s = v)
    (hn : (vs.filter fun s => decide (0 < s)).length = 1 ∨
      (vs.filter fun s => decide (0 < s)).length = 2 ∨
      (vs.filter fun s => decide (0 < s)).length = 4) :
    Spec.meanValid32 vs = some v := by
  have hrep : (vs.filter fun s => decide (0 < s))
      = List.replicate (vs.filter fun s => decide (0 < s)).length v := by
    rw [List.eq_replicate_iff]
    refine ⟨rfl, fun b hb => ?_⟩
    rw [List.mem_filter] at hb
    exact heq b hb.1 (by simpa using hb.2)
  have hpos : 0 < v := by
    have hne : (vs.filter fun s => decide (0 < s)) ≠ [] := by
      intro h
      rw [h] at hn
      simp at hn
    obtain ⟨b, hb⟩ := List.exists_mem_of_ne_nil _ hne
    rw [List.mem_filter] at hb
    have hb2 : 0 < b := by simpa using hb.2
    rwa [heq b hb.1 hb2] at hb2
  have := meanValid32_replicate v hv hpos hle _ hn
  unfold Spec.meanValid32 at this ⊢
  rw [foldlM_accumulateValid32_filter, hrep]
  exact this
theorem block_mem_of_pos (I : Image) (x y : Nat) (s : ℚ) (hs : s ∈ Spec.block I x y)
    (hpos : 0 < s) : s ∈ I.data := by
  simp only [Spec.block, List.mem_cons, List.mem_singleton, List.not_mem_nil, or_false] at hs
  rcases hs with rfl | rfl | rfl | rfl <;> exact sample_mem_of_pos I _ _ hpos

/-- When no sample exceeds `2^124`, `filterSubsample32` returns the image of the binary32
block means. -/
theorem filterSubsample32_total (input output : Image) (hwf : input.WF)
    (hfin : ∀ s ∈ input.data, s ≤ 2 ^ 124) :
    filterSubsample32 input output
        = some (Spec.tabulate ⟨input.noDims.x / 2, input.noDims.y / 2⟩
          fun x y => (Spec.meanValid32 (Spec.block input x y)).getD 0) ∧
      ∀ x y, Spec.meanValid32 (Spec.block input x y)
        = some ((Spec.meanValid32 (Spec.block input x y)).getD 0) := by
  have htot : ∀ x y, Spec.meanValid32 (Spec.block input x y)
      = some ((Spec.meanValid32 (Spec.block input x y)).getD 0) := by
    intro x y
    obtain ⟨r, hr⟩ := meanValid32_total (Spec.block input x y)
      (fun s hs hpos => hfin s (block_mem_of_pos input x y s hs hpos)) (by simp [Spec.block])
    rw [hr]
    rfl
  exact ⟨filterSubsample32_eq input output hwf _ fun x y _ _ => htot x y, htot⟩

/-- C9, as stated, fails in binary32. The block `16777214, 16777214 / 16777214, hole` has
three valid samples, all equal to the binary32 value 16777214; the third sum 50331642 is
rounded to 50331640 and `filterSubsample` writes 16777213. -/
theorem C9_subsample_mean_counterexample :
    (∃ s ∈ Spec.block tripleImage 0 0, 0 < s) ∧
    (∀ s ∈ Spec.block tripleImage 0 0, 0 < s → s = 16777214) ∧
    round32 16777214 = some 16777214 ∧
    (∃ out, filterSubsample32 tripleImage staleImage = some out ∧
      out.data[0 * (tripleImage.noDims.x / 2) + 0]? = some 16777213) ∧
    (16777213 : ℚ) ≠ 16777214 := by
  have hb : Spec.block tripleImage 0 0 = [16777214, 16777214, 16777214, 0] := by
    simp [Spec.block, Spec.sample, tripleImage]
  refine ⟨⟨16777214, by rw [hb]; simp, by norm_num⟩, ?_, ?_, ?_, by norm_num⟩
  · intro s hs hpos
    rw [hb] at hs
    simp only [List.mem_cons, List.mem_singleton, List.not_mem_nil, or_false] at hs
    rcases hs with rfl | rfl | rfl | rfl
    · rfl
    · rfl
    · rfl
    · exact absurd hpos (lt_irrefl _)
  · have := round32_exact 16777214 0 (by norm_num) (by norm_num) (by norm_num)
    norm_num at this ⊢
    exact this
  · refine ⟨_, filterSubsample32_eq tripleImage staleImage tripleImage_WF
      (fun _ _ => 16777213) ?_, ?_⟩
    · intro x y hx hy
      have hx0 : x = 0 := by
        simp only [tripleImage] at hx
        omega
      have hy0 : y = 0 := by
        simp only [tripleImage] at hy
        omega
      rw [hx0, hy0]
      exact meanValid32_tripleImage
    · exact tabulate_getElem? ⟨tripleImage.noDims.x / 2, tripleImage.noDims.y / 2⟩
        (fun _ _ => 16777213) 0 0 (by decide) (by decide)

/-- In exact arithmetic a block whose valid samples all equal `v` is subsampled to `v`,
whatever their number and positions. -/
theorem subsample_equal_exact (input output : Image) (hwf : input.WF) :
    ∃ out, filterSubsample input output = some out ∧
      ∀ x y, x < input.noDims.x / 2 → y < input.noDims.y / 2 → ∀ v : ℚ,
        (∃ s ∈ Spec.block input x y, 0 < s) →
        (∀ s ∈ Spec.block input x y, 0 < s → s = v) →
        out.data[y * (input.noDims.x / 2) + x]? = some v :=
  ⟨Spec.subsample input, filterSubsample_eq input output hwf, fun x y hx hy v h1 h2 => by
    rw [← meanValid_const (Spec.block input x y) v h1 h2]
    exact tabulate_getElem? ⟨input.noDims.x / 2, input.noDims.y / 2⟩
      (fun x y => Spec.meanValid (Spec.block input x y)) x y hx hy⟩

/-! ## Filter length in binary32 -/

/-- Rounding does not cross an integer below `2^24` downwards. -/
theorem le_round32_of_int (q r : ℚ) (n : Int) (hn0 : 0 ≤ n) (hq : (n : ℚ) ≤ q)
    (hq2 : q < 2 ^ 24) (hr : round32 q = some r) : (n : ℚ) ≤ r := by
  have hq0 : 0 ≤ q := le_trans (by exact_mod_cast hn0) hq
  rcases eq_or_lt_of_le hn0 with h0 | hpos
  · rw [← h0]
    simpa using round32_nonneg q r hq0 hr
  · have hqpos : 0 < q := lt_of_lt_of_le (by exact_mod_cast hpos) hq
    have hu : ulpExponent q ≤ 0 := by
      apply ulpExponent_le q 0 _ (by norm_num) (ne_of_gt hqpos)
      rw [abs_of_pos hqpos]
      norm_num at hq2 ⊢
      exact hq2
    obtain ⟨k, hk⟩ := Int.eq_ofNat_of_zero_le (by omega : 0 ≤ -ulpExponent q)
    have hue : ulpExponent q = -(k : Int) := by omega
    have hp : (0 : ℚ) < 2 ^ ulpExponent q := zpow_pos (by norm_num) _
    unfold round32 at hr
    split at hr
    · injection hr with hr
      rw [← hr]
      have hN : ((n * 2 ^ k : Int) : ℚ) ≤ q / 2 ^ ulpExponent q := by
        rw [le_div_iff₀ hp, hue, zpow_neg, zpow_natCast]
        push_cast
        rw [mul_assoc, mul_inv_cancel₀ (by positivity), mul_one]
        exact hq
      have h1 := le_roundHalfEven _ _ hN
      have h2 : ((n * 2 ^ k : Int) : ℚ) ≤ roundHalfEven (q / 2 ^ ulpExponent q) := by
        exact_mod_cast h1
      calc (n : ℚ) = ((n * 2 ^ k : Int) : ℚ) * 2 ^ ulpExponent q := by
            rw [hue, zpow_neg, zpow_natCast]
            push_cast
            rw [mul_assoc, mul_inv_cancel₀ (by positivity), mul_one]
        _ ≤ (roundHalfEven (q / 2 ^ ulpExponent q) : ℚ) * 2 ^ ulpExponent q :=
            mul_le_mul_of_nonneg_right h2 (le_of_lt hp)
    · exact absurd hr (by simp)

/-- Rounding does not cross an integer below `2^24` upwards. -/
theorem round32_le_of_int (q r : ℚ) (n : Int) (hq0 : 0 ≤ q) (hq : q ≤ (n : ℚ))
    (hq2 : q < 2 ^ 24) (hr : round32 q = some r) : r ≤ (n : ℚ) := by
  rcases eq_or_lt_of_le hq0 with h0 | hqpos
  · rw [← h0] at hr hq
    have : round32 0 = some 0 := by
      have := round32_exact 0 0 (by norm_num) (by norm_num) (by norm_num)
      simpa using this
    rw [this] at hr
    injection hr with hr
    rw [← hr]
    exact hq
  · have hu : ulpExponent q ≤ 0 := by
      apply ulpExponent_le q 0 _ (by norm_num) (ne_of_gt hqpos)
      rw [abs_of_pos hqpos]
      norm_num at hq2 ⊢
      exact hq2
    obtain ⟨k, hk⟩ := Int.eq_ofNat_of_zero_le (by omega : 0 ≤ -ulpExponent q)
    have hue : ulpExponent q = -(k : Int) := by omega
    have hp : (0 : ℚ) < 2 ^ ulpExponent q := zpow_pos (by norm_num) _
    unfold round32 at hr
    split at hr
    · injection hr with hr
      rw [← hr]
      have hN : q / 2 ^ ulpExponent q ≤ ((n * 2 ^ k : Int) : ℚ) := by
        rw [div_le_iff₀ hp, hue, zpow_neg, zpow_natCast]
        push_cast
        rw [mul_assoc, mul_inv_cancel₀ (by positivity), mul_one]
        exact hq
      have h1 := roundHalfEven_le _ _ hN
      have h2 : (roundHalfEven (q / 2 ^ ulpExponent q) : ℚ) ≤ ((n * 2 ^ k : Int) : ℚ) := by
        exact_mod_cast h1
      calc (roundHalfEven (q / 2 ^ ulpExponent q) : ℚ) * 2 ^ ulpExponent q
          ≤ ((n * 2 ^ k : Int) : ℚ) * 2 ^ ulpExponent q :=
            mul_le_mul_of_nonneg_right h2 (le_of_lt hp)
        _ = (n : ℚ) := by
            rw [hue, zpow_neg, zpow_natCast]
            push_cast
            rw [mul_assoc, mul_inv_cancel₀ (by positivity), mul_one]
    · exact absurd hr (by simp)

theorem round32_seven : round32 (2 * (7 / 2)) = some 7 := by
  have := round32_exact 7 0 (by norm_num) (by norm_num) (by norm_num)
  norm_num at this ⊢
  exact this

/-- The length of lines 99-100 in terms of the rounded product `p`. -/
theorem gaussianFilterSize32_eq (sigma p : ℚ) (hs : 0 ≤ sigma)
    (hp : round32 (7 * sigma) = some p) (hint : p < 2 ^ 31) :
    gaussianFilterSize32 sigma = some (if ⌊p⌋ % 2 = 0 then ⌊p⌋ + 1 else ⌊p⌋) := by
  have hp0 : 0 ≤ p := round32_nonneg _ _ (by positivity) hp
  have hr : -(2 ^ 31 : ℚ) - 1 < p ∧ p < 2 ^ 31 := ⟨by linarith [show (0:ℚ) < 2 ^ 31 by positivity], hint⟩
  unfold gaussianFilterSize32 mul32
  rw [round32_seven]
  simp only [Option.bind_eq_bind, Option.some_bind, hp, if_pos hr, truncToInt, if_pos hp0,
    Option.pure_def]

theorem round32_sevenSigma :
    round32 (7 * (10785353 / 4194304)) = some 18 := by
  rw [round32_binade_pos (7 * (10785353 / 4194304)) 4 (by norm_num) (by norm_num)
      (by norm_num) (by norm_num),
    roundHalfEven_of_lt _ 9437184 (by norm_num) (by norm_num)]
  norm_num

/-- C16, as stated, fails in binary32. For the binary32 value `σ = 10785353 / 2^22`
(about 2.5714285) the exact product `7σ` is just below 18, so `⌊7σ⌋ = 17`; the binary32
product rounds to 18.0, the cast gives 18, and the mask length is 19, which is neither
`⌊7σ⌋` nor `⌊7σ⌋ + 1`. -/
theorem C16_filter_length_counterexample :
    (0 : ℚ) ≤ 10785353 / 4194304 ∧
    round32 (10785353 / 4194304) = some (10785353 / 4194304) ∧
    (7 : ℚ) * (10785353 / 4194304) < 2 ^ 31 ∧
    ⌊(7 : ℚ) * (10785353 / 4194304)⌋ = 17 ∧
    gaussianFilterSize32 (10785353 / 4194304) = some 19 ∧
    (19 : Int) ≠ ⌊(7 : ℚ) * (10785353 / 4194304)⌋ ∧
    (19 : Int) ≠ ⌊(7 : ℚ) * (10785353 / 4194304)⌋ + 1 := by
  have hf : ⌊(7 : ℚ) * (10785353 / 4194304)⌋ = 17 := by
    rw [Int.floor_eq_iff]
    constructor <;> norm_num
  have hsig : round32 (10785353 / 4194304) = some (10785353 / 4194304) := by
    have := round32_exact 10785353 (-22) (by norm_num) (by norm_num) (by norm_num)
    norm_num at this ⊢
    exact this
  have h18 : ⌊(18 : ℚ)⌋ = 18 := by
    rw [Int.floor_eq_iff]
    constructor <;> norm_num
  refine ⟨by norm_num, hsig, by norm_num, hf, ?_, by rw [hf]; decide, by rw [hf]; decide⟩
  rw [gaussianFilterSize32_eq _ 18 (by norm_num) round32_sevenSigma (by norm_num), h18]
  rfl

/-- C16, amended. Filter length selection in `filterGaussian`, in binary32: for every
`σ ≥ 0` whose rounded product `p = 2.0f*3.5f*σ` is below `2^31` (so that the cast to `int`
is defined), the mask length is `M = ⌊p⌋`, plus one if that value is even; hence `M` is
odd, `M ≥ 1`, and `M` is `⌊p⌋` or `⌊p⌋ + 1`. The product is `7σ` rounded to binary32: when
`7σ` is itself a binary32 value, `M` is `⌊7σ⌋` or `⌊7σ⌋ + 1` and equals the length of exact
arithmetic; otherwise, for `7σ < 2^24`, the rounding can reach the next integer and `M` is
`⌊7σ⌋`, `⌊7σ⌋ + 1` or `⌊7σ⌋ + 2`. For the pipeline's `σ = 2.5` the mask length is 17, of
half-width 8. -/
theorem C16_filter_length_amended (sigma p : ℚ) (hs : 0 ≤ sigma)
    (hp : round32 (7 * sigma) = some p) (hint : p < 2 ^ 31) :
    (mul32 2 (7 / 2)).bind (fun c => mul32 c sigma) = some p ∧
    (∃ M, gaussianFilterSize32 sigma = some M ∧
      M = (if ⌊p⌋ % 2 = 0 then ⌊p⌋ + 1 else ⌊p⌋) ∧ M % 2 = 1 ∧ 1 ≤ M ∧
      (M = ⌊p⌋ ∨ M = ⌊p⌋ + 1) ∧
      (p = 7 * sigma →
        (M = ⌊7 * sigma⌋ ∨ M = ⌊7 * sigma⌋ + 1) ∧ M = gaussianFilterSize sigma) ∧
      (7 * sigma < 2 ^ 24 →
        M = ⌊7 * sigma⌋ ∨ M = ⌊7 * sigma⌋ + 1 ∨ M = ⌊7 * sigma⌋ + 2)) ∧
    gaussianFilterSize32 (5 / 2) = some 17 ∧ (17 : Int).toNat / 2 = 8 := by
  have hq0 : (0 : ℚ) ≤ 7 * sigma := by positivity
  have hp0 : 0 ≤ p := round32_nonneg _ _ hq0 hp
  have hz : 0 ≤ ⌊p⌋ := Int.floor_nonneg.mpr hp0
  have h17 : gaussianFilterSize32 (5 / 2) = some 17 := by
    have hr : round32 (7 * (5 / 2)) = some (35 / 2) := by
      have := round32_exact 35 (-1) (by norm_num) (by norm_num) (by norm_num)
      norm_num at this ⊢
      exact this
    have hf : ⌊(35 / 2 : ℚ)⌋ = 17 := by
      rw [Int.floor_eq_iff]
      constructor <;> norm_num
    rw [gaussianFilterSize32_eq _ (35 / 2) (by norm_num) hr (by norm_num), hf]
    rfl
  refine ⟨?_, ⟨_, gaussianFilterSize32_eq sigma p hs hp hint, rfl, ?_, ?_, ?_, ?_, ?_⟩, h17,
    by decide⟩
  · unfold mul32
    rw [round32_seven, Option.some_bind, hp]
  · split_ifs with h <;> omega
  · split_ifs with h <;> omega
  · split_ifs with h
    · exact Or.inr rfl
    · exact Or.inl rfl
  · intro he
    have hfl := gaussianFilterSize_floor sigma hs
    rw [he]
    refine ⟨?_, ?_⟩
    · split_ifs with h
      · exact Or.inr rfl
      · exact Or.inl rfl
    · rw [hfl.1, hfl.2.1]
  · intro h24
    have hfz : 0 ≤ ⌊7 * sigma⌋ := Int.floor_nonneg.mpr hq0
    have hlo : ((⌊7 * sigma⌋ : Int) : ℚ) ≤ p :=
      le_round32_of_int _ _ _ hfz (Int.floor_le _) h24 hp
    have hhi : p ≤ ((⌊7 * sigma⌋ + 1 : Int) : ℚ) :=
      round32_le_of_int _ _ _ hq0 (by push_cast; exact le_of_lt (Int.lt_floor_add_one _))
        h24 hp
    have h1 : ⌊7 * sigma⌋ ≤ ⌊p⌋ := Int.le_floor.mpr hlo
    have h2 : ⌊p⌋ ≤ ⌊7 * sigma⌋ + 1 := by
      have : ⌊p⌋ ≤ ⌊((⌊7 * sigma⌋ + 1 : Int) : ℚ)⌋ := Int.floor_mono hhi
      rwa [Int.floor_intCast] at this
    split_ifs with h <;> omega

/-- The statement C16 at `σ = 1/2`: the product 3.5 is exact, and `⌊3.5⌋ = 3` is already
odd. -/
theorem C16_filter_length_amended_witness :
    (0 : ℚ) ≤ 1 / 2 ∧ round32 (7 * (1 / 2)) = some (7 / 2) ∧ (7 / 2 : ℚ) < 2 ^ 31 ∧
    gaussianFilterSize32 (1 / 2) = some 3 := by
  have hr : round32 (7 * (1 / 2)) = some (7 / 2) := by
    have := round32_exact 7 (-1) (by norm_num) (by norm_num) (by norm_num)
    norm_num at this ⊢
    exact this
  have hf : ⌊(7 / 2 : ℚ)⌋ = 3 := by
    rw [Int.floor_eq_iff]
    constructor <;> norm_num
  obtain ⟨_, ⟨M, hM, hdef, _⟩, _⟩ :=
    C16_filter_length_amended (1 / 2) (7 / 2) (by norm_num) hr (by norm_num)
  refine ⟨by norm_num, hr, by norm_num, ?_⟩
  rw [hM, hdef, hf]
  rfl

/-! ## A mask of even length -/

theorem roundUpImage_WF : roundUpImage.WF := by
  rw [Image.WF]
  rfl

theorem roundUpImage_validSamples : (Spec.validSamples roundUpImage).Nonempty :=
  ⟨16777210, by simp [Spec.validSamples, roundUpImage]⟩

theorem meanValid32_roundUpImage :
    Spec.meanValid32 (Spec.block roundUpImage 0 0) = some 16777211 := by
  have hb : Spec.block roundUpImage 0 0 = [16777210, 16777210, 16777210, 0] := by
    simp [Spec.block, Spec.sample, roundUpImage]
  have a1 : round32 (0 + 16777210) = some 16777210 := by
    have := round32_exact 16777210 0 (by norm_num) (by norm_num) (by norm_num)
    norm_num at this ⊢
    exact this
  have a2 : round32 (16777210 + 16777210) = some 33554420 := by
    have := round32_exact 8388605 2 (by norm_num) (by norm_num) (by norm_num)
    norm_num at this ⊢
    exact this
  have a3 : round32 (33554420 + 16777210) = some 50331632 := by
    rw [round32_binade_pos (33554420 + 16777210) 25 (by norm_num) (by norm_num) (by norm_num)
        (by norm_num),
      roundHalfEven_of_tie _ 12582908 (Or.inr (by norm_num)) (by decide)]
    norm_num
  have a4 : round32 (50331632 / 3) = some 16777211 := by
    rw [round32_binade_pos (50331632 / 3) 23 (by norm_num) (by norm_num) (by norm_num)
        (by norm_num),
      roundHalfEven_of_lt _ 16777211 (by norm_num) (by norm_num)]
    norm_num
  rw [hb]
  exact meanValid32_three _ _ _ _ _ _ _ _ (by norm_num) (by norm_num) (by norm_num)
    (by norm_num) a1 a2 a3 a4

/-- C20, as stated, fails in binary32. The only valid value of the block
`16777210, 16777210 / 16777210, hole` is 16777210, so minimum and maximum are 16777210;
the third sum 50331630 is rounded to 50331632 and `filterSubsample` writes 16777211, above
the maximum. -/
theorem C20_depth_range_counterexample :
    (Spec.validSamples roundUpImage).max' roundUpImage_validSamples = 16777210 ∧
    (∀ s ∈ roundUpImage.data, round32 s = some s) ∧
    (∃ out, filterSubsample32 roundUpImage staleImage = some out ∧
      ∃ v ∈ out.data, 0 < v ∧
        ¬ v ≤ (Spec.validSamples roundUpImage).max' roundUpImage_validSamples) := by
  have hmax : (Spec.validSamples roundUpImage).max' roundUpImage_validSamples = 16777210 := by
    apply le_antisymm
    · apply Finset.max'_le
      intro s hs
      simp [Spec.validSamples, roundUpImage] at hs
      rw [hs]
    · exact Finset.le_max' _ _ (by simp [Spec.validSamples, roundUpImage])
  refine ⟨hmax, ?_, ⟨_, filterSubsample32_eq roundUpImage staleImage roundUpImage_WF
      (fun _ _ => 16777211) ?_, 16777211, ?_, by norm_num, ?_⟩⟩
  · intro s hs
    simp only [roundUpImage, List.mem_cons, List.mem_singleton, List.not_mem_nil,
      or_false] at hs
    have h1 : round32 16777210 = some 16777210 := by
      have := round32_exact 16777210 0 (by norm_num) (by norm_num) (by norm_num)
      norm_num at this ⊢
      exact this
    have h0 : round32 0 = some 0 := by
      have := round32_exact 0 0 (by norm_num) (by norm_num) (by norm_num)
      simpa using this
    rcases hs with rfl | rfl | rfl | rfl <;> assumption
  · intro x y hx hy
    have hx0 : x = 0 := by
      simp only [roundUpImage] at hx
      omega
    have hy0 : y = 0 := by
      simp only [roundUpImage] at hy
      omega
    rw [hx0, hy0]
    exact meanValid32_roundUpImage
  · simp [Spec.tabulate, roundUpImage]
  · rw [hmax]
    norm_num

/-! ## Range of the binary32 outputs -/

theorem unitRoundoff_pos : 0 < unitRoundoff := by
  unfold unitRoundoff
  positivity

/-- One rounding of a positive value of the normal range: the result is within the factor
`1 ± 2^-24` of the value. -/
theorem round32_pos (q : ℚ) (h1 : 2 ^ (-126 : Int) ≤ q) (h2 : q ≤ 2 ^ (127 : Int)) :
    ∃ r, round32 q = some r ∧ q * (1 - unitRoundoff) ≤ r ∧ r ≤ q * (1 + unitRoundoff) := by
  have hq : 0 < q := lt_of_lt_of_le (zpow_pos (by norm_num) _) h1
  obtain ⟨r, hr, herr⟩ := round32_relative q (by rwa [abs_of_pos hq]) (by rwa [abs_of_pos hq])
  rw [abs_of_pos hq, abs_le] at herr
  refine ⟨r, hr, ?_, ?_⟩
  · unfold unitRoundoff
    have : q * (1 - 1 / 2 ^ 24) = q - q / 2 ^ 24 := by ring
    rw [this]
    linarith
  · unfold unitRoundoff
    have : q * (1 + 1 / 2 ^ 24) = q + q / 2 ^ 24 := by ring
    rw [this]
    linarith

theorem one_sub_unitRoundoff_pos : 0 < 1 - unitRoundoff := by
  unfold unitRoundoff
  norm_num

theorem one_sub_unitRoundoff_le : 1 - unitRoundoff ≤ 1 := by
  have := unitRoundoff_pos
  linarith

theorem one_le_one_add_unitRoundoff : 1 ≤ 1 + unitRoundoff := by
  have := unitRoundoff_pos
  linarith

/-- Up to `2^20` roundings enlarge a value by less than the factor 2. -/
theorem pow_one_add_unitRoundoff_le (n : Nat) (hn : n ≤ 2 ^ 20) :
    (1 + unitRoundoff) ^ n ≤ 1 + n / 2 ^ 23 := by
  induction n with
  | zero => simp
  | succ n ih =>
    have h := ih (by omega)
    have hn' : (n : ℚ) ≤ 1048576 := by exact_mod_cast (by omega : n ≤ 1048576)
    rw [pow_succ]
    have h1 : (1 + unitRoundoff) ^ n * (1 + unitRoundoff)
        ≤ (1 + n / 2 ^ 23) * (1 + unitRoundoff) :=
      mul_le_mul_of_nonneg_right h (le_trans zero_le_one one_le_one_add_unitRoundoff)
    refine le_trans h1 ?_
    unfold unitRoundoff
    push_cast
    have : (1 + (n : ℚ) / 2 ^ 23) * (1 + 1 / 2 ^ 24)
        = 1 + ((n : ℚ) + 1) / 2 ^ 23 - (1 / 2 ^ 24 - n / 2 ^ 47) := by ring
    rw [this]
    have h2 : (n : ℚ) / 2 ^ 47 ≤ 1 / 2 ^ 24 := by
      rw [div_le_div_iff₀ (by positivity) (by positivity)]
      norm_num
      linarith
    linarith

/-- Up to `2^20` roundings shrink a value by less than the factor 2. -/
theorem le_pow_one_sub_unitRoundoff (n : Nat) :
    1 - n / 2 ^ 24 ≤ (1 - unitRoundoff) ^ n := by
  have h := one_add_mul_le_pow (a := -unitRoundoff) (by
    unfold unitRoundoff
    norm_num) n
  have e : (1 : ℚ) + n * -unitRoundoff = 1 - n / 2 ^ 24 := by
    unfold unitRoundoff
    ring
  have e2 : (1 : ℚ) + -unitRoundoff = 1 - unitRoundoff := by ring
  rw [e, e2] at h
  exact h
theorem pow_one_add_unitRoundoff_le_two (n : Nat) (hn : n ≤ 2 ^ 20) :
    (1 + unitRoundoff) ^ n ≤ 2 := by
  refine le_trans (pow_one_add_unitRoundoff_le n hn) ?_
  have hn' : (n : ℚ) ≤ 1048576 := by exact_mod_cast (by omega : n ≤ 1048576)
  have : (n : ℚ) / 2 ^ 23 ≤ 1 := by
    rw [div_le_one (by positivity)]
    norm_num
    linarith
  linarith

theorem half_le_pow_one_sub_unitRoundoff (n : Nat) (hn : n ≤ 2 ^ 20) :
    1 / 2 ≤ (1 - unitRoundoff) ^ n := by
  refine le_trans ?_ (le_pow_one_sub_unitRoundoff n)
  have hn' : (n : ℚ) ≤ 1048576 := by exact_mod_cast (by omega : n ≤ 1048576)
  have : (n : ℚ) / 2 ^ 24 ≤ 1 / 2 := by
    rw [div_le_div_iff₀ (by positivity) (by positivity)]
    norm_num
    linarith
  linarith

/-- The rounded sums of up to four valid samples of the range `[lo, hi]`: after `num`
additions the sum is `num` times a value of `[lo (1 - 2^-24)^num, hi (1 + 2^-24)^num]`. -/
theorem foldlM_accumulateValid32_bounds (vs : List ℚ) (lo hi : ℚ)
    (hlo : 2 ^ (-125 : Int) ≤ lo) (hhi : hi ≤ 2 ^ (124 : Int))
    (hb : ∀ s ∈ vs, 0 < s → lo ≤ s ∧ s ≤ hi) (num : Nat) (sum : ℚ)
    (h1 : num * lo * (1 - unitRoundoff) ^ num ≤ sum)
    (h2 : sum ≤ num * hi * (1 + unitRoundoff) ^ num) (hn : num + vs.length ≤ 4) :
    ∃ num2 sum2, vs.foldlM accumulateValid32 (num, sum) = some (num2, sum2) ∧
      num2 * lo * (1 - unitRoundoff) ^ num2 ≤ sum2 ∧
      sum2 ≤ num2 * hi * (1 + unitRoundoff) ^ num2 ∧ num2 ≤ 4 := by
  have hlo0 : 0 < lo := lt_of_lt_of_le (zpow_pos (by norm_num) _) hlo
  induction vs generalizing num sum with
  | nil => exact ⟨num, sum, rfl, h1, h2, by simpa using hn⟩
  | cons a vs ih =>
    have hlen : num + 1 + vs.length ≤ 4 := by
      simp only [List.length_cons] at hn
      omega
    rw [List.foldlM_cons]
    by_cases ha : 0 < a
    · obtain ⟨hla, hah⟩ := hb a (List.mem_cons_self _ _) ha
      have hhi0 : 0 < hi := lt_of_lt_of_le ha hah
      have hnum : (num : ℚ) ≤ 3 := by exact_mod_cast (by omega : num ≤ 3)
      have hnum0 : (0 : ℚ) ≤ num := Nat.cast_nonneg _
      have hP1 : 1 ≤ (1 + unitRoundoff) ^ num := one_le_pow₀ one_le_one_add_unitRoundoff
      have hP2 : (1 + unitRoundoff) ^ num ≤ 2 :=
        pow_one_add_unitRoundoff_le_two num (by omega)
      have hQ0 : 0 < (1 - unitRoundoff) ^ num := pow_pos one_sub_unitRoundoff_pos _
      have hQ1 : (1 - unitRoundoff) ^ num ≤ 1 :=
        pow_le_one₀ (le_of_lt one_sub_unitRoundoff_pos) one_sub_unitRoundoff_le
      have hsum0 : 0 ≤ sum := le_trans (by positivity) h1
      have hq1 : 2 ^ (-126 : Int) ≤ sum + a := by
        have : (2 : ℚ) ^ (-126 : Int) ≤ 2 ^ (-125 : Int) :=
          zpow_le_zpow_right₀ (by norm_num) (by norm_num)
        linarith
      have hq2 : sum + a ≤ 2 ^ (127 : Int) := by
        have e1 : (num : ℚ) * hi * (1 + unitRoundoff) ^ num ≤ 3 * hi * 2 := by
          have : (num : ℚ) * hi ≤ 3 * hi := mul_le_mul_of_nonneg_right hnum (le_of_lt hhi0)
          exact mul_le_mul this hP2 (by positivity) (by positivity)
        have e2 : (7 : ℚ) * 2 ^ (124 : Int) ≤ 2 ^ (127 : Int) := by norm_num
        linarith
      obtain ⟨r, hr, hr1, hr2⟩ := round32_pos (sum + a) hq1 hq2
      rw [accumulateValid32_valid num sum a r ha hr, Option.bind_eq_bind, Option.some_bind]
      refine ih (fun s hs h => hb s (List.mem_cons_of_mem _ hs) h) (num + 1) r ?_ ?_ hlen
      · push_cast
        have e1 : ((num : ℚ) + 1) * lo * (1 - unitRoundoff) ^ num ≤ sum + a := by
          have : lo * (1 - unitRoundoff) ^ num ≤ lo := by
            calc lo * (1 - unitRoundoff) ^ num ≤ lo * 1 :=
                  mul_le_mul_of_nonneg_left hQ1 (le_of_lt hlo0)
              _ = lo := mul_one _
          have e : ((num : ℚ) + 1) * lo * (1 - unitRoundoff) ^ num
              = num * lo * (1 - unitRoundoff) ^ num + lo * (1 - unitRoundoff) ^ num := by ring
          rw [e]
          linarith
        calc ((num : ℚ) + 1) * lo * (1 - unitRoundoff) ^ (num + 1)
            = ((num : ℚ) + 1) * lo * (1 - unitRoundoff) ^ num * (1 - unitRoundoff) := by
              rw [pow_succ]
              ring
          _ ≤ (sum + a) * (1 - unitRoundoff) :=
              mul_le_mul_of_nonneg_right e1 (le_of_lt one_sub_unitRoundoff_pos)
          _ ≤ r := hr1
      · push_cast
        have e1 : sum + a ≤ ((num : ℚ) + 1) * hi * (1 + unitRoundoff) ^ num := by
          have : hi ≤ hi * (1 + unitRoundoff) ^ num := by
            calc hi = hi * 1 := (mul_one _).symm
              _ ≤ hi * (1 + unitRoundoff) ^ num :=
                  mul_le_mul_of_nonneg_left hP1 (le_of_lt hhi0)
          have e : ((num : ℚ) + 1) * hi * (1 + unitRoundoff) ^ num
              = num * hi * (1 + unitRoundoff) ^ num + hi * (1 + unitRoundoff) ^ num := by ring
          rw [e]
          linarith
        calc r ≤ (sum + a) * (1 + unitRoundoff) := hr2
          _ ≤ ((num : ℚ) + 1) * hi * (1 + unitRoundoff) ^ num * (1 + unitRoundoff) :=
              mul_le_mul_of_nonneg_right e1
                (le_trans zero_le_one one_le_one_add_unitRoundoff)
          _ = ((num : ℚ) + 1) * hi * (1 + unitRoundoff) ^ (num + 1) := by
              rw [pow_succ]
              ring
    · rw [accumulateValid32_hole _ a ha, Option.bind_eq_bind, Option.some_bind]
      exact ih (fun s hs h => hb s (List.mem_cons_of_mem _ hs) h) num sum h1 h2 (by
        simp only [List.length_cons] at hn
        omega)

/-- The binary32 mean of up to four samples whose valid ones lie in `[lo, hi]` is defined
and, when positive, within five roundings of that range. -/
theorem meanValid32_bounds (vs : List ℚ) (lo hi : ℚ) (hlo : 2 ^ (-125 : Int) ≤ lo)
    (hhi : hi ≤ 2 ^ (124 : Int)) (hb : ∀ s ∈ vs, 0 < s → lo ≤ s ∧ s ≤ hi)
    (hn : vs.length ≤ 4) :
    ∃ r, Spec.meanValid32 vs = some r ∧
      (0 < r → lo * (1 - unitRoundoff) ^ 5 ≤ r ∧ r ≤ hi * (1 + unitRoundoff) ^ 5) := by
  have hlo0 : 0 < lo := lt_of_lt_of_le (zpow_pos (by norm_num) _) hlo
  obtain ⟨num2, sum2, hrun, h1, h2, hn2⟩ :=
    foldlM_accumulateValid32_bounds vs lo hi hlo hhi hb 0 0 (by simp) (by simp) (by omega)
  unfold Spec.meanValid32
  rw [hrun, Option.some_bind]
  by_cases hpos : num2 > 0
  · simp only [if_pos hpos, div32]
    have hnq : (0 : ℚ) < num2 := by exact_mod_cast hpos
    have hP2 : (1 + unitRoundoff) ^ num2 ≤ 2 := pow_one_add_unitRoundoff_le_two num2 (by omega)
    have hQ2 : 1 / 2 ≤ (1 - unitRoundoff) ^ num2 :=
      half_le_pow_one_sub_unitRoundoff num2 (by omega)
    have hQ0 : 0 < (1 - unitRoundoff) ^ num2 := pow_pos one_sub_unitRoundoff_pos _
    have hsum0 : 0 < sum2 := lt_of_lt_of_le (by positivity) h1
    have hhi0 : 0 < hi := by
      by_contra hneg
      have hle : hi ≤ 0 := not_lt.mp hneg
      have : (num2 : ℚ) * hi * (1 + unitRoundoff) ^ num2 ≤ 0 :=
        mul_nonpos_of_nonpos_of_nonneg (mul_nonpos_of_nonneg_of_nonpos (le_of_lt hnq) hle)
          (le_trans zero_le_one (one_le_pow₀ one_le_one_add_unitRoundoff))
      linarith
    have q1 : lo * (1 - unitRoundoff) ^ num2 ≤ sum2 / num2 := by
      rw [le_div_iff₀ hnq]
      linarith
    have q2 : sum2 / num2 ≤ hi * (1 + unitRoundoff) ^ num2 := by
      rw [div_le_iff₀ hnq]
      linarith
    have hq1 : 2 ^ (-126 : Int) ≤ sum2 / num2 := by
      refine le_trans ?_ q1
      have e : (2 : ℚ) ^ (-126 : Int) = 2 ^ (-125 : Int) * (1 / 2) := by norm_num
      rw [e]
      exact mul_le_mul hlo hQ2 (by norm_num) (le_of_lt hlo0)
    have hq2 : sum2 / num2 ≤ 2 ^ (127 : Int) := by
      refine le_trans q2 ?_
      have e : (2 : ℚ) ^ (124 : Int) * 2 ≤ 2 ^ (127 : Int) := by norm_num
      exact le_trans (mul_le_mul hhi hP2
        (le_trans zero_le_one (one_le_pow₀ one_le_one_add_unitRoundoff)) (by positivity)) e
    obtain ⟨r, hr, hr1, hr2⟩ := round32_pos _ hq1 hq2
    refine ⟨r, hr, fun _ => ⟨?_, ?_⟩⟩
    · calc lo * (1 - unitRoundoff) ^ 5
          ≤ lo * (1 - unitRoundoff) ^ (num2 + 1) :=
            mul_le_mul_of_nonneg_left
              (pow_le_pow_of_le_one (le_of_lt one_sub_unitRoundoff_pos)
                one_sub_unitRoundoff_le (by omega)) (le_of_lt hlo0)
        _ = lo * (1 - unitRoundoff) ^ num2 * (1 - unitRoundoff) := by
            rw [pow_succ]
            ring
        _ ≤ sum2 / num2 * (1 - unitRoundoff) :=
            mul_le_mul_of_nonneg_right q1 (le_of_lt one_sub_unitRoundoff_pos)
        _ ≤ r := hr1
    · calc r ≤ sum2 / num2 * (1 + unitRoundoff) := hr2
        _ ≤ hi * (1 + unitRoundoff) ^ num2 * (1 + unitRoundoff) :=
            mul_le_mul_of_nonneg_right q2 (le_trans zero_le_one one_le_one_add_unitRoundoff)
        _ = hi * (1 + unitRoundoff) ^ (num2 + 1) := by
            rw [pow_succ]
            ring
        _ ≤ hi * (1 + unitRoundoff) ^ 5 :=
            mul_le_mul_of_nonneg_left
              (pow_le_pow_right₀ one_le_one_add_unitRoundoff (by omega)) (le_of_lt hhi0)
  · simp only [if_neg hpos]
    exact ⟨0, rfl, fun h => absurd h (lt_irrefl _)⟩

theorem one_add_unitRoundoff_pos : 0 < 1 + unitRoundoff :=
  lt_of_lt_of_le zero_lt_one one_le_one_add_unitRoundoff

theorem unitRoundoff_sandwich :
    (1 - unitRoundoff) * (1 + unitRoundoff) ≤ 1 ∧
      1 ≤ (1 - unitRoundoff) * (1 + unitRoundoff) ^ 2 ∧ 1 / 2 ≤ 1 - unitRoundoff ∧
      1 + unitRoundoff ≤ 2 := by
  unfold unitRoundoff
  norm_num

/-- One tap in binary32. If the pair `(sum_v, sum_c)` satisfies
`L * sum_c ≤ sum_v ≤ H * sum_c` before a tap with coefficient `c` and sample `v`, it
satisfies the same with `L (1 - 2^-24)^4` and `H (1 + 2^-24)^4` after it. -/
theorem accumulateTap32_bounds (sv sc c v L H S lo hi cmin cmax : ℚ)
    (hc1 : cmin ≤ c) (hc2 : c ≤ cmax) (hv1 : lo ≤ v) (hv2 : v ≤ hi)
    (hcmin : 2 ^ (-126 : Int) ≤ cmin) (hprod : 2 ^ (-125 : Int) ≤ cmin * lo) (hlo0 : 0 < lo)
    (hL0 : 0 ≤ L) (hL : L ≤ lo) (hH : hi ≤ H) (hsc0 : 0 ≤ sc) (hscS : sc ≤ S)
    (hsv1 : L * sc ≤ sv) (hsv2 : sv ≤ H * sc) (hov1 : S + cmax ≤ 2 ^ (127 : Int))
    (hov2 : H * S + cmax * hi * 2 ≤ 2 ^ (127 : Int)) :
    ∃ sv2 sc2, accumulateTap32 (sv, sc) c v = some (sv2, sc2) ∧ 0 < sc2 ∧
      sc2 ≤ (S + cmax) * (1 + unitRoundoff) ∧
      L * (1 - unitRoundoff) ^ 4 * sc2 ≤ sv2 ∧ sv2 ≤ H * (1 + unitRoundoff) ^ 4 * sc2 := by
  obtain ⟨hab, hab2, ha2, hb2⟩ := unitRoundoff_sandwich
  have ha0 := one_sub_unitRoundoff_pos
  have ha1 := one_sub_unitRoundoff_le
  have hb1 := one_le_one_add_unitRoundoff
  have hb0 := one_add_unitRoundoff_pos
  have hround := round32_pos
  generalize 1 - unitRoundoff = a at *
  generalize 1 + unitRoundoff = b at *
  have hcmin0 : 0 < cmin := lt_of_lt_of_le (zpow_pos (by norm_num) _) hcmin
  have hc0 : 0 < c := lt_of_lt_of_le hcmin0 hc1
  have hv0 : 0 < v := lt_of_lt_of_le hlo0 hv1
  have hhi0 : 0 < hi := lt_of_lt_of_le hv0 hv2
  have hH0 : 0 < H := lt_of_lt_of_le hhi0 hH
  have hcmax0 : 0 < cmax := lt_of_lt_of_le hc0 hc2
  have hS0 : 0 ≤ S := le_trans hsc0 hscS
  have hsv0 : 0 ≤ sv := le_trans (mul_nonneg hL0 hsc0) hsv1
  -- sum_c
  have hq1a : 2 ^ (-126 : Int) ≤ sc + c := by linarith
  have hq1b : sc + c ≤ 2 ^ (127 : Int) := by linarith
  obtain ⟨sc2, hsc2, hs1, hs2⟩ := hround (sc + c) hq1a hq1b
  -- product
  have hcv1 : cmin * lo ≤ c * v := mul_le_mul hc1 hv1 (le_of_lt hlo0) (le_of_lt hc0)
  have hcv2 : c * v ≤ cmax * hi := mul_le_mul hc2 hv2 (le_of_lt hv0) (le_of_lt hcmax0)
  have hHS0 : 0 ≤ H * S := mul_nonneg (le_of_lt hH0) hS0
  have hch0 : 0 < cmax * hi := mul_pos hcmax0 hhi0
  have hq2a : 2 ^ (-126 : Int) ≤ c * v := by
    have : (2 : ℚ) ^ (-126 : Int) ≤ 2 ^ (-125 : Int) :=
      zpow_le_zpow_right₀ (by norm_num) (by norm_num)
    linarith
  have hq2b : c * v ≤ 2 ^ (127 : Int) := by linarith
  obtain ⟨p, hp, hp1, hp2⟩ := hround (c * v) hq2a hq2b
  -- sum_v
  have hp0 : 2 ^ (-126 : Int) ≤ p := by
    have e : (2 : ℚ) ^ (-126 : Int) = 2 ^ (-125 : Int) * (1 / 2) := by norm_num
    have : (2 : ℚ) ^ (-125 : Int) * (1 / 2) ≤ c * v * a :=
      mul_le_mul (le_trans hprod hcv1) ha2 (by norm_num) (le_of_lt (mul_pos hc0 hv0))
    rw [e]
    linarith
  have hpb : p ≤ cmax * hi * 2 :=
    le_trans hp2 (mul_le_mul hcv2 hb2 (le_of_lt hb0) (le_of_lt hch0))
  have hq3a : 2 ^ (-126 : Int) ≤ sv + p := by linarith
  have hq3b : sv + p ≤ 2 ^ (127 : Int) := by
    have : H * sc ≤ H * S := mul_le_mul_of_nonneg_left hscS (le_of_lt hH0)
    linarith
  obtain ⟨sv2, hsv2', ht1, ht2⟩ := hround (sv + p) hq3a hq3b
  have hq10 : 0 < sc + c := by linarith
  have hsc2pos : 0 < sc2 := lt_of_lt_of_le (mul_pos hq10 ha0) hs1
  refine ⟨sv2, sc2, ?_, hsc2pos, ?_, ?_, ?_⟩
  · unfold accumulateTap32 add32 mul32
    simp only [hsc2, hp, hsv2', Option.bind_eq_bind, Option.some_bind, Option.pure_def]
  · exact le_trans hs2 (mul_le_mul_of_nonneg_right (by linarith) (le_of_lt hb0))
  · -- lower bound
    have k2 : sc2 * a ≤ sc + c := by
      calc sc2 * a ≤ (sc + c) * b * a := mul_le_mul_of_nonneg_right hs2 (le_of_lt ha0)
        _ = (sc + c) * (a * b) := by ring
        _ ≤ (sc + c) * 1 := mul_le_mul_of_nonneg_left hab (le_of_lt hq10)
        _ = sc + c := mul_one _
    have e1 : L * a * (sc + c) ≤ sv + p := by
      have h1 : L * a * sc ≤ L * sc := by
        calc L * a * sc = L * sc * a := by ring
          _ ≤ L * sc * 1 := mul_le_mul_of_nonneg_left ha1 (mul_nonneg hL0 hsc0)
          _ = L * sc := mul_one _
      have h2 : L * a * c ≤ p := by
        calc L * a * c = c * L * a := by ring
          _ ≤ c * v * a := mul_le_mul_of_nonneg_right
              (mul_le_mul_of_nonneg_left (le_trans hL hv1) (le_of_lt hc0)) (le_of_lt ha0)
          _ ≤ p := hp1
      have : L * a * (sc + c) = L * a * sc + L * a * c := by ring
      rw [this]
      linarith
    calc L * a ^ 4 * sc2 = L * a ^ 2 * a * (sc2 * a) := by ring
      _ ≤ L * a ^ 2 * a * (sc + c) :=
          mul_le_mul_of_nonneg_left k2
            (mul_nonneg (mul_nonneg hL0 (by positivity)) (le_of_lt ha0))
      _ = L * a * (sc + c) * a ^ 2 := by ring
      _ ≤ (sv + p) * a ^ 2 := mul_le_mul_of_nonneg_right e1 (by positivity)
      _ = (sv + p) * a * a := by ring
      _ ≤ (sv + p) * a * 1 :=
          mul_le_mul_of_nonneg_left ha1
            (mul_nonneg (le_trans (le_of_lt (zpow_pos (by norm_num) _)) hq3a) (le_of_lt ha0))
      _ = (sv + p) * a := mul_one _
      _ ≤ sv2 := ht1
  · -- upper bound
    have k1 : sc + c ≤ sc2 * b ^ 2 := by
      calc sc + c = (sc + c) * 1 := (mul_one _).symm
        _ ≤ (sc + c) * (a * b ^ 2) := mul_le_mul_of_nonneg_left hab2 (le_of_lt hq10)
        _ = (sc + c) * a * b ^ 2 := by ring
        _ ≤ sc2 * b ^ 2 := mul_le_mul_of_nonneg_right hs1 (by positivity)
    have e1 : sv + p ≤ H * b * (sc + c) := by
      have h1 : H * sc ≤ H * b * sc := by
        calc H * sc = H * sc * 1 := (mul_one _).symm
          _ ≤ H * sc * b := mul_le_mul_of_nonneg_left hb1 (mul_nonneg (le_of_lt hH0) hsc0)
          _ = H * b * sc := by ring
      have h2 : p ≤ H * b * c := by
        calc p ≤ c * v * b := hp2
          _ ≤ c * H * b := mul_le_mul_of_nonneg_right
              (mul_le_mul_of_nonneg_left (le_trans hv2 hH) (le_of_lt hc0)) (le_of_lt hb0)
          _ = H * b * c := by ring
      have : H * b * (sc + c) = H * b * sc + H * b * c := by ring
      rw [this]
      linarith
    calc sv2 ≤ (sv + p) * b := ht2
      _ ≤ H * b * (sc + c) * b := mul_le_mul_of_nonneg_right e1 (le_of_lt hb0)
      _ = H * b ^ 2 * (sc + c) := by ring
      _ ≤ H * b ^ 2 * (sc2 * b ^ 2) :=
          mul_le_mul_of_nonneg_left k1 (mul_nonneg (le_of_lt hH0) (by positivity))
      _ = H * b ^ 4 * sc2 := by ring

/-- The tap loop of a separable pass in binary32, for taps whose coefficients lie in
`[2^-20, 2^20]` and whose valid samples lie in `[lo, hi]`: after `n` taps the pair
`(sum_v, sum_c)` satisfies `lo (1 - 2^-24)^(4n) sum_c ≤ sum_v ≤ hi (1 + 2^-24)^(4n) sum_c`,
and no operation overflows. -/
theorem tapLoop32_bounds (M : Nat) (step : Nat → ℚ × ℚ → Option (ℚ × ℚ)) (P : Nat → Prop)
    [DecidablePred P] (c v : Nat → ℚ)
    (hstep : ∀ i acc, i < M →
      step i acc = if P i then accumulateTap32 acc (c i) (v i) else some acc)
    (lo hi : ℚ) (hlo : 2 ^ (-64 : Int) ≤ lo) (hlohi : lo ≤ hi) (hhi : hi ≤ 2 ^ (64 : Int))
    (hc : ∀ i, i < M → P i → 2 ^ (-20 : Int) ≤ c i ∧ c i ≤ 2 ^ (20 : Int))
    (hv : ∀ i, i < M → P i → lo ≤ v i ∧ v i ≤ hi) (hM : M ≤ 2 ^ 16) (n : Nat) (hn : n ≤ M) :
    ∃ sv sc, forLoop n step (0, 0) = some (sv, sc) ∧ 0 ≤ sc ∧
      sc ≤ n * 2 ^ (20 : Int) * (1 + unitRoundoff) ^ n ∧
      lo * (1 - unitRoundoff) ^ (4 * n) * sc ≤ sv ∧
      sv ≤ hi * (1 + unitRoundoff) ^ (4 * n) * sc ∧ (0 < sc ↔ ∃ i, i < n ∧ P i) := by
  have hlo0 : 0 < lo := lt_of_lt_of_le (zpow_pos (by norm_num) _) hlo
  have hhi0 : 0 < hi := lt_of_lt_of_le hlo0 hlohi
  have ha0 := one_sub_unitRoundoff_pos
  have ha1 := one_sub_unitRoundoff_le
  have hb1 := one_le_one_add_unitRoundoff
  have hb0 := one_add_unitRoundoff_pos
  induction n with
  | zero => exact ⟨0, 0, rfl, le_refl _, by simp, by simp, by simp, by simp⟩
  | succ n ih =>
    obtain ⟨sv, sc, hrun, hsc0, hscS, hsv1, hsv2, hiff⟩ := ih (by omega)
    have hnM : n < M := by omega
    have hnq : (n : ℚ) ≤ 65536 := by exact_mod_cast (by omega : n ≤ 65536)
    have hnq0 : (0 : ℚ) ≤ n := Nat.cast_nonneg _
    have hPn : (1 + unitRoundoff) ^ n ≤ 2 := pow_one_add_unitRoundoff_le_two n (by omega)
    have hPn1 : 1 ≤ (1 + unitRoundoff) ^ n := one_le_pow₀ hb1
    have hP4 : (1 + unitRoundoff) ^ (4 * n) ≤ 2 :=
      pow_one_add_unitRoundoff_le_two (4 * n) (by omega)
    have hP41 : 1 ≤ (1 + unitRoundoff) ^ (4 * n) := one_le_pow₀ hb1
    have hQ40 : 0 < (1 - unitRoundoff) ^ (4 * n) := pow_pos ha0 _
    have hQ41 : (1 - unitRoundoff) ^ (4 * n) ≤ 1 := pow_le_one₀ (le_of_lt ha0) ha1
    have e4 : 4 * (n + 1) = 4 * n + 4 := by ring
    rw [forLoop_succ, hrun, Option.some_bind, hstep n (sv, sc) hnM]
    by_cases hP : P n
    · rw [if_pos hP]
      obtain ⟨hc1, hc2⟩ := hc n hnM hP
      obtain ⟨hv1, hv2⟩ := hv n hnM hP
      have hS : (n : ℚ) * 2 ^ (20 : Int) * (1 + unitRoundoff) ^ n ≤ 2 ^ (37 : Int) := by
        have h1 : (n : ℚ) * 2 ^ (20 : Int) ≤ 65536 * 2 ^ (20 : Int) :=
          mul_le_mul_of_nonneg_right hnq (by positivity)
        have h2 : (n : ℚ) * 2 ^ (20 : Int) * (1 + unitRoundoff) ^ n
            ≤ 65536 * 2 ^ (20 : Int) * 2 :=
          mul_le_mul h1 hPn (le_trans zero_le_one hPn1) (by positivity)
        refine le_trans h2 ?_
        norm_num
      have hH : hi * (1 + unitRoundoff) ^ (4 * n) ≤ 2 ^ (65 : Int) := by
        have : hi * (1 + unitRoundoff) ^ (4 * n) ≤ 2 ^ (64 : Int) * 2 :=
          mul_le_mul hhi hP4 (le_trans zero_le_one hP41) (by positivity)
        refine le_trans this ?_
        norm_num
      obtain ⟨sv2, sc2, hacc, hsc2, hsc2S, hl, hu⟩ :=
        accumulateTap32_bounds sv sc (c n) (v n) (lo * (1 - unitRoundoff) ^ (4 * n))
          (hi * (1 + unitRoundoff) ^ (4 * n))
          ((n : ℚ) * 2 ^ (20 : Int) * (1 + unitRoundoff) ^ n) lo hi (2 ^ (-20 : Int))
          (2 ^ (20 : Int)) hc1 hc2 hv1 hv2 (by norm_num)
          (by
            have : (2 : ℚ) ^ (-125 : Int) ≤ 2 ^ (-20 : Int) * 2 ^ (-64 : Int) := by norm_num
            exact le_trans this (mul_le_mul_of_nonneg_left hlo (by positivity)))
          hlo0 (le_of_lt (mul_pos hlo0 hQ40))
          (by
            calc lo * (1 - unitRoundoff) ^ (4 * n) ≤ lo * 1 :=
                  mul_le_mul_of_nonneg_left hQ41 (le_of_lt hlo0)
              _ = lo := mul_one _)
          (by
            calc hi = hi * 1 := (mul_one _).symm
              _ ≤ hi * (1 + unitRoundoff) ^ (4 * n) :=
                  mul_le_mul_of_nonneg_left hP41 (le_of_lt hhi0))
          hsc0 hscS hsv1 hsv2
          (by
            have : (2 : ℚ) ^ (37 : Int) + 2 ^ (20 : Int) ≤ 2 ^ (127 : Int) := by norm_num
            linarith)
          (by
            have h1 : hi * (1 + unitRoundoff) ^ (4 * n)
                * ((n : ℚ) * 2 ^ (20 : Int) * (1 + unitRoundoff) ^ n)
                ≤ 2 ^ (65 : Int) * 2 ^ (37 : Int) :=
              mul_le_mul hH hS
                (mul_nonneg (mul_nonneg hnq0 (by positivity)) (le_trans zero_le_one hPn1))
                (by positivity)
            have h2 : (2 : ℚ) ^ (20 : Int) * hi * 2 ≤ 2 ^ (20 : Int) * 2 ^ (64 : Int) * 2 :=
              mul_le_mul_of_nonneg_right
                (mul_le_mul_of_nonneg_left hhi (by positivity)) (by norm_num)
            have h3 : (2 : ℚ) ^ (65 : Int) * 2 ^ (37 : Int) + 2 ^ (20 : Int) * 2 ^ (64 : Int) * 2
                ≤ 2 ^ (127 : Int) := by norm_num
            linarith)
      refine ⟨sv2, sc2, hacc, le_of_lt hsc2, ?_, ?_, ?_,
        ⟨fun _ => ⟨n, by omega, hP⟩, fun _ => hsc2⟩⟩
      · refine le_trans hsc2S ?_
        push_cast
        have : (n : ℚ) * 2 ^ (20 : Int) * (1 + unitRoundoff) ^ n + 2 ^ (20 : Int)
            ≤ ((n : ℚ) + 1) * 2 ^ (20 : Int) * (1 + unitRoundoff) ^ n := by
          have : (2 : ℚ) ^ (20 : Int) ≤ 2 ^ (20 : Int) * (1 + unitRoundoff) ^ n := by
            calc (2 : ℚ) ^ (20 : Int) = 2 ^ (20 : Int) * 1 := (mul_one _).symm
              _ ≤ 2 ^ (20 : Int) * (1 + unitRoundoff) ^ n :=
                  mul_le_mul_of_nonneg_left hPn1 (by positivity)
          have e : ((n : ℚ) + 1) * 2 ^ (20 : Int) * (1 + unitRoundoff) ^ n
              = (n : ℚ) * 2 ^ (20 : Int) * (1 + unitRoundoff) ^ n
                + 2 ^ (20 : Int) * (1 + unitRoundoff) ^ n := by ring
          rw [e]
          linarith
        calc ((n : ℚ) * 2 ^ (20 : Int) * (1 + unitRoundoff) ^ n + 2 ^ (20 : Int))
              * (1 + unitRoundoff)
            ≤ ((n : ℚ) + 1) * 2 ^ (20 : Int) * (1 + unitRoundoff) ^ n * (1 + unitRoundoff) :=
              mul_le_mul_of_nonneg_right this (le_of_lt hb0)
          _ = ((n : ℚ) + 1) * 2 ^ (20 : Int) * (1 + unitRoundoff) ^ (n + 1) := by
              rw [pow_succ]
              ring
      · rw [e4, pow_add, ← mul_assoc]
        exact hl
      · rw [e4, pow_add, ← mul_assoc]
        exact hu
    · rw [if_neg hP]
      refine ⟨sv, sc, rfl, hsc0, ?_, ?_, ?_, hiff.trans
        ⟨fun ⟨i, hi, h⟩ => ⟨i, by omega, h⟩, fun ⟨i, hi, h⟩ => ⟨i, by
          rcases Nat.lt_succ_iff_lt_or_eq.mp hi with h1 | h1
          · exact h1
          · exact absurd (h1 ▸ h) hP, h⟩⟩⟩
      · refine le_trans hscS ?_
        push_cast
        have h1 : (n : ℚ) * 2 ^ (20 : Int) ≤ ((n : ℚ) + 1) * 2 ^ (20 : Int) :=
          mul_le_mul_of_nonneg_right (by linarith) (by positivity)
        exact mul_le_mul h1 (pow_le_pow_right₀ hb1 (by omega))
          (le_trans zero_le_one hPn1) (by positivity)
      · refine le_trans ?_ hsv1
        refine mul_le_mul_of_nonneg_right ?_ hsc0
        exact mul_le_mul_of_nonneg_left
          (pow_le_pow_of_le_one (le_of_lt ha0) ha1 (by omega)) (le_of_lt hlo0)
      · refine le_trans hsv2 ?_
        refine mul_le_mul_of_nonneg_right ?_ hsc0
        exact mul_le_mul_of_nonneg_left (pow_le_pow_right₀ hb1 (by omega)) (le_of_lt hhi0)

/-- One tap of the binary32 x-pass: the accumulation is performed exactly when the tap is
counted. -/
theorem tapStep32_x_eq (I : Image) (hwf : I.WF) (coeff : List ℚ) (M x y i : Nat)
    (hy : y < I.noDims.y) (hi : i < coeff.length) (acc : ℚ × ℚ) :
    tapStep32_x I.data coeff I.noDims (M / 2) x y i acc =
      if Spec.countedX I M x y i then
        accumulateTap32 acc (coeff.getD i 0) (Spec.sample I (Spec.tapPos M x i).toNat y)
      else some acc := by
  unfold tapStep32_x Spec.countedX
  have ht : (x : Int) + i - ((M / 2 : Nat) : Int) = Spec.tapPos M x i := rfl
  simp only [ht]
  by_cases h0 : Spec.tapPos M x i < 0
  · have : ¬ (0 ≤ Spec.tapPos M x i) := by omega
    simp [h0, this]
  by_cases h1 : Spec.tapPos M x i ≥ I.noDims.x
  · have : ¬ (Spec.tapPos M x i < I.noDims.x) := by omega
    simp [h0, h1, this]
  have h0' : 0 ≤ Spec.tapPos M x i := by omega
  have h1' : Spec.tapPos M x i < I.noDims.x := by omega
  obtain ⟨t, htt⟩ := Int.eq_ofNat_of_zero_le h0'
  have htW : t < I.noDims.x := by omega
  have hidx : y * I.noDims.x + t < I.data.length := by
    have hlen : I.data.length = I.noDims.x * I.noDims.y := hwf
    have : (y + 1) * I.noDims.x ≤ I.noDims.y * I.noDims.x := Nat.mul_le_mul_right _ hy
    have e1 : (y + 1) * I.noDims.x = y * I.noDims.x + I.noDims.x := by ring
    have e2 : I.noDims.y * I.noDims.x = I.noDims.x * I.noDims.y := Nat.mul_comm _ _
    omega
  have hz : (y : Int) * I.noDims.x + x + i - ((M / 2 : Nat) : Int)
      = ((y * I.noDims.x + t : Nat) : Int) := by
    have : Spec.tapPos M x i = (x : Int) + i - ((M / 2 : Nat) : Int) := rfl
    push_cast
    omega
  rw [if_neg h0, if_neg h1, readAt_natCast _ _ _ hz hidx]
  have hs : Spec.sample I (Spec.tapPos M x i).toNat y = I.data.getD (y * I.noDims.x + t) 0 := by
    rw [htt, Int.toNat_ofNat]
    rfl
  simp only [hs, getElem?_eq_getD _ _ hi]
  generalize I.data.getD (y * I.noDims.x + t) 0 = v
  generalize coeff.getD i 0 = c
  by_cases hv : 0 < v
  · simp [h0', h1', hv]
  · simp [h0', h1', hv]

/-- The quotient `sum_v / sum_c` of a pixel, rounded: within `4M + 1` roundings of the
range of the valid samples. -/
theorem pixelQuotient32_bounds (M : Nat) (hM : M ≤ 2 ^ 16) (lo hi sv sc : ℚ)
    (hlo : 2 ^ (-64 : Int) ≤ lo) (hlohi : lo ≤ hi) (hhi : hi ≤ 2 ^ (64 : Int))
    (h1 : lo * (1 - unitRoundoff) ^ (4 * M) * sc ≤ sv)
    (h2 : sv ≤ hi * (1 + unitRoundoff) ^ (4 * M) * sc) :
    ∃ r, (if sc > 0 then div32 sv sc else some 0) = some r ∧
      (0 < r → lo * (1 - unitRoundoff) ^ (4 * M + 1) ≤ r ∧
        r ≤ hi * (1 + unitRoundoff) ^ (4 * M + 1)) ∧ (0 < r ↔ 0 < sc) ∧
      (r = 0 ∨ 0 < r) := by
  have hlo0 : 0 < lo := lt_of_lt_of_le (zpow_pos (by norm_num) _) hlo
  have hhi0 : 0 < hi := lt_of_lt_of_le hlo0 hlohi
  have ha0 := one_sub_unitRoundoff_pos
  have hb1 := one_le_one_add_unitRoundoff
  have hb0 := one_add_unitRoundoff_pos
  by_cases hsc : sc > 0
  · rw [if_pos hsc]
    have hP4 : (1 + unitRoundoff) ^ (4 * M) ≤ 2 :=
      pow_one_add_unitRoundoff_le_two (4 * M) (by omega)
    have hQ4 : 1 / 2 ≤ (1 - unitRoundoff) ^ (4 * M) :=
      half_le_pow_one_sub_unitRoundoff (4 * M) (by omega)
    have q1 : lo * (1 - unitRoundoff) ^ (4 * M) ≤ sv / sc := by
      rw [le_div_iff₀ hsc]
      exact h1
    have q2 : sv / sc ≤ hi * (1 + unitRoundoff) ^ (4 * M) := by
      rw [div_le_iff₀ hsc]
      exact h2
    have hq1 : 2 ^ (-126 : Int) ≤ sv / sc := by
      refine le_trans ?_ q1
      have e : (2 : ℚ) ^ (-126 : Int) ≤ 2 ^ (-64 : Int) * (1 / 2) := by norm_num
      exact le_trans e (mul_le_mul hlo hQ4 (by norm_num) (le_of_lt hlo0))
    have hq2 : sv / sc ≤ 2 ^ (127 : Int) := by
      refine le_trans q2 ?_
      have e : (2 : ℚ) ^ (64 : Int) * 2 ≤ 2 ^ (127 : Int) := by norm_num
      exact le_trans (mul_le_mul hhi hP4 (le_trans zero_le_one (one_le_pow₀ hb1))
        (by positivity)) e
    obtain ⟨r, hr, hr1, hr2⟩ := round32_pos _ hq1 hq2
    have hrpos : 0 < r :=
      lt_of_lt_of_le (mul_pos (lt_of_lt_of_le (zpow_pos (by norm_num) _) hq1) ha0) hr1
    refine ⟨r, hr, fun _ => ⟨?_, ?_⟩, ⟨fun _ => hsc, fun _ => hrpos⟩, Or.inr hrpos⟩
    · calc lo * (1 - unitRoundoff) ^ (4 * M + 1)
          = lo * (1 - unitRoundoff) ^ (4 * M) * (1 - unitRoundoff) := by
            rw [pow_succ]
            ring
        _ ≤ sv / sc * (1 - unitRoundoff) := mul_le_mul_of_nonneg_right q1 (le_of_lt ha0)
        _ ≤ r := hr1
    · calc r ≤ sv / sc * (1 + unitRoundoff) := hr2
        _ ≤ hi * (1 + unitRoundoff) ^ (4 * M) * (1 + unitRoundoff) :=
            mul_le_mul_of_nonneg_right q2 (le_of_lt hb0)
        _ = hi * (1 + unitRoundoff) ^ (4 * M + 1) := by
            rw [pow_succ]
            ring
  · rw [if_neg hsc]
    exact ⟨0, rfl, fun h => absurd h (lt_irrefl _),
      ⟨fun h => absurd h (lt_irrefl _), fun h => absurd h hsc⟩, Or.inl rfl⟩

/-- A pixel of the binary32 x-pass is defined and, when positive, within `4M + 1`
roundings of the range of the input's valid samples. -/
theorem separablePixel32_x_bounds (I : Image) (hwf : I.WF) (coeff : List ℚ) (M x y : Nat)
    (hy : y < I.noDims.y) (hMc : M ≤ coeff.length) (hM : M ≤ 2 ^ 16) (lo hi : ℚ)
    (hlo : 2 ^ (-64 : Int) ≤ lo) (hlohi : lo ≤ hi) (hhi : hi ≤ 2 ^ (64 : Int))
    (hc : ∀ i, i < M → 2 ^ (-20 : Int) ≤ coeff.getD i 0 ∧ coeff.getD i 0 ≤ 2 ^ (20 : Int))
    (hb : ∀ s ∈ I.data, 0 < s → lo ≤ s ∧ s ≤ hi) :
    ∃ r, separablePixel32_x I.data coeff I.noDims M x y = some r ∧
      (0 < r → lo * (1 - unitRoundoff) ^ (4 * M + 1) ≤ r ∧
        r ≤ hi * (1 + unitRoundoff) ^ (4 * M + 1)) ∧
      (0 < r ↔ ∃ i, i < M ∧ Spec.countedX I M x y i) ∧ (r = 0 ∨ 0 < r) := by
  obtain ⟨sv, sc, hrun, _, _, h1, h2, hiff⟩ :=
    tapLoop32_bounds M (tapStep32_x I.data coeff I.noDims (M / 2) x y)
      (fun i => Spec.countedX I M x y i) (fun i => coeff.getD i 0)
      (fun i => Spec.sample I (Spec.tapPos M x i).toNat y)
      (fun i acc hi => tapStep32_x_eq I hwf coeff M x y i hy (by omega) acc)
      lo hi hlo hlohi hhi (fun i hi _ => hc i hi)
      (fun i _ hP => hb _ (sample_mem_of_pos I _ _ hP.2.2) hP.2.2) hM M le_rfl
  obtain ⟨r, hr, hrb, hrpos, hr0⟩ :=
    pixelQuotient32_bounds M hM lo hi sv sc hlo hlohi hhi h1 h2
  refine ⟨r, ?_, hrb, hrpos.trans hiff, hr0⟩
  unfold separablePixel32_x
  simp only [hrun, Option.bind_eq_bind, Option.some_bind, Option.pure_def]
  exact hr

/-- The binary32 x-pass is defined and keeps every positive output sample within `4M + 1`
roundings of the range of the input's valid samples. -/
theorem filterSeparable32_x_bounds (input output : Image) (M : Nat) (coeff : List ℚ)
    (hwf : input.WF) (hMc : M ≤ coeff.length) (hM : M ≤ 2 ^ 16) (lo hi : ℚ)
    (hlo : 2 ^ (-64 : Int) ≤ lo) (hlohi : lo ≤ hi) (hhi : hi ≤ 2 ^ (64 : Int))
    (hc : ∀ i, i < M → 2 ^ (-20 : Int) ≤ coeff.getD i 0 ∧ coeff.getD i 0 ≤ 2 ^ (20 : Int))
    (hb : ∀ s ∈ input.data, 0 < s → lo ≤ s ∧ s ≤ hi) :
    ∃ out, filterSeparable32_x input output M coeff = some out ∧ out.WF ∧
      out.noDims = input.noDims ∧
      ∀ v ∈ out.data, 0 < v →
        lo * (1 - unitRoundoff) ^ (4 * M + 1) ≤ v ∧
          v ≤ hi * (1 + unitRoundoff) ^ (4 * M + 1) := by
  have hpix : ∀ x y, x < input.noDims.x → y < input.noDims.y →
      separablePixel32_x input.data coeff input.noDims M x y
        = some ((separablePixel32_x input.data coeff input.noDims M x y).getD 0) := by
    intro x y _ hy
    obtain ⟨r, hr, _⟩ := separablePixel32_x_bounds input hwf coeff M x y hy hMc hM lo hi hlo
      hlohi hhi hc hb
    rw [hr]
    rfl
  refine ⟨Spec.tabulate input.noDims
    (fun x y => (separablePixel32_x input.data coeff input.noDims M x y).getD 0), ?_,
    tabulate_WF _ _, rfl, ?_⟩
  · unfold filterSeparable32_x
    exact pixelLoops_eq input.noDims
      (fun x y => separablePixel32_x input.data coeff input.noDims M x y)
      (fun x y => (separablePixel32_x input.data coeff input.noDims M x y).getD 0)
      (fun x y => y * input.noDims.x + x) (fun _ _ => rfl) hpix output
  · intro v hv hpos
    obtain ⟨x, y, _, hy, rfl⟩ := mem_tabulate _ _ v hv
    obtain ⟨r, hr, hrb, _⟩ := separablePixel32_x_bounds input hwf coeff M x y hy hMc hM lo
      hi hlo hlohi hhi hc hb
    rw [hr] at hpos ⊢
    exact hrb hpos

/-- One tap of the binary32 y-pass: the accumulation is performed exactly when the tap is
counted. -/
theorem tapStep32_y_eq (I : Image) (hwf : I.WF) (coeff : List ℚ) (M x y i : Nat)
    (hx : x < I.noDims.x) (hi : i < coeff.length) (acc : ℚ × ℚ) :
    tapStep32_y I.data coeff I.noDims (M / 2) x y i acc =
      if Spec.countedY I M x y i then
        accumulateTap32 acc (coeff.getD i 0) (Spec.sample I x (Spec.tapPos M y i).toNat)
      else some acc := by
  unfold tapStep32_y Spec.countedY
  have ht : (y : Int) + i - ((M / 2 : Nat) : Int) = Spec.tapPos M y i := rfl
  simp only [ht]
  by_cases h0 : Spec.tapPos M y i < 0
  · have : ¬ (0 ≤ Spec.tapPos M y i) := by omega
    simp [h0, this]
  by_cases h1 : Spec.tapPos M y i ≥ I.noDims.y
  · have : ¬ (Spec.tapPos M y i < I.noDims.y) := by omega
    simp [h0, h1, this]
  have h0' : 0 ≤ Spec.tapPos M y i := by omega
  have h1' : Spec.tapPos M y i < I.noDims.y := by omega
  obtain ⟨t, htt⟩ := Int.eq_ofNat_of_zero_le h0'
  have htH : t < I.noDims.y := by omega
  have hidx : t * I.noDims.x + x < I.data.length := by
    have hlen : I.data.length = I.noDims.x * I.noDims.y := hwf
    have : (t + 1) * I.noDims.x ≤ I.noDims.y * I.noDims.x := Nat.mul_le_mul_right _ htH
    have e1 : (t + 1) * I.noDims.x = t * I.noDims.x + I.noDims.x := by ring
    have e2 : I.noDims.y * I.noDims.x = I.noDims.x * I.noDims.y := Nat.mul_comm _ _
    omega
  have hz : Spec.tapPos M y i * I.noDims.x + x = ((t * I.noDims.x + x : Nat) : Int) := by
    rw [htt]
    push_cast
    rfl
  rw [if_neg h0, if_neg h1, readAt_natCast _ _ _ hz hidx]
  have hs : Spec.sample I x (Spec.tapPos M y i).toNat = I.data.getD (t * I.noDims.x + x) 0 := by
    rw [htt, Int.toNat_ofNat]
    rfl
  simp only [hs, getElem?_eq_getD _ _ hi]
  generalize I.data.getD (t * I.noDims.x + x) 0 = v
  generalize coeff.getD i 0 = c
  by_cases hv : 0 < v
  · simp [h0', h1', hv]
  · simp [h0', h1', hv]

/-- A pixel of the binary32 y-pass is defined and, when positive, within `4M + 1`
roundings of the range of the input's valid samples. -/
theorem separablePixel32_y_bounds (I : Image) (hwf : I.WF) (coeff : List ℚ) (M x y : Nat)
    (hx : x < I.noDims.x) (hMc : M ≤ coeff.length) (hM : M ≤ 2 ^ 16) (lo hi : ℚ)
    (hlo : 2 ^ (-64 : Int) ≤ lo) (hlohi : lo ≤ hi) (hhi : hi ≤ 2 ^ (64 : Int))
    (hc : ∀ i, i < M → 2 ^ (-20 : Int) ≤ coeff.getD i 0 ∧ coeff.getD i 0 ≤ 2 ^ (20 : Int))
    (hb : ∀ s ∈ I.data, 0 < s → lo ≤ s ∧ s ≤ hi) :
    ∃ r, separablePixel32_y I.data coeff I.noDims M x y = some r ∧
      (0 < r → lo * (1 - unitRoundoff) ^ (4 * M + 1) ≤ r ∧
        r ≤ hi * (1 + unitRoundoff) ^ (4 * M + 1)) ∧
      (0 < r ↔ ∃ i, i < M ∧ Spec.countedY I M x y i) ∧ (r = 0 ∨ 0 < r) := by
  obtain ⟨sv, sc, hrun, _, _, h1, h2, hiff⟩ :=
    tapLoop32_bounds M (tapStep32_y I.data coeff I.noDims (M / 2) x y)
      (fun i => Spec.countedY I M x y i) (fun i => coeff.getD i 0)
      (fun i => Spec.sample I x (Spec.tapPos M y i).toNat)
      (fun i acc hi => tapStep32_y_eq I hwf coeff M x y i hx (by omega) acc)
      lo hi hlo hlohi hhi (fun i hi _ => hc i hi)
      (fun i _ hP => hb _ (sample_mem_of_pos I _ _ hP.2.2) hP.2.2) hM M le_rfl
  obtain ⟨r, hr, hrb, hrpos, hr0⟩ :=
    pixelQuotient32_bounds M hM lo hi sv sc hlo hlohi hhi h1 h2
  refine ⟨r, ?_, hrb, hrpos.trans hiff, hr0⟩
  unfold separablePixel32_y
  simp only [hrun, Option.bind_eq_bind, Option.some_bind, Option.pure_def]
  exact hr

/-- The binary32 y-pass is defined and keeps every positive output sample within `4M + 1`
roundings of the range of the input's valid samples. -/
theorem filterSeparable32_y_bounds (input output : Image) (M : Nat) (coeff : List ℚ)
    (hwf : input.WF) (hMc : M ≤ coeff.length) (hM : M ≤ 2 ^ 16) (lo hi : ℚ)
    (hlo : 2 ^ (-64 : Int) ≤ lo) (hlohi : lo ≤ hi) (hhi : hi ≤ 2 ^ (64 : Int))
    (hc : ∀ i, i < M → 2 ^ (-20 : Int) ≤ coeff.getD i 0 ∧ coeff.getD i 0 ≤ 2 ^ (20 : Int))
    (hb : ∀ s ∈ input.data, 0 < s → lo ≤ s ∧ s ≤ hi) :
    ∃ out, filterSeparable32_y input output M coeff = some out ∧ out.WF ∧
      out.noDims = input.noDims ∧
      ∀ v ∈ out.data, 0 < v →
        lo * (1 - unitRoundoff) ^ (4 * M + 1) ≤ v ∧
          v ≤ hi * (1 + unitRoundoff) ^ (4 * M + 1) := by
  have hpix : ∀ x y, x < input.noDims.x → y < input.noDims.y →
      separablePixel32_y input.data coeff input.noDims M x y
        = some ((separablePixel32_y input.data coeff input.noDims M x y).getD 0) := by
    intro x y hx _
    obtain ⟨r, hr, _⟩ := separablePixel32_y_bounds input hwf coeff M x y hx hMc hM lo hi hlo
      hlohi hhi hc hb
    rw [hr]
    rfl
  refine ⟨Spec.tabulate input.noDims
    (fun x y => (separablePixel32_y input.data coeff input.noDims M x y).getD 0), ?_,
    tabulate_WF _ _, rfl, ?_⟩
  · unfold filterSeparable32_y
    exact pixelLoops_eq input.noDims
      (fun x y => separablePixel32_y input.data coeff input.noDims M x y)
      (fun x y => (separablePixel32_y input.data coeff input.noDims M x y).getD 0)
      (fun x y => y * input.noDims.x + x) (fun _ _ => rfl) hpix output
  · intro v hv hpos
    obtain ⟨x, y, hx, _, rfl⟩ := mem_tabulate _ _ v hv
    obtain ⟨r, hr, hrb, _⟩ := separablePixel32_y_bounds input hwf coeff M x y hx hMc hM lo
      hi hlo hlohi hhi hc hb
    rw [hr] at hpos ⊢
    exact hrb hpos

/-- The function `filterSubsample32` is defined and keeps every positive output sample
within five roundings of the range of the input's valid samples. -/
theorem filterSubsample32_bounds (input output : Image) (hwf : input.WF) (lo hi : ℚ)
    (hlo : 2 ^ (-125 : Int) ≤ lo) (hhi : hi ≤ 2 ^ (124 : Int))
    (hb : ∀ s ∈ input.data, 0 < s → lo ≤ s ∧ s ≤ hi) :
    ∃ out, filterSubsample32 input output = some out ∧ out.WF ∧
      out.noDims = ⟨input.noDims.x / 2, input.noDims.y / 2⟩ ∧
      ∀ v ∈ out.data, 0 < v →
        lo * (1 - unitRoundoff) ^ 5 ≤ v ∧ v ≤ hi * (1 + unitRoundoff) ^ 5 := by
  have hblock : ∀ x y, ∃ r, Spec.meanValid32 (Spec.block input x y) = some r ∧
      (0 < r → lo * (1 - unitRoundoff) ^ 5 ≤ r ∧ r ≤ hi * (1 + unitRoundoff) ^ 5) :=
    fun x y => meanValid32_bounds (Spec.block input x y) lo hi hlo hhi
      (fun s hs hpos => hb s (block_mem_of_pos input x y s hs hpos) hpos)
      (by simp [Spec.block])
  refine ⟨Spec.tabulate ⟨input.noDims.x / 2, input.noDims.y / 2⟩
    (fun x y => (Spec.meanValid32 (Spec.block input x y)).getD 0), ?_, tabulate_WF _ _,
    rfl, ?_⟩
  · refine filterSubsample32_eq input output hwf _ fun x y _ _ => ?_
    obtain ⟨r, hr, _⟩ := hblock x y
    rw [hr]
    rfl
  · intro v hv hpos
    obtain ⟨x, y, _, _, rfl⟩ := mem_tabulate _ _ v hv
    obtain ⟨r, hr, hrb⟩ := hblock x y
    rw [hr] at hpos ⊢
    exact hrb hpos

/-! ## Binary32 Gaussian and pipeline -/

theorem forLoop_congr {σ : Type} (n : Nat) (body body2 : Nat → σ → Option σ)
    (h : ∀ i s, i < n → body i s = body2 i s) (s : σ) :
    forLoop n body s = forLoop n body2 s := by
  induction n with
  | zero => rfl
  | succ n ih =>
    rw [forLoop_succ, forLoop_succ, ih fun i s hi => h i s (by omega)]
    congr 1
    funext t
    exact h n t (by omega)

/-- The range `[lo (1 - 2^-24)^k, hi (1 + 2^-24)^k]` stays far from underflow and
overflow for up to `2^20` roundings. -/
theorem scaled_range (lo hi : ℚ) (hlo : 2 ^ (-60 : Int) ≤ lo) (hlohi : lo ≤ hi)
    (hhi : hi ≤ 2 ^ (60 : Int)) (k : Nat) (hk : k ≤ 2 ^ 20) :
    2 ^ (-64 : Int) ≤ lo * (1 - unitRoundoff) ^ k ∧
    lo * (1 - unitRoundoff) ^ k ≤ hi * (1 + unitRoundoff) ^ k ∧
    hi * (1 + unitRoundoff) ^ k ≤ 2 ^ (64 : Int) ∧
    2 ^ (-125 : Int) ≤ lo * (1 - unitRoundoff) ^ k ∧
    hi * (1 + unitRoundoff) ^ k ≤ 2 ^ (124 : Int) := by
  have hlo0 : 0 < lo := lt_of_lt_of_le (zpow_pos (by norm_num) _) hlo
  have hhi0 : 0 < hi := lt_of_lt_of_le hlo0 hlohi
  have hQ := half_le_pow_one_sub_unitRoundoff k hk
  have hQ1 : (1 - unitRoundoff) ^ k ≤ 1 :=
    pow_le_one₀ (le_of_lt one_sub_unitRoundoff_pos) one_sub_unitRoundoff_le
  have hP := pow_one_add_unitRoundoff_le_two k hk
  have hP1 : 1 ≤ (1 + unitRoundoff) ^ k := one_le_pow₀ one_le_one_add_unitRoundoff
  have h1 : (2 : ℚ) ^ (-60 : Int) * (1 / 2) ≤ lo * (1 - unitRoundoff) ^ k :=
    mul_le_mul hlo hQ (by norm_num) (le_of_lt hlo0)
  have h2 : hi * (1 + unitRoundoff) ^ k ≤ 2 ^ (60 : Int) * 2 :=
    mul_le_mul hhi hP (le_trans zero_le_one hP1) (by positivity)
  have h3 : lo * (1 - unitRoundoff) ^ k ≤ lo * 1 :=
    mul_le_mul_of_nonneg_left hQ1 (le_of_lt hlo0)
  have h4 : hi * 1 ≤ hi * (1 + unitRoundoff) ^ k :=
    mul_le_mul_of_nonneg_left hP1 (le_of_lt hhi0)
  have e1 : (2 : ℚ) ^ (-64 : Int) ≤ 2 ^ (-60 : Int) * (1 / 2) := by norm_num
  have e2 : (2 : ℚ) ^ (60 : Int) * 2 ≤ 2 ^ (64 : Int) := by norm_num
  have e3 : (2 : ℚ) ^ (-125 : Int) ≤ 2 ^ (-60 : Int) * (1 / 2) := by norm_num
  have e4 : (2 : ℚ) ^ (60 : Int) * 2 ≤ 2 ^ (124 : Int) := by norm_num
  rw [mul_one] at h3 h4
  exact ⟨le_trans e1 h1, le_trans h3 (le_trans hlohi h4), le_trans h2 e2, le_trans e3 h1,
    le_trans h2 e4⟩

/-- Rounding of a value of `[-11/2, 0]` that is zero or not tiny stays in `[-6, 0]`. -/
theorem round32_exponent (q : ℚ) (h1 : -(11 / 2) ≤ q) (h2 : q = 0 ∨ q ≤ -(2 / 25)) :
    ∃ r, round32 q = some r ∧ -6 ≤ r ∧ r ≤ 0 := by
  rcases h2 with h2 | h2
  · subst h2
    refine ⟨0, ?_, by norm_num, le_refl _⟩
    have := round32_exact 0 0 (by norm_num) (by norm_num) (by norm_num)
    simpa using this
  · have habs : |q| = -q := abs_of_nonpos (by linarith)
    obtain ⟨r, hr, herr⟩ := round32_relative q
      (by
        rw [habs]
        have : (2 : ℚ) ^ (-126 : Int) ≤ 2 / 25 := by norm_num
        exact le_trans this (by linarith))
      (by
        rw [habs]
        have : (11 / 2 : ℚ) ≤ 2 ^ (127 : Int) := by norm_num
        exact le_trans (by linarith) this)
    rw [habs, abs_le] at herr
    refine ⟨r, hr, ?_, ?_⟩
    · have : -q / 2 ^ 24 ≤ (11 / 2) / 2 ^ 24 :=
        div_le_div_of_nonneg_right (by linarith) (by positivity)
      have e : (11 / 2 : ℚ) / 2 ^ 24 ≤ 1 / 2 := by norm_num
      linarith
    · have : -q / 2 ^ 24 ≤ -q := by
        rw [div_le_iff₀ (by positivity)]
        have : (1 : ℚ) ≤ 2 ^ 24 := by norm_num
        nlinarith
      linarith

theorem gaussianFilterSize32_pipeline : gaussianFilterSize32 (5 / 2) = some 17 := by
  have hr : round32 (7 * (5 / 2)) = some (35 / 2) := by
    have := round32_exact 35 (-1) (by norm_num) (by norm_num) (by norm_num)
    norm_num at this ⊢
    exact this
  have hf : ⌊(35 / 2 : ℚ)⌋ = 17 := by
    rw [Int.floor_eq_iff]
    constructor <;> norm_num
  rw [gaussianFilterSize32_eq _ (35 / 2) (by norm_num) hr (by norm_num), hf]
  rfl

/-- The mask of the pipeline in binary32: for a function `expf` with values in
`[2^-19, 1]` on `[-6, 0]`, the 17 coefficients at `σ = 2.5` are defined and lie in
`[2^-20, 2^20]`. -/
theorem createGaussianFilter32_pipeline (expf : ℚ → ℚ)
    (hexp : ∀ t, -6 ≤ t → t ≤ 0 → 2 ^ (-19 : Int) ≤ expf t ∧ expf t ≤ 1) :
    ∃ coeff, createGaussianFilter32 expf 17 (5 / 2) (List.replicate 17 0) = some coeff ∧
      coeff.length = 17 ∧
      ∀ i, i < 17 → 2 ^ (-20 : Int) ≤ coeff.getD i 0 ∧ coeff.getD i 0 ≤ 2 ^ (20 : Int) := by
  have hd : mul32 2 (5 / 2) = some 5 := by
    have := round32_exact 5 0 (by norm_num) (by norm_num) (by norm_num)
    unfold mul32
    norm_num at this ⊢
    exact this
  have hden : mul32 5 (5 / 2) = some (25 / 2) := by
    have := round32_exact 25 (-1) (by norm_num) (by norm_num) (by norm_num)
    unfold mul32
    norm_num at this ⊢
    exact this
  have hbody : ∀ i : Nat, i < 17 → ∃ c,
      ((round32 ((-((i : Int) - ((17 / 2 : Nat) : Int)) * ((i : Int) - ((17 / 2 : Nat) : Int))
          : Int) : ℚ)).bind fun num =>
        (div32 num (25 / 2)).bind fun arg => round32 (expf arg)) = some c ∧
      2 ^ (-20 : Int) ≤ c ∧ c ≤ 2 ^ (20 : Int) := by
    intro i hi
    obtain ⟨n, hn0, hn64, hn01, hcode⟩ : ∃ n : Int, 0 ≤ n ∧ n ≤ 64 ∧ (n = 0 ∨ 1 ≤ n) ∧
        -((i : Int) - ((17 / 2 : Nat) : Int)) * ((i : Int) - ((17 / 2 : Nat) : Int)) = -n := by
      have h8 : ((17 / 2 : Nat) : Int) = 8 := by norm_num
      have hi0 : (0 : Int) ≤ i := Int.natCast_nonneg i
      have hi17 : (i : Int) < 17 := by exact_mod_cast hi
      refine ⟨((i : Int) - 8) * ((i : Int) - 8), mul_self_nonneg _, by nlinarith, ?_, ?_⟩
      · by_cases h : (i : Int) = 8
        · left
          rw [h]
          norm_num
        · right
          have : (i : Int) - 8 ≤ -1 ∨ 1 ≤ (i : Int) - 8 := by omega
          rcases this with h1 | h1 <;> nlinarith
      · rw [h8]
        ring
    rw [hcode]
    have hnq0 : (0 : ℚ) ≤ n := by exact_mod_cast hn0
    have hnq64 : (n : ℚ) ≤ 64 := by exact_mod_cast hn64
    have hnum : round32 ((-n : Int) : ℚ) = some ((-n : Int) : ℚ) := by
      have := round32_exact (-n) 0 (by rw [abs_lt]; constructor <;> omega) (by norm_num)
        (by norm_num)
      simpa using this
    obtain ⟨arg, harg, ha1, ha2⟩ := round32_exponent (((-n : Int) : ℚ) / (25 / 2))
      (by
        push_cast
        rw [le_div_iff₀ (by norm_num)]
        linarith)
      (by
        rcases hn01 with h | h
        · left
          rw [h]
          norm_num
        · right
          have : (1 : ℚ) ≤ n := by exact_mod_cast h
          push_cast
          rw [div_le_iff₀ (by norm_num)]
          linarith)
    obtain ⟨he1, he2⟩ := hexp arg ha1 ha2
    obtain ⟨c, hc, hc1, hc2⟩ := round32_pos (expf arg)
      (le_trans (by norm_num) he1) (le_trans he2 (by norm_num))
    obtain ⟨_, _, hhalf, htwo⟩ := unitRoundoff_sandwich
    have hpos : 0 < expf arg := lt_of_lt_of_le (zpow_pos (by norm_num) _) he1
    refine ⟨c, ?_, ?_, ?_⟩
    · rw [hnum, Option.some_bind]
      unfold div32
      rw [harg, Option.some_bind, hc]
    · have e : (2 : ℚ) ^ (-20 : Int) = 2 ^ (-19 : Int) * (1 / 2) := by norm_num
      rw [e]
      exact le_trans (mul_le_mul he1 hhalf (by norm_num) (le_of_lt hpos)) hc1
    · have e : (1 : ℚ) * 2 ≤ 2 ^ (20 : Int) := by norm_num
      exact le_trans hc2 (le_trans (mul_le_mul he2 htwo
        (le_of_lt one_add_unitRoundoff_pos) (by norm_num)) e)
  have hbody2 : ∀ (i : Nat) (coeff : List ℚ), i < 17 →
      (do
        let num ← round32 ((-((i : Int) - ((17 / 2 : Nat) : Int))
          * ((i : Int) - ((17 / 2 : Nat) : Int)) : Int) : ℚ)
        let d ← mul32 2 (5 / 2)
        let den ← mul32 d (5 / 2)
        if den = 0 then none
        else
          let arg ← div32 num den
          let c ← round32 (expf arg)
          writeAt coeff i c)
      = writeAt coeff i
        (((round32 ((-((i : Int) - ((17 / 2 : Nat) : Int))
            * ((i : Int) - ((17 / 2 : Nat) : Int)) : Int) : ℚ)).bind fun num =>
          (div32 num (25 / 2)).bind fun arg => round32 (expf arg)).getD 0) := by
    intro i coeff hi
    obtain ⟨c, hc, _⟩ := hbody i hi
    rw [hc]
    have hne : ¬ ((25 / 2 : ℚ) = 0) := by norm_num
    simp only [hd, hden, Option.bind_eq_bind, Option.some_bind, if_neg hne]
    cases hnum : round32 ((-((i : Int) - ((17 / 2 : Nat) : Int))
        * ((i : Int) - ((17 / 2 : Nat) : Int)) : Int) : ℚ) with
    | none => rw [hnum] at hc; simp at hc
    | some num =>
      rw [hnum, Option.some_bind] at hc
      rw [Option.some_bind]
      cases harg : div32 num (25 / 2) with
      | none => rw [harg] at hc; simp at hc
      | some arg =>
        rw [harg, Option.some_bind] at hc
        rw [Option.some_bind, hc, Option.some_bind]
        rfl
  unfold createGaussianFilter32
  rw [forLoop_congr 17 _ _ (fun i coeff hi => hbody2 i coeff hi)]
  obtain ⟨out, hrun, hl, hget⟩ := forLoop_fill
    (fun i : Nat => ((round32 ((-((i : Int) - ((17 / 2 : Nat) : Int))
            * ((i : Int) - ((17 / 2 : Nat) : Int)) : Int) : ℚ)).bind fun num =>
          (div32 num (25 / 2)).bind fun arg => round32 (expf arg)).getD 0)
    (List.replicate 17 0) 17 (by simp)
  refine ⟨out, hrun, by simpa using hl, fun i hi => ?_⟩
  have hgi := hget i
  obtain ⟨c, hc, hc1, hc2⟩ := hbody i hi
  rw [if_pos hi, hc] at hgi
  have hci : out.getD i 0 = c := by
    rw [List.getD_eq_getElem?_getD, hgi]
    rfl
  rw [hci]
  exact ⟨hc1, hc2⟩

/-- One binary32 subsampling moves the range of the valid samples by five roundings. -/
theorem filterSubsample32_scaled (input output : Image) (hwf : input.WF) (lo hi : ℚ)
    (hlo : 2 ^ (-60 : Int) ≤ lo) (hlohi : lo ≤ hi) (hhi : hi ≤ 2 ^ (60 : Int)) (k : Nat)
    (hk : k ≤ 2 ^ 20)
    (hb : ∀ s ∈ input.data, 0 < s →
      lo * (1 - unitRoundoff) ^ k ≤ s ∧ s ≤ hi * (1 + unitRoundoff) ^ k) :
    ∃ out, filterSubsample32 input output = some out ∧ out.WF ∧
      out.noDims = ⟨input.noDims.x / 2, input.noDims.y / 2⟩ ∧
      ∀ v ∈ out.data, 0 < v →
        lo * (1 - unitRoundoff) ^ (k + 5) ≤ v ∧ v ≤ hi * (1 + unitRoundoff) ^ (k + 5) := by
  obtain ⟨_, _, _, h4, h5⟩ := scaled_range lo hi hlo hlohi hhi k hk
  obtain ⟨out, hout, hwf2, hdims, hbound⟩ := filterSubsample32_bounds input output hwf
    (lo * (1 - unitRoundoff) ^ k) (hi * (1 + unitRoundoff) ^ k) h4 h5 hb
  refine ⟨out, hout, hwf2, hdims, fun v hv hpos => ?_⟩
  have := hbound v hv hpos
  rw [pow_add, pow_add, ← mul_assoc, ← mul_assoc]
  exact this

/-- The binary32 Gaussian of the pipeline moves the range of the valid samples by
`2 * (4 * 17 + 1) = 138` roundings. -/
theorem filterGaussian32_scaled (expf : ℚ → ℚ)
    (hexp : ∀ t, -6 ≤ t → t ≤ 0 → 2 ^ (-19 : Int) ≤ expf t ∧ expf t ≤ 1)
    (input output : Image) (hwf : input.WF) (lo hi : ℚ)
    (hlo : 2 ^ (-60 : Int) ≤ lo) (hlohi : lo ≤ hi) (hhi : hi ≤ 2 ^ (60 : Int)) (k : Nat)
    (hk : k ≤ 2 ^ 19)
    (hb : ∀ s ∈ input.data, 0 < s →
      lo * (1 - unitRoundoff) ^ k ≤ s ∧ s ≤ hi * (1 + unitRoundoff) ^ k) :
    ∃ out, filterGaussian32 expf input output (5 / 2) = some out ∧ out.WF ∧
      out.noDims = input.noDims ∧
      ∀ v ∈ out.data, 0 < v →
        lo * (1 - unitRoundoff) ^ (k + 138) ≤ v ∧
          v ≤ hi * (1 + unitRoundoff) ^ (k + 138) := by
  obtain ⟨coeff, hcoeff, hlen, hc⟩ := createGaussianFilter32_pipeline expf hexp
  obtain ⟨h1, h2, h3, _, _⟩ := scaled_range lo hi hlo hlohi hhi k (by omega)
  obtain ⟨tmp, htmp, hwf1, hdims1, hb1⟩ := filterSeparable32_x_bounds input
    (Image.create input.noDims) 17 coeff hwf (by omega) (by norm_num)
    (lo * (1 - unitRoundoff) ^ k) (hi * (1 + unitRoundoff) ^ k) h1 h2 h3 hc hb
  have e69 : 4 * 17 + 1 = 69 := by norm_num
  have hb1' : ∀ s ∈ tmp.data, 0 < s →
      lo * (1 - unitRoundoff) ^ (k + 69) ≤ s ∧ s ≤ hi * (1 + unitRoundoff) ^ (k + 69) := by
    intro s hs hpos
    have := hb1 s hs hpos
    rw [e69] at this
    rw [pow_add, pow_add, ← mul_assoc, ← mul_assoc]
    exact this
  obtain ⟨g1, g2, g3, _, _⟩ := scaled_range lo hi hlo hlohi hhi (k + 69) (by omega)
  obtain ⟨out, hout, hwf2, hdims2, hb2⟩ := filterSeparable32_y_bounds tmp output 17 coeff
    hwf1 (by omega) (by norm_num) (lo * (1 - unitRoundoff) ^ (k + 69))
    (hi * (1 + unitRoundoff) ^ (k + 69)) g1 g2 g3 hc hb1'
  refine ⟨out, ?_, hwf2, by rw [hdims2, hdims1], fun v hv hpos => ?_⟩
  · unfold filterGaussian32
    have hneg : ¬ ((17 : Int) < 0) := by norm_num
    simp only [gaussianFilterSize32_pipeline, Option.bind_eq_bind, Option.some_bind,
      if_neg hneg]
    have h17 : (17 : Int).toNat = 17 := rfl
    rw [h17, hcoeff, Option.some_bind, htmp, Option.some_bind]
    exact hout
  · have := hb2 v hv hpos
    rw [e69] at this
    have e : k + 138 = k + 69 + 69 := by ring
    rw [e, pow_add (1 - unitRoundoff) (k + 69), pow_add (1 + unitRoundoff) (k + 69),
      ← mul_assoc, ← mul_assoc]
    exact this

/-- The binary32 preprocessing is defined and keeps every positive output sample within
`4 * 5 + 138 = 158` roundings of the range of the input's valid samples. -/
theorem preprocess32_bounds (expf : ℚ → ℚ)
    (hexp : ∀ t, -6 ≤ t → t ≤ 0 → 2 ^ (-19 : Int) ≤ expf t ∧ expf t ≤ 1)
    (input p1 p2 : Image) (hwf : input.WF) (lo hi : ℚ)
    (hlo : 2 ^ (-60 : Int) ≤ lo) (hlohi : lo ≤ hi) (hhi : hi ≤ 2 ^ (60 : Int))
    (hb : ∀ s ∈ input.data, 0 < s → lo ≤ s ∧ s ≤ hi) :
    ∃ out scratch, preprocess32 expf input p1 p2 = some (out, scratch) ∧
      ∀ v ∈ out.data, 0 < v →
        lo * (1 - unitRoundoff) ^ 158 ≤ v ∧ v ≤ hi * (1 + unitRoundoff) ^ 158 := by
  have hb0 : ∀ s ∈ input.data, 0 < s →
      lo * (1 - unitRoundoff) ^ 0 ≤ s ∧ s ≤ hi * (1 + unitRoundoff) ^ 0 := by
    simpa using hb
  obtain ⟨i1, h1, w1, _, b1⟩ := filterSubsample32_scaled input p1 hwf lo hi hlo hlohi hhi 0
    (by norm_num) hb0
  obtain ⟨i2, h2, w2, _, b2⟩ := filterSubsample32_scaled i1 p2 w1 lo hi hlo hlohi hhi (0 + 5)
    (by norm_num) b1
  obtain ⟨i3, h3, w3, _, b3⟩ := filterSubsample32_scaled i2 i1 w2 lo hi hlo hlohi hhi
    (0 + 5 + 5) (by norm_num) b2
  obtain ⟨i4, h4, w4, _, b4⟩ := filterSubsample32_scaled i3 i2 w3 lo hi hlo hlohi hhi
    (0 + 5 + 5 + 5) (by norm_num) b3
  obtain ⟨out, h5, _, _, b5⟩ := filterGaussian32_scaled expf hexp i4 i3 w4 lo hi hlo hlohi
    hhi (0 + 5 + 5 + 5 + 5) (by norm_num) b4
  refine ⟨out, i4, ?_, b5⟩
  unfold preprocess32
  simp only [h1, h2, h3, h4, h5, Option.bind_eq_bind, Option.some_bind, Option.pure_def]

/-! ## Depth range of the binary32 outputs -/

/-- The valid samples of an image that lie in `[2^-60, 2^60]`: so do their minimum and
maximum. -/
theorem validSamples_range (I : Image) (hne : (Spec.validSamples I).Nonempty)
    (hr : ∀ s ∈ I.data, 0 < s → 2 ^ (-60 : Int) ≤ s ∧ s ≤ 2 ^ (60 : Int)) :
    2 ^ (-60 : Int) ≤ (Spec.validSamples I).min' hne ∧
      (Spec.validSamples I).min' hne ≤ (Spec.validSamples I).max' hne ∧
      (Spec.validSamples I).max' hne ≤ 2 ^ (60 : Int) := by
  have hmem : ∀ s ∈ Spec.validSamples I, s ∈ I.data ∧ 0 < s := by
    intro s hs
    simpa [Spec.validSamples, List.mem_filter] using hs
  have h1 := hmem _ (Finset.min'_mem _ hne)
  have h2 := hmem _ (Finset.max'_mem _ hne)
  exact ⟨(hr _ h1.1 h1.2).1, Finset.min'_le _ _ (Finset.max'_mem _ hne), (hr _ h2.1 h2.2).2⟩

/-- C20, amended. Preprocessing extends the depth range by no more than rounding. For
every input image that has at least one sample > 0, with `min` and `max` the minimum and
the maximum of its strictly positive samples: when these samples lie in `[2^-60, 2^60]`,
every strictly positive sample of the binary32 output of `filterSubsample` lies between
`min (1 - 2^-24)^5` and `max (1 + 2^-24)^5`; of either Gaussian pass, for a mask of
`M ≤ 2^16` coefficients in `[2^-20, 2^20]`, between `min (1 - 2^-24)^(4M+1)` and
`max (1 + 2^-24)^(4M+1)`; and of the whole preprocessing, for an `exp` with values in
`[2^-19, 1]` on `[-6, 0]`, between `min (1 - 2^-24)^158` and `max (1 + 2^-24)^158`. In
exact arithmetic every stage outputs a convex combination of the valid samples of its
window (positive coefficients), and the strictly positive output samples lie between `min`
and `max`. -/
theorem C20_depth_range_amended (expf : ℚ → ℚ) (hexp : ∀ t, 0 < expf t)
    (input output p1 p2 : Image) (M : Nat) (coeff : List ℚ) (hwf : input.WF)
    (hM : M ≤ coeff.length) (hc : ∀ i, i < M → 0 < coeff.getD i 0)
    (hne : (Spec.validSamples input).Nonempty) :
    ((∀ s ∈ input.data, 0 < s → 2 ^ (-60 : Int) ≤ s ∧ s ≤ 2 ^ (60 : Int)) →
      (∃ out, filterSubsample32 input output = some out ∧
        ∀ v ∈ out.data, 0 < v →
          (Spec.validSamples input).min' hne * (1 - unitRoundoff) ^ 5 ≤ v ∧
            v ≤ (Spec.validSamples input).max' hne * (1 + unitRoundoff) ^ 5) ∧
      (M ≤ 2 ^ 16 →
        (∀ i, i < M → 2 ^ (-20 : Int) ≤ coeff.getD i 0 ∧ coeff.getD i 0 ≤ 2 ^ (20 : Int)) →
        (∃ out, filterSeparable32_x input output M coeff = some out ∧
          ∀ v ∈ out.data, 0 < v →
            (Spec.validSamples input).min' hne * (1 - unitRoundoff) ^ (4 * M + 1) ≤ v ∧
              v ≤ (Spec.validSamples input).max' hne * (1 + unitRoundoff) ^ (4 * M + 1)) ∧
        (∃ out, filterSeparable32_y input output M coeff = some out ∧
          ∀ v ∈ out.data, 0 < v →
            (Spec.validSamples input).min' hne * (1 - unitRoundoff) ^ (4 * M + 1) ≤ v ∧
              v ≤ (Spec.validSamples input).max' hne * (1 + unitRoundoff) ^ (4 * M + 1))) ∧
      ((∀ t, -6 ≤ t → t ≤ 0 → 2 ^ (-19 : Int) ≤ expf t ∧ expf t ≤ 1) →
        ∃ out scratch, preprocess32 expf input p1 p2 = some (out, scratch) ∧
          ∀ v ∈ out.data, 0 < v →
            (Spec.validSamples input).min' hne * (1 - unitRoundoff) ^ 158 ≤ v ∧
              v ≤ (Spec.validSamples input).max' hne * (1 + unitRoundoff) ^ 158)) ∧
    ((∃ out, filterSubsample input output = some out ∧
      ∀ v ∈ out.data, 0 < v →
        (Spec.validSamples input).min' hne ≤ v ∧ v ≤ (Spec.validSamples input).max' hne) ∧
    (∃ out, filterSeparable_x input output M coeff = some out ∧
      ∀ v ∈ out.data, 0 < v →
        (Spec.validSamples input).min' hne ≤ v ∧ v ≤ (Spec.validSamples input).max' hne) ∧
    (∃ out, filterSeparable_y input output M coeff = some out ∧
      ∀ v ∈ out.data, 0 < v →
        (Spec.validSamples input).min' hne ≤ v ∧ v ≤ (Spec.validSamples input).max' hne) ∧
    (∃ out scratch, preprocess expf input p1 p2 = some (out, scratch) ∧
      ∀ v ∈ out.data, 0 < v →
        (Spec.validSamples input).min' hne ≤ v ∧
          v ≤ (Spec.validSamples input).max' hne)) := by
  refine ⟨fun hr => ?_, depth_range_exact expf hexp input output p1 p2 M coeff hwf hM hc hne⟩
  have hb := validSamples_bounds input hne
  obtain ⟨hlo, hlohi, hhi⟩ := validSamples_range input hne hr
  refine ⟨?_, fun hM16 hc32 => ⟨?_, ?_⟩, fun hexp32 => ?_⟩
  · obtain ⟨out, hout, _, _, hbound⟩ := filterSubsample32_bounds input output hwf _ _
      (le_trans (by norm_num) hlo) (le_trans hhi (by norm_num)) hb
    exact ⟨out, hout, hbound⟩
  · obtain ⟨out, hout, _, _, hbound⟩ := filterSeparable32_x_bounds input output M coeff hwf
      hM hM16 _ _ (le_trans (by norm_num) hlo) hlohi (le_trans hhi (by norm_num)) hc32 hb
    exact ⟨out, hout, hbound⟩
  · obtain ⟨out, hout, _, _, hbound⟩ := filterSeparable32_y_bounds input output M coeff hwf
      hM hM16 _ _ (le_trans (by norm_num) hlo) hlohi (le_trans hhi (by norm_num)) hc32 hb
    exact ⟨out, hout, hbound⟩
  · exact preprocess32_bounds expf hexp32 input p1 p2 hwf _ _ hlo hlohi hhi hb

theorem rampImage_WF : rampImage.WF := tabulate_WF _ _

theorem rampImage_validSamples : (Spec.validSamples rampImage).Nonempty := by
  refine ⟨1, ?_⟩
  simp only [Spec.validSamples, List.mem_toFinset, List.mem_filter, rampImage, Spec.tabulate,
    List.mem_map, List.mem_range]
  exact ⟨⟨0, by norm_num, by norm_num⟩, by norm_num⟩

theorem rampImage_range :
    ∀ s ∈ rampImage.data, 0 < s → 2 ^ (-60 : Int) ≤ s ∧ s ≤ 2 ^ (60 : Int) := by
  intro s hs _
  obtain ⟨x, y, hx, hy, rfl⟩ := mem_tabulate _ _ s hs
  have hx16 : x < 16 := hx
  have hy16 : y < 16 := hy
  have hx' : (x : ℚ) ≤ 15 := by exact_mod_cast (by omega : x ≤ 15)
  have hy' : (y : ℚ) ≤ 15 := by exact_mod_cast (by omega : y ≤ 15)
  have hx0 : (0 : ℚ) ≤ x := Nat.cast_nonneg _
  have hy0 : (0 : ℚ) ≤ y := Nat.cast_nonneg _
  have e1 : (2 : ℚ) ^ (-60 : Int) ≤ 1 := by norm_num
  have e2 : (31 : ℚ) ≤ 2 ^ (60 : Int) := by norm_num
  exact ⟨le_trans e1 (by linarith), le_trans (by linarith) e2⟩

/-- The statement C20 on a 16 x 16 image whose samples range from 1 to 31, with the mask
`1, 2, 1` and `1 / (1 + t²)` in place of `exp`: the binary32 outputs and the outputs of
exact arithmetic stay in the stated ranges. -/
theorem C20_depth_range_amended_witness :
    (∀ t : ℚ, 0 < (fun t : ℚ => 1 / (1 + t ^ 2)) t) ∧ rampImage.WF ∧
    3 ≤ ([1, 2, 1] : List ℚ).length ∧ (∀ i, i < 3 → 0 < ([1, 2, 1] : List ℚ).getD i 0) ∧
    (∀ s ∈ rampImage.data, 0 < s → 2 ^ (-60 : Int) ≤ s ∧ s ≤ 2 ^ (60 : Int)) ∧
    3 ≤ 2 ^ 16 ∧
    (∀ i, i < 3 → 2 ^ (-20 : Int) ≤ ([1, 2, 1] : List ℚ).getD i 0 ∧
      ([1, 2, 1] : List ℚ).getD i 0 ≤ 2 ^ (20 : Int)) ∧
    (∀ t : ℚ, -6 ≤ t → t ≤ 0 →
      2 ^ (-19 : Int) ≤ (fun t : ℚ => 1 / (1 + t ^ 2)) t ∧
        (fun t : ℚ => 1 / (1 + t ^ 2)) t ≤ 1) ∧
    (∃ out, filterSubsample32 rampImage staleImage = some out ∧
      ∀ v ∈ out.data, 0 < v →
        (Spec.validSamples rampImage).min' rampImage_validSamples
            * (1 - unitRoundoff) ^ 5 ≤ v ∧
          v ≤ (Spec.validSamples rampImage).max' rampImage_validSamples
            * (1 + unitRoundoff) ^ 5) ∧
    (∃ out, filterSeparable32_x rampImage staleImage 3 [1, 2, 1] = some out ∧
      ∀ v ∈ out.data, 0 < v →
        (Spec.validSamples rampImage).min' rampImage_validSamples
            * (1 - unitRoundoff) ^ (4 * 3 + 1) ≤ v ∧
          v ≤ (Spec.validSamples rampImage).max' rampImage_validSamples
            * (1 + unitRoundoff) ^ (4 * 3 + 1)) ∧
    (∃ out scratch, preprocess32 (fun t => 1 / (1 + t ^ 2)) rampImage staleImage twinImage
        = some (out, scratch) ∧
      ∀ v ∈ out.data, 0 < v →
        (Spec.validSamples rampImage).min' rampImage_validSamples
            * (1 - unitRoundoff) ^ 158 ≤ v ∧
          v ≤ (Spec.validSamples rampImage).max' rampImage_validSamples
            * (1 + unitRoundoff) ^ 158) ∧
    (∃ out scratch, preprocess (fun t => 1 / (1 + t ^ 2)) rampImage staleImage twinImage
        = some (out, scratch) ∧
      ∀ v ∈ out.data, 0 < v →
        (Spec.validSamples rampImage).min' rampImage_validSamples ≤ v ∧
          v ≤ (Spec.validSamples rampImage).max' rampImage_validSamples) := by
  have hexp : ∀ t : ℚ, 0 < (fun t : ℚ => 1 / (1 + t ^ 2)) t := fun t => by
    show 0 < 1 / (1 + t ^ 2)
    positivity
  have hc : ∀ i, i < 3 → 0 < ([1, 2, 1] : List ℚ).getD i 0 := by
    intro i hi
    interval_cases i <;> simp
  have hc32 : ∀ i, i < 3 → 2 ^ (-20 : Int) ≤ ([1, 2, 1] : List ℚ).getD i 0 ∧
      ([1, 2, 1] : List ℚ).getD i 0 ≤ 2 ^ (20 : Int) := by
    intro i hi
    interval_cases i <;> norm_num
  have hexp32 : ∀ t : ℚ, -6 ≤ t → t ≤ 0 →
      2 ^ (-19 : Int) ≤ (fun t : ℚ => 1 / (1 + t ^ 2)) t ∧
        (fun t : ℚ => 1 / (1 + t ^ 2)) t ≤ 1 := by
    intro t h1 h2
    have hsq : t ^ 2 ≤ 36 := by nlinarith
    have hpos : (0 : ℚ) < 1 + t ^ 2 := by positivity
    constructor
    · show (2 : ℚ) ^ (-19 : Int) ≤ 1 / (1 + t ^ 2)
      rw [le_div_iff₀ hpos]
      have e : (2 : ℚ) ^ (-19 : Int) * 37 ≤ 1 := by norm_num
      have : (2 : ℚ) ^ (-19 : Int) * (1 + t ^ 2) ≤ 2 ^ (-19 : Int) * 37 :=
        mul_le_mul_of_nonneg_left (by linarith) (by positivity)
      exact le_trans this e
    · show 1 / (1 + t ^ 2) ≤ 1
      rw [div_le_one hpos]
      nlinarith [sq_nonneg t]
  obtain ⟨h32, hex⟩ := C20_depth_range_amended (fun t => 1 / (1 + t ^ 2)) hexp rampImage
    staleImage staleImage twinImage 3 [1, 2, 1] rampImage_WF (le_refl _) hc
    rampImage_validSamples
  obtain ⟨hs, hp, hpipe⟩ := h32 rampImage_range
  exact ⟨hexp, rampImage_WF, le_refl _, hc, rampImage_range, by norm_num, hc32, hexp32, hs,
    (hp (by norm_num) hc32).1, hpipe hexp32, hex.2.2.2⟩

/-! ## Holes of the binary32 passes -/

/-- Three equal binary32 values of the normal range: the first two sums are exact, the
third sum and the quotient are rounded, and the mean is within two roundings of the
value. -/
theorem meanValid32_replicate_three (v : ℚ) (hv : round32 v = some v)
    (hlo : 2 ^ (-125 : Int) ≤ v) (hle : v ≤ 2 ^ 124) :
    ∃ r, Spec.meanValid32 (List.replicate 3 v) = some r ∧
      v * (1 - unitRoundoff) ^ 2 ≤ r ∧ r ≤ v * (1 + unitRoundoff) ^ 2 := by
  have h20 : (2 : ℚ) ≠ 0 := by norm_num
  have hpos : 0 < v := lt_of_lt_of_le (zpow_pos (by norm_num) _) hlo
  obtain ⟨m, hm, hrep, hu⟩ := round32_fixed v hv
  have hu2 : ulpExponent v ≤ 101 := by
    apply ulpExponent_le v 101 _ (by norm_num) (ne_of_gt hpos)
    rw [abs_of_pos hpos]
    refine lt_of_le_of_lt hle ?_
    norm_num
  have f0 : round32 (0 + v) = some v := by rw [zero_add, hv]
  have f1 : round32 (v + v) = some (v + v) := by
    have : v + v = (m : ℚ) * 2 ^ (ulpExponent v + 1) := by
      rw [zpow_add₀ h20]
      nth_rewrite 1 [hrep]
      nth_rewrite 2 [hrep]
      ring
    rw [this]
    exact round32_exact m (ulpExponent v + 1) hm (by omega) (by omega)
  have e124 : (2 : ℚ) ^ 124 = 2 ^ (124 : Int) := by norm_num
  have h3a : 2 ^ (-126 : Int) ≤ v + v + v := by
    have : (2 : ℚ) ^ (-126 : Int) ≤ 2 ^ (-125 : Int) :=
      zpow_le_zpow_right₀ (by norm_num) (by norm_num)
    linarith
  have h3b : v + v + v ≤ 2 ^ (127 : Int) := by
    have : (3 : ℚ) * 2 ^ (124 : Int) ≤ 2 ^ (127 : Int) := by norm_num
    rw [e124] at hle
    linarith
  obtain ⟨s3, hs3, hs3a, hs3b⟩ := round32_pos (v + v + v) h3a h3b
  obtain ⟨_, _, hhalf, htwo⟩ := unitRoundoff_sandwich
  have ha0 := one_sub_unitRoundoff_pos
  have hb0 := one_add_unitRoundoff_pos
  have hq1 : v * (1 - unitRoundoff) ≤ s3 / 3 := by
    rw [le_div_iff₀ (by norm_num)]
    linarith
  have hq2 : s3 / 3 ≤ v * (1 + unitRoundoff) := by
    rw [div_le_iff₀ (by norm_num)]
    linarith
  have h4a : 2 ^ (-126 : Int) ≤ s3 / 3 := by
    have e : (2 : ℚ) ^ (-126 : Int) = 2 ^ (-125 : Int) * (1 / 2) := by norm_num
    rw [e]
    exact le_trans (mul_le_mul hlo hhalf (by norm_num) (le_of_lt hpos)) hq1
  have h4b : s3 / 3 ≤ 2 ^ (127 : Int) := by
    have e : (2 : ℚ) ^ (124 : Int) * 2 ≤ 2 ^ (127 : Int) := by norm_num
    rw [e124] at hle
    exact le_trans hq2 (le_trans (mul_le_mul hle htwo (le_of_lt hb0) (by positivity)) e)
  obtain ⟨r, hr, hra, hrb⟩ := round32_pos (s3 / 3) h4a h4b
  refine ⟨r, ?_, ?_, ?_⟩
  · unfold Spec.meanValid32
    simp only [List.replicate, List.foldlM, Option.bind_eq_bind]
    rw [accumulateValid32_valid 0 0 v v hpos f0, Option.some_bind,
      accumulateValid32_valid _ _ v _ hpos f1, Option.some_bind,
      accumulateValid32_valid _ _ v _ hpos hs3, Option.some_bind]
    simp only [Option.pure_def, Option.some_bind, div32]
    norm_num
    exact hr
  · calc v * (1 - unitRoundoff) ^ 2 = v * (1 - unitRoundoff) * (1 - unitRoundoff) := by ring
      _ ≤ s3 / 3 * (1 - unitRoundoff) := mul_le_mul_of_nonneg_right hq1 (le_of_lt ha0)
      _ ≤ r := hra
  · calc r ≤ s3 / 3 * (1 + unitRoundoff) := hrb
      _ ≤ v * (1 + unitRoundoff) * (1 + unitRoundoff) :=
          mul_le_mul_of_nonneg_right hq2 (le_of_lt hb0)
      _ = v * (1 + unitRoundoff) ^ 2 := by ring

/-- A block with three valid samples, all equal to a binary32 value `v` of the normal
range, in any positions: the binary32 mean is within two roundings of `v`. -/
theorem meanValid32_equal_three (vs : List ℚ) (v : ℚ) (hv : round32 v = some v)
    (hlo : 2 ^ (-125 : Int) ≤ v) (hle : v ≤ 2 ^ 124) (heq : ∀ s ∈ vs, 0 < s → s = v)
    (hn : (vs.filter fun s => decide (0 < s)).length = 3) :
    ∃ r, Spec.meanValid32 vs = some r ∧
      v * (1 - unitRoundoff) ^ 2 ≤ r ∧ r ≤ v * (1 + unitRoundoff) ^ 2 := by
  have hrep : (vs.filter fun s => decide (0 < s)) = List.replicate 3 v := by
    rw [List.eq_replicate_iff]
    refine ⟨hn, fun b hb => ?_⟩
    rw [List.mem_filter] at hb
    exact heq b hb.1 (by simpa using hb.2)
  obtain ⟨r, hr, hb⟩ := meanValid32_replicate_three v hv hlo hle
  refine ⟨r, ?_, hb⟩
  unfold Spec.meanValid32 at hr ⊢
  rw [foldlM_accumulateValid32_filter, hrep]
  exact hr

/-- C9, amended. Holes do not dilute the subsample mean, up to the rounding of the sum of
three samples. For every input image with no sample above `2^124` and every 2x2 input
block of `filterSubsample` whose samples > 0 all equal a binary32 value `v` (the other
samples being ≤ 0, in any positions): when the block has one, two or four valid samples
the output computed in binary32 is exactly `v`; when it has three, and `v ≥ 2^-125`, the
output lies between `v (1 - 2^-24)^2` and `v (1 + 2^-24)^2`. In exact arithmetic the output
is exactly `v` for any number of equal valid samples. -/
theorem C9_subsample_mean_amended (input output : Image) (hwf : input.WF)
    (hfin : ∀ s ∈ input.data, s ≤ 2 ^ 124) :
    (∃ out, filterSubsample32 input output = some out ∧
      ∀ x y, x < input.noDims.x / 2 → y < input.noDims.y / 2 → ∀ v : ℚ,
        round32 v = some v →
        (∀ s ∈ Spec.block input x y, 0 < s → s = v) →
        (((Spec.block input x y).filter fun s => decide (0 < s)).length = 1 ∨
            ((Spec.block input x y).filter fun s => decide (0 < s)).length = 2 ∨
            ((Spec.block input x y).filter fun s => decide (0 < s)).length = 4 →
          out.data[y * (input.noDims.x / 2) + x]? = some v) ∧
        (((Spec.block input x y).filter fun s => decide (0 < s)).length = 3 →
          2 ^ (-125 : Int) ≤ v →
          ∃ r, out.data[y * (input.noDims.x / 2) + x]? = some r ∧
            v * (1 - unitRoundoff) ^ 2 ≤ r ∧ r ≤ v * (1 + unitRoundoff) ^ 2)) ∧
    (∃ out, filterSubsample input output = some out ∧
      ∀ x y, x < input.noDims.x / 2 → y < input.noDims.y / 2 → ∀ v : ℚ,
        (∃ s ∈ Spec.block input x y, 0 < s) →
        (∀ s ∈ Spec.block input x y, 0 < s → s = v) →
        out.data[y * (input.noDims.x / 2) + x]? = some v) := by
  refine ⟨⟨_, (filterSubsample32_total input output hwf hfin).1, ?_⟩,
    subsample_equal_exact input output hwf⟩
  intro x y hx hy v hv heq
  have hle : ((Spec.block input x y).filter fun s => decide (0 < s)) ≠ [] → v ≤ 2 ^ 124 := by
    intro hne
    obtain ⟨b, hb⟩ := List.exists_mem_of_ne_nil _ hne
    rw [List.mem_filter] at hb
    have hb2 : 0 < b := by simpa using hb.2
    rw [← heq b hb.1 hb2]
    exact hfin b (block_mem_of_pos input x y b hb.1 hb2)
  refine ⟨fun hn => ?_, fun hn hlo => ?_⟩
  · have hne : ((Spec.block input x y).filter fun s => decide (0 < s)) ≠ [] := by
      intro h
      rw [h] at hn
      simp at hn
    rw [tabulate_getElem? ⟨input.noDims.x / 2, input.noDims.y / 2⟩ _ x y hx hy,
      meanValid32_equal (Spec.block input x y) v hv (hle hne) heq hn]
    rfl
  · have hne : ((Spec.block input x y).filter fun s => decide (0 < s)) ≠ [] := by
      intro h
      rw [h] at hn
      simp at hn
    obtain ⟨r, hr, hb⟩ := meanValid32_equal_three (Spec.block input x y) v hv hlo (hle hne)
      heq hn
    refine ⟨r, ?_, hb⟩
    rw [tabulate_getElem? ⟨input.noDims.x / 2, input.noDims.y / 2⟩ _ x y hx hy, hr]
    rfl

/-- The statement C9 on the block `5, 0 / -1, 5`: two valid samples, and the output pixel
is 5 in binary32 and in exact arithmetic. -/
theorem C9_subsample_mean_amended_witness :
    twinImage.WF ∧ (∀ s ∈ twinImage.data, s ≤ 2 ^ 124) ∧
    (∃ out, filterSubsample32 twinImage staleImage = some out ∧ out.data[0]? = some 5) ∧
    (∃ out, filterSubsample twinImage staleImage = some out ∧ out.data[0]? = some 5) := by
  have hfin : ∀ s ∈ twinImage.data, s ≤ 2 ^ 124 := by
    intro s hs
    simp only [twinImage, List.mem_cons, List.mem_singleton, List.not_mem_nil, or_false] at hs
    rcases hs with rfl | rfl | rfl | rfl <;> norm_num
  have hb : Spec.block twinImage 0 0 = [5, 0, -1, 5] := by
    simp [Spec.block, Spec.sample, twinImage]
  have h5 : round32 5 = some 5 := by
    have := round32_exact 5 0 (by norm_num) (by norm_num) (by norm_num)
    norm_num at this ⊢
    exact this
  have heq : ∀ s ∈ Spec.block twinImage 0 0, 0 < s → s = 5 := by
    intro s hs hpos
    rw [hb] at hs
    simp only [List.mem_cons, List.mem_singleton, List.not_mem_nil, or_false] at hs
    rcases hs with rfl | rfl | rfl | rfl <;> first | rfl | (exfalso; norm_num at hpos)
  obtain ⟨⟨out, hout, h⟩, ⟨out2, hout2, h2⟩⟩ :=
    C9_subsample_mean_amended twinImage staleImage twinImage_WF hfin
  refine ⟨twinImage_WF, hfin, ⟨out, hout, ?_⟩, ⟨out2, hout2, ?_⟩⟩
  · have h0 := (h 0 0 (by decide) (by decide) 5 h5 heq).1 (Or.inr (Or.inl (by
      rw [hb]
      norm_num [List.filter])))
    simpa using h0
  · have h0 := h2 0 0 (by decide) (by decide) 5 ⟨5, by rw [hb]; simp, by norm_num⟩ heq
    simpa using h0

end FernRelocLib
